import Mathlib

/-!
# Verification of the incremental worst-case-optimal join engine

A shallow embedding, in Lean 4, of the core data structures and algorithms of the
`dataflow-join` repository: the multiversion index (`CompactIndex`, `EdgeList`,
`Unsorted`, `Index` with its `count` / `propose` / `intersect` / `update` /
`merge_to` / `initialize` operations, from `src/index.rs`), the generic-join
extension pipeline (from `lib.rs`), and the motif planner (from `motif.rs`).

Modelling conventions:
* keys, values and times are `Nat` (the Rust code is generic over ordered types,
  and instantiates them with small unsigned integers);
* signed `i32` diffs are modelled as `Int`; `usize`/`u64` quantities are `Nat`,
  with an explicit `% 2 ^ 64` wherever the Rust code can wrap (the `as u64`
  conversion in `Index::count` and the `usize` subtraction in
  `EdgeList::seal_from`);
* Rust's `sort_unstable_by` is modelled by the stable `List.insertionSort` on
  the same comparison key.  Every use in the source sorts by a projection and
  then aggregates per equal key, so any sort on that key yields the same
  observable results; the stable sort is the canonical representative;
* in-place mutation becomes explicit state passing: operations that mutate the
  index return the new index together with the transformed data vector.
-/

namespace DataflowJoin

/-- Modelled from the spec: the crate-root helper `advance` (galloping search) is used
throughout `index.rs` but its definition is not among the provided sources (the provided
`lib.rs` predates it).  Per the spec (§9), it performs an exponential-then-binary search
for the number of leading elements of a slice that satisfy a monotone predicate; on the
sorted slices it is applied to this equals the length of the maximal satisfying prefix. -/
def advance {α : Type} (l : List α) (p : α → Bool) : Nat :=
  (l.takeWhile p).length

theorem advance_pos {α : Type} {l : List α} {p : α → Bool} {a : α} {l' : List α}
    (h : l = a :: l') (hp : p a = true) : 0 < advance l p := by
  subst h
  simp [advance, List.takeWhile, hp]

theorem advance_le_length {α : Type} (l : List α) (p : α → Bool) :
    advance l p ≤ l.length :=
  (List.takeWhile_sublist p).length_le

/-! ## Motif planner (`src/motif.rs`)

`order_attributes` chooses an attribute order for a motif, starting from the two
endpoints of the source relation and repeatedly scanning the relation list; each
relation with exactly one endpoint already active appends its other endpoint.
The Rust `while !done` loop is modelled with an explicit fuel which we prove
sufficient to reach the fixpoint. -/

/-- First `if` of the relation scan: `if active.contains(&src) && !active.contains(&dst)
{ active.push(dst); }`. -/
def orderStepA (a : List Nat) (sd : Nat × Nat) : List Nat :=
  if sd.1 ∈ a ∧ sd.2 ∉ a then a ++ [sd.2] else a

/-- Second `if` of the relation scan (evaluated on the updated list):
`if active.contains(&dst) && !active.contains(&src) { active.push(src); }`. -/
def orderStepB (a1 : List Nat) (sd : Nat × Nat) : List Nat :=
  if sd.2 ∈ a1 ∧ sd.1 ∉ a1 then a1 ++ [sd.1] else a1

/-- The per-relation step of the scan: both `if`s in sequence. -/
def orderStep (a : List Nat) (sd : Nat × Nat) : List Nat :=
  orderStepB (orderStepA a sd) sd

def orderPass (relations : List (Nat × Nat)) (active : List Nat) : List Nat :=
  relations.foldl orderStep active

/-- The `while !done` loop of `order_attributes`: repeat `orderPass` until a pass
changes nothing.  Fuel-indexed; `orderLoop_fix` shows the fuel used by
`orderActive` reaches the fixpoint. -/
def orderLoop (relations : List (Nat × Nat)) : Nat → List Nat → List Nat
  | 0, a => a
  | n + 1, a =>
    let b := orderPass relations a
    if b = a then a else orderLoop relations n b

/-- The attribute order computed by `order_attributes` (step 1): seed with the two
endpoints of the source relation, then scan to fixpoint. -/
def orderActive (relations : List (Nat × Nat)) (relationIndex : Nat) : List Nat :=
  let sd := relations.getD relationIndex (0, 0)
  orderLoop relations (2 * relations.length + 1) [sd.1, sd.2]

/-- Step 2 of `order_attributes`: `let mut relabel = vec![0; active.len()]; for
(position, &attribute) in active.iter().enumerate() { relabel[attribute] = position; }`.
The indexing `relabel[attribute]` panics when `attribute ≥ active.len()`; the panic is
modelled by `none`. -/
def relabelStep (acc : Option (List Nat)) (pa : Nat × Nat) : Option (List Nat) :=
  acc.bind fun relabel =>
    if pa.2 < relabel.length then some (relabel.set pa.2 pa.1) else none

def buildRelabel (active : List Nat) : Option (List Nat) :=
  active.enum.foldl relabelStep (some (List.replicate active.length 0))

/-- The relabelling map applied to all relations:
`relations.iter().map(|&(src,dst)| (relabel[src], relabel[dst]))`; again an index
out of bounds panics, modelled by `none`. -/
def remapRelations (relabel : List Nat) : List (Nat × Nat) → Option (List (Nat × Nat))
  | [] => some []
  | sd :: rest =>
    if sd.1 < relabel.length ∧ sd.2 < relabel.length then
      (remapRelations relabel rest).map
        (fun tail => (relabel.getD sd.1 0, relabel.getD sd.2 0) :: tail)
    else none

/-- `order_attributes` in full: the attribute order, the relabelling, and the
relabelled relations; `none` models the function panicking. -/
def order_attributes (relations : List (Nat × Nat)) (relationIndex : Nat) :
    Option (List Nat × List Nat × List (Nat × Nat)) :=
  (buildRelabel (orderActive relations relationIndex)).bind fun relabel =>
    (remapRelations relabel relations).map fun rel =>
      (orderActive relations relationIndex, relabel, rel)

/-! ### Structural lemmas about `orderPass` -/

theorem orderStepA_append (a : List Nat) (sd : Nat × Nat) :
    ∃ t, orderStepA a sd = a ++ t := by
  unfold orderStepA; split
  · exact ⟨[sd.2], rfl⟩
  · exact ⟨[], by simp⟩

theorem orderStepB_append (a : List Nat) (sd : Nat × Nat) :
    ∃ t, orderStepB a sd = a ++ t := by
  unfold orderStepB; split
  · exact ⟨[sd.1], rfl⟩
  · exact ⟨[], by simp⟩

theorem orderStep_append (a : List Nat) (sd : Nat × Nat) :
    ∃ t, orderStep a sd = a ++ t := by
  obtain ⟨t1, h1⟩ := orderStepA_append a sd
  obtain ⟨t2, h2⟩ := orderStepB_append (orderStepA a sd) sd
  exact ⟨t1 ++ t2, by rw [orderStep, h2, h1, List.append_assoc]⟩

theorem foldl_orderStep_append (rs : List (Nat × Nat)) (a : List Nat) :
    ∃ t, rs.foldl orderStep a = a ++ t := by
  induction rs generalizing a with
  | nil => exact ⟨[], by simp⟩
  | cons sd rest ih =>
    obtain ⟨t1, h1⟩ := orderStep_append a sd
    obtain ⟨t2, h2⟩ := ih (orderStep a sd)
    refine ⟨t1 ++ t2, ?_⟩
    rw [List.foldl_cons, h2, h1, List.append_assoc]

theorem length_foldl_orderStep_mono (rs : List (Nat × Nat)) (a : List Nat) :
    a.length ≤ (rs.foldl orderStep a).length := by
  obtain ⟨t, h⟩ := foldl_orderStep_append rs a
  simp [h]

theorem length_orderStepB_mono (a : List Nat) (sd : Nat × Nat) :
    a.length ≤ (orderStepB a sd).length := by
  obtain ⟨t, h⟩ := orderStepB_append a sd
  simp [h]

theorem orderPass_ne_of_violation {rs : List (Nat × Nat)} {a : List Nat}
    (h : ∃ sd ∈ rs, (sd.1 ∈ a ∧ sd.2 ∉ a) ∨ (sd.2 ∈ a ∧ sd.1 ∉ a)) :
    a.length < (orderPass rs a).length := by
  rw [orderPass]
  induction rs generalizing a with
  | nil => simp at h
  | cons hd rest ih =>
    obtain ⟨sd, hmem, hviol⟩ := h
    rw [List.foldl_cons]
    rcases List.mem_cons.mp hmem with heq | hrest
    · -- the violating relation is the head: the step grows `a`.
      subst heq
      have hgrow : a.length < (orderStep a sd).length := by
        rw [orderStep]
        rcases hviol with ⟨h1, h2⟩ | ⟨h1, h2⟩
        · have hA : orderStepA a sd = a ++ [sd.2] := by
            rw [orderStepA, if_pos ⟨h1, h2⟩]
          calc a.length < (a ++ [sd.2]).length := by simp
            _ = (orderStepA a sd).length := by rw [hA]
            _ ≤ _ := length_orderStepB_mono _ _
        · have hA : orderStepA a sd = a := by
            rw [orderStepA, if_neg (fun hc => h2 hc.1)]
          rw [hA, orderStepB, if_pos ⟨h1, h2⟩]
          simp
      exact lt_of_lt_of_le hgrow (length_foldl_orderStep_mono rest _)
    · -- the violating relation is in the tail.
      obtain ⟨t, ht⟩ := orderStep_append a hd
      rcases t with _ | ⟨x, t'⟩
      · -- head step was a no-op: the violation persists.
        have ha : orderStep a hd = a := by rw [ht]; simp
        rw [ha]
        exact ih ⟨sd, hrest, hviol⟩
      · -- head step already grew the list.
        have hlt : a.length < (orderStep a hd).length := by rw [ht]; simp
        exact lt_of_lt_of_le hlt (length_foldl_orderStep_mono rest _)

/-- At a fixpoint of `orderPass`, no relation has exactly one active endpoint. -/
theorem orderPass_fix_closure {rs : List (Nat × Nat)} {a : List Nat}
    (hfix : orderPass rs a = a) :
    ∀ sd ∈ rs, ¬(sd.1 ∈ a ∧ sd.2 ∉ a) ∧ ¬(sd.2 ∈ a ∧ sd.1 ∉ a) := by
  intro sd hsd
  constructor <;> intro hviol
  · have := orderPass_ne_of_violation ⟨sd, hsd, Or.inl hviol⟩
    rw [hfix] at this; omega
  · have := orderPass_ne_of_violation ⟨sd, hsd, Or.inr hviol⟩
    rw [hfix] at this; omega

/-- All attribute ids mentioned by the relation list. -/
def endpoints (rs : List (Nat × Nat)) : List Nat :=
  rs.flatMap fun sd => [sd.1, sd.2]

theorem length_endpoints (rs : List (Nat × Nat)) :
    (endpoints rs).length = 2 * rs.length := by
  induction rs with
  | nil => rfl
  | cons sd rest ih => simp [endpoints] at ih ⊢; omega

theorem mem_endpoints_of_mem {rs : List (Nat × Nat)} {sd : Nat × Nat} (h : sd ∈ rs) :
    sd.1 ∈ endpoints rs ∧ sd.2 ∈ endpoints rs := by
  constructor <;> · simp only [endpoints, List.mem_flatMap]; exact ⟨sd, h, by simp⟩

/-- Invariant of the scan: the active list is the seed followed by a duplicate-free
tail of attribute ids mentioned in the relations and absent from the seed. -/
def GrowthInv (rs : List (Nat × Nat)) (init a : List Nat) : Prop :=
  ∃ tail, a = init ++ tail ∧ tail.Nodup ∧ ∀ x ∈ tail, x ∈ endpoints rs ∧ x ∉ init

theorem growthInv_push {rs : List (Nat × Nat)} {init a : List Nat} {y : Nat}
    (h : GrowthInv rs init a) (hy : y ∈ endpoints rs) (hnot : y ∉ a) :
    GrowthInv rs init (a ++ [y]) := by
  obtain ⟨tail, rfl, hnd, hmem⟩ := h
  refine ⟨tail ++ [y], by simp, ?_, ?_⟩
  · refine List.Nodup.append hnd (List.nodup_singleton y) ?_
    intro x hx hy'
    simp only [List.mem_singleton] at hy'
    exact hnot (by simp [hy' ▸ hx])
  · intro x hx
    rcases List.mem_append.mp hx with hx | hx
    · exact hmem x hx
    · simp only [List.mem_singleton] at hx
      subst hx
      exact ⟨hy, fun hc => hnot (by simp [hc])⟩

theorem growthInv_stepA {rs : List (Nat × Nat)} {init a : List Nat} {sd : Nat × Nat}
    (hsd : sd ∈ rs) (h : GrowthInv rs init a) : GrowthInv rs init (orderStepA a sd) := by
  rw [orderStepA]
  split
  · exact growthInv_push h (mem_endpoints_of_mem hsd).2 (by tauto)
  · exact h

theorem growthInv_stepB {rs : List (Nat × Nat)} {init a : List Nat} {sd : Nat × Nat}
    (hsd : sd ∈ rs) (h : GrowthInv rs init a) : GrowthInv rs init (orderStepB a sd) := by
  rw [orderStepB]
  split
  · exact growthInv_push h (mem_endpoints_of_mem hsd).1 (by tauto)
  · exact h

theorem growthInv_foldl {rs : List (Nat × Nat)} {init : List Nat} :
    ∀ (l : List (Nat × Nat)) (a : List Nat), (∀ sd ∈ l, sd ∈ rs) →
      GrowthInv rs init a → GrowthInv rs init (l.foldl orderStep a)
  | [], _, _, h => h
  | sd :: rest, a, hsub, h => by
    rw [List.foldl_cons]
    refine growthInv_foldl rest _ (fun x hx => hsub x (List.mem_cons_of_mem _ hx)) ?_
    exact growthInv_stepB (hsub sd (List.mem_cons_self _ _))
      (growthInv_stepA (hsub sd (List.mem_cons_self _ _)) h)

theorem growthInv_orderLoop {rs : List (Nat × Nat)} {init : List Nat} :
    ∀ (fuel : Nat) (a : List Nat), GrowthInv rs init a →
      GrowthInv rs init (orderLoop rs fuel a)
  | 0, _, h => h
  | fuel + 1, a, h => by
    rw [orderLoop]
    split
    · exact h
    · exact growthInv_orderLoop fuel _ (growthInv_foldl rs a (fun _ hx => hx) h)

theorem growthInv_length {rs : List (Nat × Nat)} {init a : List Nat}
    (h : GrowthInv rs init a) : a.length ≤ init.length + 2 * rs.length := by
  obtain ⟨tail, rfl, hnd, hmem⟩ := h
  have hsub : tail ⊆ endpoints rs := fun x hx => (hmem x hx).1
  have h1 : tail.toFinset.card = tail.length := List.toFinset_card_of_nodup hnd
  have h2 : tail.toFinset ⊆ (endpoints rs).toFinset := by
    intro x hx
    simp only [List.mem_toFinset] at hx ⊢
    exact hsub hx
  have h3 : (endpoints rs).toFinset.card ≤ (endpoints rs).length :=
    (endpoints rs).toFinset_card_le
  have := Finset.card_le_card h2
  have hlen := length_endpoints rs
  simp only [List.length_append]
  omega

theorem orderLoop_fix_or_length (rs : List (Nat × Nat)) :
    ∀ (fuel : Nat) (a : List Nat),
      orderPass rs (orderLoop rs fuel a) = orderLoop rs fuel a ∨
        a.length + fuel ≤ (orderLoop rs fuel a).length
  | 0, a => Or.inr (by simp [orderLoop])
  | fuel + 1, a => by
    rw [orderLoop]
    split
    · next heq => exact Or.inl heq
    · next hne =>
      rcases orderLoop_fix_or_length rs fuel (orderPass rs a) with h | h
      · exact Or.inl h
      · refine Or.inr ?_
        obtain ⟨t, ht⟩ := foldl_orderStep_append rs a
        have ht' : orderPass rs a = a ++ t := ht
        have htne : t ≠ [] := by
          intro hc
          exact hne (by rw [ht', hc, List.append_nil])
        have htlen : 1 ≤ t.length := by
          cases t with
          | nil => exact absurd rfl htne
          | cons _ _ => simp
        rw [ht'] at h ⊢
        simp only [List.length_append] at h ⊢
        omega

/-- The fuel `2 * |relations| + 1` suffices: `orderActive` is a fixpoint of the scan. -/
theorem orderActive_fix (rs : List (Nat × Nat)) (i : Nat) :
    orderPass rs (orderActive rs i) = orderActive rs i := by
  set sd := rs.getD i (0, 0) with hsd
  have hinv0 : GrowthInv rs [sd.1, sd.2] [sd.1, sd.2] := ⟨[], by simp⟩
  have hinv := growthInv_orderLoop (2 * rs.length + 1) _ hinv0
  rcases orderLoop_fix_or_length rs (2 * rs.length + 1) [sd.1, sd.2] with h | h
  · exact h
  · exfalso
    have := growthInv_length hinv
    simp only [List.length_cons, List.length_nil] at this h
    have : (orderLoop rs (2 * rs.length + 1) [sd.1, sd.2]).length ≤ 2 + 2 * rs.length := by
      simpa using this
    omega

theorem growthInv_orderActive (rs : List (Nat × Nat)) (i : Nat) :
    GrowthInv rs [(rs.getD i (0, 0)).1, (rs.getD i (0, 0)).2] (orderActive rs i) :=
  growthInv_orderLoop _ _ ⟨[], by simp⟩

theorem orderActive_take_two (rs : List (Nat × Nat)) (i : Nat) :
    (orderActive rs i).take 2 = [(rs.getD i (0, 0)).1, (rs.getD i (0, 0)).2] := by
  obtain ⟨tail, heq, -, -⟩ := growthInv_orderActive rs i
  rw [heq]
  rfl

theorem orderActive_nodup (rs : List (Nat × Nat)) (i : Nat)
    (hne : (rs.getD i (0, 0)).1 ≠ (rs.getD i (0, 0)).2) :
    (orderActive rs i).Nodup := by
  obtain ⟨tail, heq, hnd, hmem⟩ := growthInv_orderActive rs i
  rw [heq]
  refine List.Nodup.append ?_ hnd ?_
  · exact List.nodup_cons.mpr ⟨by simpa using hne, List.nodup_singleton _⟩
  · intro x hx hx'
    exact (hmem x hx').2 hx

/-! ### Soundness of appended attributes -/

/-- Position `j` of the active list is justified: some relation connects the attribute
at `j` to an attribute introduced strictly earlier. -/
def Supported (rs : List (Nat × Nat)) (a : List Nat) (j : Nat) : Prop :=
  ∃ sd ∈ rs, (a.getD j 0 = sd.2 ∧ sd.1 ∈ a.take j) ∨ (a.getD j 0 = sd.1 ∧ sd.2 ∈ a.take j)

/-- All positions past the seed pair are justified. -/
def SoundTail (rs : List (Nat × Nat)) (a : List Nat) : Prop :=
  ∀ j, 2 ≤ j → j < a.length → Supported rs a j

theorem getD_append_length (a : List Nat) (y d : Nat) :
    (a ++ [y]).getD a.length d = y := by
  induction a with
  | nil => rfl
  | cons x rest ih => simp only [List.cons_append, List.length_cons, List.getD_cons_succ]; exact ih

theorem supported_of_append {rs : List (Nat × Nat)} {a : List Nat} {j : Nat} {y : Nat}
    (h : Supported rs a j) (hj : j < a.length) : Supported rs (a ++ [y]) j := by
  obtain ⟨sd, hsd, hcase⟩ := h
  refine ⟨sd, hsd, ?_⟩
  have hget : (a ++ [y]).getD j 0 = a.getD j 0 := by
    simp [List.getD, List.getElem?_append_left hj]
  have htake : (a ++ [y]).take j = a.take j :=
    List.take_append_of_le_length (Nat.le_of_lt hj)
  rw [hget, htake]
  exact hcase

theorem soundTail_push {rs : List (Nat × Nat)} {a : List Nat} {y : Nat}
    (h : SoundTail rs a)
    (hy : ∃ sd ∈ rs, (y = sd.2 ∧ sd.1 ∈ a) ∨ (y = sd.1 ∧ sd.2 ∈ a)) :
    SoundTail rs (a ++ [y]) := by
  intro j h2 hj
  simp only [List.length_append, List.length_singleton] at hj
  by_cases hlt : j < a.length
  · exact supported_of_append (h j h2 hlt) hlt
  · have hj' : j = a.length := by omega
    subst hj'
    obtain ⟨sd, hsd, hcase⟩ := hy
    refine ⟨sd, hsd, ?_⟩
    rw [getD_append_length, List.take_left]
    exact hcase

theorem soundTail_stepA {rs : List (Nat × Nat)} {a : List Nat} {sd : Nat × Nat}
    (hsd : sd ∈ rs) (h : SoundTail rs a) : SoundTail rs (orderStepA a sd) := by
  rw [orderStepA]
  split
  · next hcond => exact soundTail_push h ⟨sd, hsd, Or.inl ⟨rfl, hcond.1⟩⟩
  · exact h

theorem soundTail_stepB {rs : List (Nat × Nat)} {a : List Nat} {sd : Nat × Nat}
    (hsd : sd ∈ rs) (h : SoundTail rs a) : SoundTail rs (orderStepB a sd) := by
  rw [orderStepB]
  split
  · next hcond => exact soundTail_push h ⟨sd, hsd, Or.inr ⟨rfl, hcond.1⟩⟩
  · exact h

theorem soundTail_foldl {rs : List (Nat × Nat)} :
    ∀ (l : List (Nat × Nat)) (a : List Nat), (∀ sd ∈ l, sd ∈ rs) →
      SoundTail rs a → SoundTail rs (l.foldl orderStep a)
  | [], _, _, h => h
  | sd :: rest, a, hsub, h => by
    rw [List.foldl_cons]
    refine soundTail_foldl rest _ (fun x hx => hsub x (List.mem_cons_of_mem _ hx)) ?_
    exact soundTail_stepB (hsub sd (List.mem_cons_self _ _))
      (soundTail_stepA (hsub sd (List.mem_cons_self _ _)) h)

theorem soundTail_orderLoop {rs : List (Nat × Nat)} :
    ∀ (fuel : Nat) (a : List Nat), SoundTail rs a → SoundTail rs (orderLoop rs fuel a)
  | 0, _, h => h
  | fuel + 1, a, h => by
    rw [orderLoop]
    split
    · exact h
    · exact soundTail_orderLoop fuel _ (soundTail_foldl rs a (fun _ hx => hx) h)

theorem soundTail_orderActive (rs : List (Nat × Nat)) (i : Nat) :
    SoundTail rs (orderActive rs i) := by
  refine soundTail_orderLoop _ _ ?_
  intro j h2 hj
  simp only [List.length_cons, List.length_nil] at hj
  omega

/-! ### `buildRelabel` and `remapRelations` -/

theorem relabelStep_none (pa : Nat × Nat) : relabelStep none pa = none := rfl

theorem buildRelabel_go_none (l : List (Nat × Nat)) :
    l.foldl relabelStep none = none := by
  induction l with
  | nil => rfl
  | cons pa rest ih => rw [List.foldl_cons, relabelStep_none]; exact ih

theorem buildRelabel_go_spec (l : List (Nat × Nat)) (r : List Nat) :
    (∀ pa ∈ l, pa.2 < r.length) →
      (∃ r', l.foldl relabelStep (some r) = some r' ∧ r'.length = r.length) := by
  induction l generalizing r with
  | nil => exact fun _ => ⟨r, rfl, rfl⟩
  | cons pa rest ih =>
    intro hall
    rw [List.foldl_cons]
    have hstep : relabelStep (some r) pa = some (r.set pa.2 pa.1) := by
      simp [relabelStep, if_pos (hall pa (List.mem_cons_self _ _))]
    rw [hstep]
    obtain ⟨r', hr', hlen⟩ := ih (r.set pa.2 pa.1)
      (fun x hx => by
        rw [List.length_set]
        exact hall x (List.mem_cons_of_mem _ hx))
    exact ⟨r', hr', by rw [hlen, List.length_set]⟩

theorem buildRelabel_go_bad (l : List (Nat × Nat)) (r : List Nat)
    (h : ∃ pa ∈ l, r.length ≤ pa.2) :
    l.foldl relabelStep (some r) = none := by
  induction l generalizing r with
  | nil => simp at h
  | cons pa rest ih =>
    obtain ⟨x, hx, hge⟩ := h
    rw [List.foldl_cons]
    rcases List.mem_cons.mp hx with heq | hrest
    · subst heq
      have hstep : relabelStep (some r) x = none := by
        simp only [relabelStep, Option.some_bind]
        rw [if_neg (by omega)]
      rw [hstep]
      exact buildRelabel_go_none rest
    · by_cases hlt : pa.2 < r.length
      · have hstep : relabelStep (some r) pa = some (r.set pa.2 pa.1) := by
          simp [relabelStep, if_pos hlt]
        rw [hstep]
        exact ih _ ⟨x, hrest, by rwa [List.length_set]⟩
      · have hstep : relabelStep (some r) pa = none := by
          simp only [relabelStep, Option.some_bind]
          rw [if_neg hlt]
        rw [hstep]
        exact buildRelabel_go_none rest

theorem buildRelabel_none {active : List Nat}
    (h : ∃ x ∈ active, active.length ≤ x) : buildRelabel active = none := by
  obtain ⟨x, hx, hge⟩ := h
  have hx' : x ∈ active.enum.map Prod.snd := by
    rw [List.enum_map_snd]
    exact hx
  obtain ⟨pa, hpa, hpa2⟩ := List.mem_map.mp hx'
  refine buildRelabel_go_bad _ _ ⟨pa, hpa, ?_⟩
  rw [List.length_replicate, hpa2]
  exact hge

theorem buildRelabel_some {active : List Nat}
    (h : ∀ x ∈ active, x < active.length) :
    ∃ r, buildRelabel active = some r ∧ r.length = active.length := by
  have hall : ∀ pa ∈ active.enum, pa.2 < (List.replicate active.length 0).length := by
    intro pa hpa
    rw [List.length_replicate]
    refine h pa.2 ?_
    have : pa.2 ∈ active.enum.map Prod.snd := List.mem_map_of_mem Prod.snd hpa
    rwa [List.enum_map_snd] at this
  obtain ⟨r, hr, hlen⟩ := buildRelabel_go_spec _ _ hall
  exact ⟨r, hr, by rw [hlen, List.length_replicate]⟩

theorem remapRelations_none {relabel : List Nat} {rs : List (Nat × Nat)}
    (h : ∃ sd ∈ rs, relabel.length ≤ sd.1 ∨ relabel.length ≤ sd.2) :
    remapRelations relabel rs = none := by
  induction rs with
  | nil => simp at h
  | cons sd rest ih =>
    obtain ⟨x, hx, hge⟩ := h
    rw [remapRelations]
    rcases List.mem_cons.mp hx with heq | hrest
    · subst heq
      rw [if_neg (by omega)]
    · split
      · rw [ih ⟨x, hrest, hge⟩]
        rfl
      · rfl

/-- A duplicate-free list of naturals all below its length covers every index. -/
theorem mem_of_nodup_lt_length {a : List Nat} (hnd : a.Nodup)
    (hlt : ∀ x ∈ a, x < a.length) : ∀ j < a.length, j ∈ a := by
  intro j hj
  have hcard : a.toFinset.card = a.length := List.toFinset_card_of_nodup hnd
  have hsub : a.toFinset ⊆ Finset.range a.length := by
    intro x hx
    simp only [List.mem_toFinset] at hx
    exact Finset.mem_range.mpr (hlt x hx)
  have heq : a.toFinset = Finset.range a.length :=
    Finset.eq_of_subset_of_card_le hsub (by rw [hcard, Finset.card_range])
  have : j ∈ Finset.range a.length := Finset.mem_range.mpr hj
  rw [← heq] at this
  exact List.mem_toFinset.mp this

/-! ### Claim theorems for the motif planner (C8, C9) -/

/-- C8 (amended): the planner's attribute order starts with the two endpoints of the
source relation; it stops exactly when no relation has one active and one inactive
endpoint; and every appended attribute is the non-active endpoint of some relation
whose other endpoint was introduced strictly earlier.  Candidates are appended in
relation-scan order (the order of the motif list), not by smallest attribute id —
see the counterexample. -/
theorem order_attributes_amended_spec (rs : List (Nat × Nat)) (i : Nat) :
    (orderActive rs i).take 2 = [(rs.getD i (0, 0)).1, (rs.getD i (0, 0)).2] ∧
    (∀ sd ∈ rs,
      ¬(sd.1 ∈ orderActive rs i ∧ sd.2 ∉ orderActive rs i) ∧
      ¬(sd.2 ∈ orderActive rs i ∧ sd.1 ∉ orderActive rs i)) ∧
    (∀ j, 2 ≤ j → j < (orderActive rs i).length → Supported rs (orderActive rs i) j) :=
  ⟨orderActive_take_two rs i,
   orderPass_fix_closure (orderActive_fix rs i),
   soundTail_orderActive rs i⟩

/-- C8 counterexample: on the motif `[(0,1),(0,3),(0,2)]` with source relation `0`,
after the seed `[0,1]` both `2` and `3` are candidate attributes (each bound by a
relation with exactly one active endpoint), yet the code appends `3` before `2`
because it scans relations in list order; the claimed smallest-attribute-id
tie-break would produce `[0,1,2,3]`. -/
theorem order_attributes_tiebreak_counterexample :
    orderActive [(0, 1), (0, 3), (0, 2)] 0 = [0, 1, 3, 2] ∧
    ((0 : Nat) ∈ [0, 1] ∧ (3 : Nat) ∉ [0, 1]) ∧
    ((0 : Nat) ∈ [0, 1] ∧ (2 : Nat) ∉ [0, 1]) ∧
    (2 : Nat) < 3 ∧
    orderActive [(0, 1), (0, 3), (0, 2)] 0 ≠ [0, 1, 2, 3] := by
  refine ⟨by decide, by decide, by decide, by decide, by decide⟩

/-- C9 (amended): for a source relation with distinct endpoints, any motif with an
attribute that is mentioned by some relation but never becomes active (a disconnected
motif) makes the planner fail — the relabelling or remapping indexes out of bounds,
modelled by `none`. -/
theorem order_attributes_disconnected_fails (rs : List (Nat × Nat)) (i : Nat)
    (hne : (rs.getD i (0, 0)).1 ≠ (rs.getD i (0, 0)).2)
    (a : Nat) (ha : a ∈ endpoints rs) (hnot : a ∉ orderActive rs i) :
    order_attributes rs i = none := by
  by_cases hall : ∀ x ∈ orderActive rs i, x < (orderActive rs i).length
  · obtain ⟨r, hr, hlen⟩ := buildRelabel_some hall
    have hcover := mem_of_nodup_lt_length (orderActive_nodup rs i hne) hall
    have hge : (orderActive rs i).length ≤ a := by
      by_contra hlt
      push_neg at hlt
      exact hnot (hcover a hlt)
    obtain ⟨sd, hsd, hcase⟩ : ∃ sd ∈ rs, a = sd.1 ∨ a = sd.2 := by
      simpa [endpoints, List.mem_flatMap] using ha
    have hremap : remapRelations r rs = none := by
      refine remapRelations_none ⟨sd, hsd, ?_⟩
      rcases hcase with h | h
      · exact Or.inl (by rw [hlen, ← h]; exact hge)
      · exact Or.inr (by rw [hlen, ← h]; exact hge)
    rw [order_attributes, hr, Option.some_bind, hremap]
    rfl
  · push_neg at hall
    obtain ⟨x, hx, hge⟩ := hall
    rw [order_attributes, buildRelabel_none ⟨x, hx, Nat.le_of_not_lt (by omega)⟩]
    rfl

/-- Witness for the amended C9: a two-relation disconnected motif. -/
theorem order_attributes_disconnected_fails_witness :
    (2 : Nat) ∈ endpoints [(0, 1), (2, 3)] ∧
    (2 : Nat) ∉ orderActive [(0, 1), (2, 3)] 0 ∧
    order_attributes [(0, 1), (2, 3)] 0 = none :=
  ⟨by decide, by decide,
   order_attributes_disconnected_fails [(0, 1), (2, 3)] 0 (by decide) 2 (by decide) (by decide)⟩

/-- C9 counterexample: with a self-loop source relation, a disconnected motif is
accepted silently.  In `[(1,1),(0,0)]` with source relation `0`, attribute `0` is
mentioned but never becomes active, yet `order_attributes` succeeds (the seed
`[1,1]` contains a duplicate, so no out-of-bounds access occurs). -/
theorem order_attributes_disconnected_counterexample :
    (0 : Nat) ∈ endpoints [(1, 1), (0, 0)] ∧
    (0 : Nat) ∉ orderActive [(1, 1), (0, 0)] 0 ∧
    (order_attributes [(1, 1), (0, 0)] 0).isSome = true := by
  refine ⟨by decide, by decide, by decide⟩

/-! ## Generic-join extension pipeline (`src/lib.rs`, `GenericJoinExt::extend`)

Streams are modelled as lists of records; each dataflow stage is a list
transformer.  Routing/exchange (which only distributes records among workers) is
identity in this single-worker model. -/

section Pipeline

variable {P E : Type}

/-- A prefix extender: the record-by-record `PrefixExtender` trait
(`count`, `propose`, `intersect`).  The routing function is omitted: it only
selects a worker. -/
structure PrefixExtender (P E : Type) where
  count : P → Nat
  propose : P → List E
  intersect : P → List E → List E

/-- Per-record logic of the `Count` operator (`StreamPrefixExtender::count` in
`lib.rs`): `let nc = extender.count(&p); if nc > c { Some((p,c,i)) } else
{ if nc > 0 { Some((p,nc,ident)) } else { None } }`. -/
def countRowStep (ext : PrefixExtender P E) (ident : Nat) (r : P × Nat × Nat) :
    Option (P × Nat × Nat) :=
  let nc := ext.count r.1
  if nc > r.2.1 then some r else if 0 < nc then some (r.1, nc, ident) else none

/-- The `Count` operator on a batch. -/
def countStage (ext : PrefixExtender P E) (ident : Nat) (l : List (P × Nat × Nat)) :
    List (P × Nat × Nat) :=
  l.filterMap (countRowStep ext ident)

/-- The `Propose` operator (`propose_a`): pair each prefix with a freshly proposed
extension list. -/
def proposeStage (ext : PrefixExtender P E) (l : List P) : List (P × List E) :=
  l.map fun p => (p, ext.propose p)

/-- The `Intersect` operator: intersect each record's extensions and drop records
whose extension list becomes empty. -/
def intersectStage (ext : PrefixExtender P E) (l : List (P × List E)) :
    List (P × List E) :=
  l.filterMap fun r =>
    let es := ext.intersect r.1 r.2
    if 0 < es.length then some (r.1, es) else none

/-- The count phase of `GenericJoinExt::extend`: initialize each prefix with
`(p, 1 << 31, 0)` and pipe through each extender's count with `ident = index`. -/
def genericCounts (extenders : List (PrefixExtender P E)) (input : List P) :
    List (P × Nat × Nat) :=
  extenders.enum.foldl (fun acc ie => countStage ie.2 ie.1 acc)
    (input.map fun p => (p, 2 ^ 31, 0))

/-- `GenericJoinExt::extend`: partition the labelled stream by the identifier,
propose with the selected extender, intersect with all the others in index order,
and concatenate. -/
def genericJoinExtend (extenders : List (PrefixExtender P E)) (input : List P) :
    List (P × List E) :=
  extenders.enum.flatMap fun ie =>
    (extenders.enum.filter fun je => je.1 ≠ ie.1).foldl
      (fun acc je => intersectStage je.2 acc)
      (proposeStage ie.2
        (((genericCounts extenders input).filter fun r => r.2.2 = ie.1).map (·.1)))

/-- The per-prefix evolution of the `(best_count, best_ident)` label through the
count stages; `none` means the prefix was dropped. -/
def pairStep (p : P) (st : Option (Nat × Nat)) (ie : Nat × PrefixExtender P E) :
    Option (Nat × Nat) :=
  st.bind fun ci =>
    let nc := ie.2.count p
    if nc > ci.1 then some ci else if 0 < nc then some (nc, ie.1) else none

def countFold (extenders : List (PrefixExtender P E)) (p : P) : Option (Nat × Nat) :=
  extenders.enum.foldl (pairStep p) (some (2 ^ 31, 0))

theorem pairStep_none (p : P) (ie : Nat × PrefixExtender P E) :
    pairStep p none ie = none := rfl

theorem foldl_pairStep_none (p : P) (es : List (Nat × PrefixExtender P E)) :
    es.foldl (pairStep p) none = none := by
  induction es with
  | nil => rfl
  | cons ie rest ih => rw [List.foldl_cons, pairStep_none]; exact ih

/-- Row-level option step corresponding to one count stage. -/
def rowStepOpt (st : Option (P × Nat × Nat)) (ie : Nat × PrefixExtender P E) :
    Option (P × Nat × Nat) :=
  st.bind (countRowStep ie.2 ie.1)

theorem foldl_rowStepOpt_none (es : List (Nat × PrefixExtender P E)) :
    es.foldl rowStepOpt none = none := by
  induction es with
  | nil => rfl
  | cons ie rest ih => rw [List.foldl_cons]; exact ih

theorem countStage_foldl (es : List (Nat × PrefixExtender P E)) :
    ∀ l : List (P × Nat × Nat),
      es.foldl (fun acc ie => countStage ie.2 ie.1 acc) l =
        l.filterMap (fun r => es.foldl rowStepOpt (some r)) := by
  induction es with
  | nil => intro l; simp
  | cons ie rest ih =>
    intro l
    rw [List.foldl_cons]
    rw [ih (countStage ie.2 ie.1 l)]
    rw [countStage, List.filterMap_filterMap]
    refine List.filterMap_congr ?_
    intro r _
    rw [List.foldl_cons]
    show (countRowStep ie.2 ie.1 r).bind (fun r' => rest.foldl rowStepOpt (some r')) =
      rest.foldl rowStepOpt (rowStepOpt (some r) ie)
    rw [rowStepOpt, Option.some_bind]
    cases countRowStep ie.2 ie.1 r with
    | none => rw [Option.none_bind]; exact (foldl_rowStepOpt_none rest).symm
    | some r' => rw [Option.some_bind]

theorem rowFold_pair (p : P) (es : List (Nat × PrefixExtender P E)) :
    ∀ c i, es.foldl rowStepOpt (some (p, c, i)) =
      (es.foldl (pairStep p) (some (c, i))).map (fun ci => (p, ci.1, ci.2)) := by
  induction es with
  | nil => intro c i; rfl
  | cons ie rest ih =>
    intro c i
    rw [List.foldl_cons, List.foldl_cons]
    have hrow : rowStepOpt (some (p, c, i)) ie = countRowStep ie.2 ie.1 (p, c, i) := by
      rw [rowStepOpt, Option.some_bind]
    rw [hrow, countRowStep, pairStep, Option.some_bind]
    by_cases h1 : ie.2.count p > c
    · rw [if_pos h1, if_pos h1]
      exact ih c i
    · rw [if_neg h1, if_neg h1]
      by_cases h2 : 0 < ie.2.count p
      · rw [if_pos h2, if_pos h2]
        exact ih _ _
      · rw [if_neg h2, if_neg h2]
        rw [foldl_rowStepOpt_none, foldl_pairStep_none]
        rfl

/-- The count phase acts prefix-by-prefix via `countFold`. -/
theorem genericCounts_eq (extenders : List (PrefixExtender P E)) (input : List P) :
    genericCounts extenders input =
      input.filterMap fun p =>
        (countFold extenders p).map fun ci => (p, ci.1, ci.2) := by
  rw [genericCounts, countStage_foldl, List.filterMap_map]
  refine List.filterMap_congr ?_
  intro p _
  exact rowFold_pair p _ (2 ^ 31) 0

/-- Minimum of a list of naturals, `none` for the empty list. -/
def minNat? : List Nat → Option Nat
  | [] => none
  | x :: xs => some ((minNat? xs).elim x (min x))

/-- The minimum estimated count across a list of extenders. -/
def minCountOf (extenders : List (PrefixExtender P E)) (p : P) : Nat :=
  (minNat? (extenders.map fun e => e.count p)).getD 0

theorem foldl_min_eq_minNat? (c₀ : Nat) :
    ∀ l : List Nat, l.foldl Nat.min c₀ = (minNat? l).elim c₀ (min c₀) := by
  intro l
  induction l generalizing c₀ with
  | nil => rfl
  | cons x xs ih =>
    rw [List.foldl_cons, minNat?, ih (Nat.min c₀ x)]
    cases hm : minNat? xs with
    | none => rfl
    | some m =>
      show min (min c₀ x) m = min c₀ (min x m)
      rw [Nat.min_assoc]

theorem pairFold_isSome_iff (p : P) :
    ∀ (es : List (PrefixExtender P E)) (n c₀ i₀ : Nat), 0 < c₀ →
      (((es.enumFrom n).foldl (pairStep p) (some (c₀, i₀))).isSome ↔
        ∀ e ∈ es, 0 < e.count p)
  | [], n, c₀, i₀, _ => by simp [List.enumFrom]
  | e :: es, n, c₀, i₀, hc₀ => by
    rw [List.enumFrom, List.foldl_cons]
    have hstep : pairStep p (some (c₀, i₀)) (n, e) =
        (if e.count p > c₀ then some (c₀, i₀)
         else if 0 < e.count p then some (e.count p, n) else none) := by
      rw [pairStep, Option.some_bind]
    rw [hstep]
    by_cases h1 : e.count p > c₀
    · rw [if_pos h1, pairFold_isSome_iff p es (n + 1) c₀ i₀ hc₀]
      constructor
      · intro h x hx
        rcases List.mem_cons.mp hx with rfl | hx
        · omega
        · exact h x hx
      · intro h x hx
        exact h x (List.mem_cons_of_mem _ hx)
    · rw [if_neg h1]
      by_cases h2 : 0 < e.count p
      · rw [if_pos h2, pairFold_isSome_iff p es (n + 1) (e.count p) n h2]
        constructor
        · intro h x hx
          rcases List.mem_cons.mp hx with rfl | hx
          · exact h2
          · exact h x hx
        · intro h x hx
          exact h x (List.mem_cons_of_mem _ hx)
      · rw [if_neg h2, foldl_pairStep_none]
        simp only [Option.isSome_none, Bool.false_eq_true, false_iff]
        intro hall
        exact h2 (hall e (List.mem_cons_self _ _))

theorem pairFold_some_spec (p : P) :
    ∀ (es : List (PrefixExtender P E)) (n c₀ i₀ : Nat), 0 < c₀ →
      ∀ c i, (es.enumFrom n).foldl (pairStep p) (some (c₀, i₀)) = some (c, i) →
        c = (es.map fun e => e.count p).foldl Nat.min c₀ ∧
          ((c = c₀ ∧ i = i₀ ∧ ∀ e ∈ es, c₀ < e.count p) ∨
            (∃ j, ∃ hj : j < es.length, i = n + j ∧ es[j].count p = c))
  | [], n, c₀, i₀, _, c, i => by
    intro h
    simp only [List.enumFrom, List.foldl_nil, Option.some_inj, Prod.mk.injEq] at h
    obtain ⟨rfl, rfl⟩ := h
    exact ⟨rfl, Or.inl ⟨rfl, rfl, by simp⟩⟩
  | e :: es, n, c₀, i₀, hc₀, c, i => by
    intro h
    rw [List.enumFrom, List.foldl_cons] at h
    have hstep : pairStep p (some (c₀, i₀)) (n, e) =
        (if e.count p > c₀ then some (c₀, i₀)
         else if 0 < e.count p then some (e.count p, n) else none) := by
      rw [pairStep, Option.some_bind]
    rw [hstep] at h
    by_cases h1 : e.count p > c₀
    · rw [if_pos h1] at h
      obtain ⟨hmin, hcase⟩ := pairFold_some_spec p es (n + 1) c₀ i₀ hc₀ c i h
      constructor
      · rw [List.map_cons, List.foldl_cons]
        have he : Nat.min c₀ (e.count p) = c₀ := Nat.min_eq_left (Nat.le_of_lt h1)
        rw [he]
        exact hmin
      · rcases hcase with ⟨hc, hi, hall⟩ | ⟨j, hj, hij, hcnt⟩
        · refine Or.inl ⟨hc, hi, ?_⟩
          intro x hx
          rcases List.mem_cons.mp hx with rfl | hx
          · exact h1
          · exact hall x hx
        · refine Or.inr ⟨j + 1, by simpa using hj, by omega, ?_⟩
          simpa using hcnt
    · rw [if_neg h1] at h
      by_cases h2 : 0 < e.count p
      · rw [if_pos h2] at h
        obtain ⟨hmin, hcase⟩ := pairFold_some_spec p es (n + 1) (e.count p) n h2 c i h
        constructor
        · rw [List.map_cons, List.foldl_cons]
          have he : Nat.min c₀ (e.count p) = e.count p :=
            Nat.min_eq_right (Nat.le_of_not_lt h1)
          rw [he]
          exact hmin
        · rcases hcase with ⟨hc, hi, hall⟩ | ⟨j, hj, hij, hcnt⟩
          · refine Or.inr ⟨0, by simp, by omega, ?_⟩
            simpa using hc.symm
          · refine Or.inr ⟨j + 1, by simpa using hj, by omega, ?_⟩
            simpa using hcnt
      · rw [if_neg h2, foldl_pairStep_none] at h
        exact absurd h (by simp)

theorem minNat?_mem : ∀ {l : List Nat} {m : Nat}, minNat? l = some m → m ∈ l
  | [], m, h => by simp [minNat?] at h
  | x :: xs, m, h => by
    rw [minNat?, Option.some_inj] at h
    cases hm : minNat? xs with
    | none => rw [hm] at h; simp at h; simp [h]
    | some m' =>
      rw [hm] at h
      simp only [Option.elim_some] at h
      rcases Nat.le_total x m' with hle | hle
      · rw [Nat.min_eq_left hle] at h; simp [h]
      · rw [Nat.min_eq_right hle] at h
        exact List.mem_cons_of_mem _ (h ▸ minNat?_mem hm)

theorem minNat?_le : ∀ {l : List Nat} {m : Nat}, minNat? l = some m →
    ∀ x ∈ l, m ≤ x
  | [], m, h => by simp [minNat?] at h
  | x :: xs, m, h => by
    rw [minNat?, Option.some_inj] at h
    intro y hy
    cases hm : minNat? xs with
    | none =>
      rw [hm] at h
      simp only [Option.elim_none] at h
      have : xs = [] := by
        cases xs with
        | nil => rfl
        | cons a l => simp [minNat?] at hm
      subst this
      simp only [List.mem_singleton] at hy
      omega
    | some m' =>
      rw [hm] at h
      simp only [Option.elim_some] at h
      rcases List.mem_cons.mp hy with rfl | hy
      · subst h; exact Nat.min_le_left _ _
      · subst h
        exact Nat.le_trans (Nat.min_le_right _ _) (minNat?_le hm y hy)

theorem countFold_isSome_iff (extenders : List (PrefixExtender P E)) (p : P) :
    (countFold extenders p).isSome ↔ ∀ e ∈ extenders, 0 < e.count p := by
  rw [countFold]
  exact pairFold_isSome_iff p extenders 0 (2 ^ 31) 0 (by norm_num)

theorem countFold_some_spec (extenders : List (PrefixExtender P E)) (p : P)
    (hne : extenders ≠ []) (hmin : minCountOf extenders p ≤ 2 ^ 31) :
    ∀ c i, countFold extenders p = some (c, i) →
      c = minCountOf extenders p ∧
        ∃ hj : i < extenders.length, extenders[i].count p = c := by
  intro c i h
  obtain ⟨hfold, hcase⟩ := pairFold_some_spec p extenders 0 (2 ^ 31) 0 (by norm_num) c i h
  cases hm : minNat? (extenders.map fun e => e.count p) with
  | none =>
    exfalso
    cases extenders with
    | nil => exact hne rfl
    | cons a l => simp [minNat?] at hm
  | some m =>
    have hmval : minCountOf extenders p = m := by rw [minCountOf, hm]; rfl
    have hfold' : c = min (2 ^ 31) m := by
      rw [hfold, foldl_min_eq_minNat? (2 ^ 31) _, hm]
      rfl
    rw [hmval] at hmin ⊢
    have hc : c = m := by rw [hfold', Nat.min_eq_right hmin]
    refine ⟨hc, ?_⟩
    rcases hcase with ⟨hceq, _, hall⟩ | ⟨j, hj, hij, hcnt⟩
    · -- no extender ever improved on 2^31: every count exceeds 2^31, contradicting
      -- that the minimum is ≤ 2^31.
      exfalso
      have hmem := minNat?_mem hm
      obtain ⟨e, he, hcount⟩ := List.mem_map.mp hmem
      have := hall e he
      omega
    · obtain rfl : j = i := by omega
      exact ⟨hj, hcnt⟩

/-- The nominations routed to part `i` are exactly the surviving prefixes whose
label carries identifier `i`. -/
theorem genericCounts_part (extenders : List (PrefixExtender P E)) (input : List P)
    (i : Nat) :
    ((genericCounts extenders input).filter fun r => r.2.2 = i).map (·.1) =
      input.filter fun p => (countFold extenders p).map Prod.snd = some i := by
  rw [genericCounts_eq, List.filter_filterMap, List.map_filterMap,
    ← List.filterMap_eq_filter]
  refine List.filterMap_congr ?_
  intro p _
  cases hcf : countFold extenders p with
  | none => simp [Option.guard, hcf]
  | some ci =>
    by_cases hid : ci.2 = i
    · simp [hcf, Option.filter, Option.guard, hid]
    · simp [Option.filter, Option.guard, hcf, hid]

/-- Records surviving the intersect stages keep prefixes drawn from the stage input. -/
theorem mem_intersectStage_fst {ext : PrefixExtender P E} {l : List (P × List E)}
    {r : P × List E} (h : r ∈ intersectStage ext l) : r.1 ∈ l.map (·.1) := by
  rw [intersectStage] at h
  obtain ⟨r₀, hr₀, heq⟩ := List.mem_filterMap.mp h
  refine List.mem_map.mpr ⟨r₀, hr₀, ?_⟩
  by_cases hlen : 0 < (ext.intersect r₀.1 r₀.2).length
  · rw [if_pos hlen] at heq
    cases heq
    rfl
  · rw [if_neg hlen] at heq
    cases heq

theorem mem_intersectFold_fst (js : List (Nat × PrefixExtender P E)) :
    ∀ (l : List (P × List E)) (r : P × List E),
      r ∈ js.foldl (fun acc je => intersectStage je.2 acc) l → r.1 ∈ l.map (·.1) := by
  induction js with
  | nil => intro l r h; exact List.mem_map.mpr ⟨r, h, rfl⟩
  | cons j rest ih =>
    intro l r h
    rw [List.foldl_cons] at h
    have := ih (intersectStage j.2 l) r h
    obtain ⟨r₀, hr₀, heq⟩ := List.mem_map.mp this
    exact heq ▸ mem_intersectStage_fst hr₀

/-! ### Claim theorem for C5 -/

/-- C5 (amended): the extend stage initializes each element's label to `(2^31, 0)`
(not `(+∞, 0)`).  Provided every prefix has some extender whose estimate is at most
`2^31`, each surviving prefix's label after the count stages is the minimum estimate
over all extenders together with the index of an extender attaining it, a prefix
survives iff every extender's estimate is positive, and the output is obtained by
routing each labelled prefix to the extender named by its label, proposing there,
and intersecting with all other extenders in index order. -/
theorem generic_join_extend_amended (extenders : List (PrefixExtender P E))
    (input : List P) (hne : extenders ≠ [])
    (hmin : ∀ p ∈ input, minCountOf extenders p ≤ 2 ^ 31) :
    (∀ p ∈ input, ((countFold extenders p).isSome ↔ ∀ e ∈ extenders, 0 < e.count p)) ∧
    (∀ p ∈ input, ∀ c i, countFold extenders p = some (c, i) →
      c = minCountOf extenders p ∧
        ∃ hj : i < extenders.length, extenders[i].count p = c) ∧
    genericCounts extenders input =
      (input.filterMap fun p => (countFold extenders p).map fun ci => (p, ci.1, ci.2)) ∧
    genericJoinExtend extenders input =
      (extenders.enum.flatMap fun ie =>
        (extenders.enum.filter fun je => je.1 ≠ ie.1).foldl
          (fun acc je => intersectStage je.2 acc)
          (proposeStage ie.2
            (input.filter fun p => (countFold extenders p).map Prod.snd = some ie.1))) := by
  refine ⟨fun p _ => countFold_isSome_iff extenders p,
    fun p hp => countFold_some_spec extenders p hne (hmin p hp),
    genericCounts_eq extenders input, ?_⟩
  rw [genericJoinExtend]
  refine congrArg _ ?_
  funext ie
  rw [genericCounts_part]

/-- Extenders used by the C5 counterexample: both estimates exceed `2^31`. -/
def hugeCountExtA : PrefixExtender Nat Nat :=
  ⟨fun _ => 2 ^ 31 + 2, fun _ => [0], fun _ es => es⟩

def hugeCountExtB : PrefixExtender Nat Nat :=
  ⟨fun _ => 2 ^ 31 + 1, fun _ => [0], fun _ es => es⟩

/-- C5 counterexample: the count/identifier fields are initialized to `(2^31, 0)`,
not `(+∞, 0)`.  With two extenders whose estimates are `2^31+2` and `2^31+1`, the
surviving prefix keeps the initial label `(2^31, 0)`: its count is not the minimum
estimate (`2^31+1`) and the named extender (index `0`) does not attain the minimum,
so the prefix is proposed by extender `0` instead of the cheaper extender `1`. -/
theorem generic_join_extend_counterexample :
    genericCounts [hugeCountExtA, hugeCountExtB] [0] = [(0, 2 ^ 31, 0)] ∧
    minCountOf [hugeCountExtA, hugeCountExtB] 0 = 2 ^ 31 + 1 ∧
    (2 ^ 31 : Nat) ≠ 2 ^ 31 + 1 ∧
    hugeCountExtA.count 0 ≠ minCountOf [hugeCountExtA, hugeCountExtB] 0 := by
  refine ⟨by decide, by decide, by decide, by decide⟩

/-- Extenders used by the C5 witness. -/
def smallCountExtA : PrefixExtender Nat Nat :=
  ⟨fun _ => 3, fun _ => [0, 1], fun _ es => es⟩

def smallCountExtB : PrefixExtender Nat Nat :=
  ⟨fun _ => 2, fun _ => [5], fun _ es => es⟩

/-- Witness for the amended C5, at two concrete extenders with estimates 3 and 2. -/
theorem generic_join_extend_amended_witness :
    genericJoinExtend [smallCountExtA, smallCountExtB] [7] =
      ([smallCountExtA, smallCountExtB].enum.flatMap fun ie =>
        ([smallCountExtA, smallCountExtB].enum.filter fun je => je.1 ≠ ie.1).foldl
          (fun acc je => intersectStage je.2 acc)
          (proposeStage ie.2
            ([7].filter fun p =>
              (countFold [smallCountExtA, smallCountExtB] p).map Prod.snd = some ie.1))) :=
  (generic_join_extend_amended [smallCountExtA, smallCountExtB] [7]
    (List.cons_ne_nil _ _)
    (by
      intro p hp
      rw [List.mem_singleton] at hp
      subst hp
      decide)).2.2.2

end Pipeline

/-! ## The multiversion index (`src/index.rs`)

Keys, values and times are `Nat`; diffs are `Int` (Rust `i32`).  The `u64` count
estimate and the `usize` subtraction in `seal_from` wrap modulo `2 ^ 64` exactly
where the Rust code wraps (in release builds; debug builds panic on the
subtraction, see the C3 analysis). -/

abbrev Key := Nat
abbrev Val := Nat
abbrev Time := Nat

/-- An uncommitted update `(key, val, time, diff)`. -/
abbrev Upd := Key × Val × Time × Int

namespace Upd

def key (u : Upd) : Key := u.1
def val (u : Upd) : Val := u.2.1
def time (u : Upd) : Time := u.2.2.1
def diff (u : Upd) : Int := u.2.2.2

end Upd

/-! ### `CompactIndex` -/

structure CompactIndex where
  keys : List (Key × Nat)
  vals : List Val
  deriving DecidableEq

namespace CompactIndex

def new : CompactIndex := ⟨[], []⟩

/-- One iteration of `load`: push the value; start a new key entry when the key
changes, otherwise update the end offset of the last entry. -/
def loadStep (s : List (Key × Nat) × List Val) (kv : Key × Val) :
    List (Key × Nat) × List Val :=
  let vals := s.2 ++ [kv.2]
  if (s.1.getLast?.map Prod.fst) = some kv.1 then
    (s.1.dropLast ++ [(kv.1, vals.length)], vals)
  else
    (s.1 ++ [(kv.1, vals.length)], vals)

/-- `CompactIndex::load`: clear and rebuild from an ordered iterator of pairs. -/
def load (_ci : CompactIndex) (pairs : List (Key × Val)) : CompactIndex :=
  let s := pairs.foldl loadStep ([], [])
  ⟨s.1, s.2⟩

/-- The body of `values_from` after the cursor has advanced to position `c1`
(the first entry with key `≥ k`, if the cursor started below it). -/
def vfAt (ci : CompactIndex) (k : Key) (c1 : Nat) : List Val × Nat :=
  if (ci.keys[c1]?.map Prod.fst) = some k then
    ((ci.vals.take ((ci.keys.getD c1 (0, 0)).2)).drop
      (if c1 = 0 then 0 else (ci.keys.getD (c1 - 1) (0, 0)).2), c1 + 1)
  else ([], c1)

/-- `CompactIndex::values_from`: advance the cursor to the first entry with key
`≥ k`; if it is `k`, return the value slice and move past it. -/
def values_from (ci : CompactIndex) (k : Key) (cursor : Nat) : List Val × Nat :=
  if cursor < ci.keys.length then
    vfAt ci k (cursor + advance (ci.keys.drop cursor) (fun x => decide (x.1 < k)))
  else ([], cursor)

end CompactIndex

/-! ### `EdgeList` (`edge_list_neu`) -/

structure EdgeList where
  bounds : List Nat
  values : List (Val × Int)
  effort : Nat
  count : Int
  deriving DecidableEq

/-- Stable sort of update pairs by value (`sort_unstable_by(|x,y| x.0.cmp(&y.0))`). -/
def sortByVal (l : List (Val × Int)) : List (Val × Int) :=
  List.insertionSort (fun x y => x.1 ≤ y.1) l

/-- The in-place forward consolidation walk of `consolidate_tail` on a
value-sorted run: sum the diffs of equal values, drop zero sums. -/
def consolidateRunGo (v : Val) (d : Int) : List (Val × Int) → List (Val × Int)
  | [] => if d ≠ 0 then [(v, d)] else []
  | (w, e) :: rest =>
    if w = v then consolidateRunGo v (d + e) rest
    else if d ≠ 0 then (v, d) :: consolidateRunGo w e rest
    else consolidateRunGo w e rest

def consolidateRun : List (Val × Int) → List (Val × Int)
  | [] => []
  | (v, d) :: rest => consolidateRunGo v d rest

/-- Wrapping `usize` subtraction (release semantics; debug builds panic on
underflow). -/
def usub (a b : Nat) : Nat := (((a : Int) - (b : Int)).emod (2 ^ 64)).toNat

namespace EdgeList

def new : EdgeList := ⟨[], [], 0, 0⟩

def position (e : EdgeList) : Nat := e.values.length

def push (e : EdgeList) (u : Val × Int) : EdgeList :=
  { e with count := e.count + u.2, values := e.values ++ [u] }

/-- `consolidate_tail`: sort and consolidate the run after the last boundary. -/
def consolidate_tail (e : EdgeList) : EdgeList :=
  let bound := e.bounds.getLastD 0
  { e with
    values := e.values.take bound ++ consolidateRun (sortByVal (e.values.drop bound)) }

/-- The boundary-popping loop of `seal_from`, acting on the reversed boundary
stack (`b1` is the most recent boundary `bounds[n-1]`, `b2` is `bounds[n-2]`);
the `while` pops the most recent boundary while the condition holds.  Note the
subtraction `bounds[n-2] - bounds[n-1]` is taken verbatim from the source: since
`bounds` is increasing it underflows, which wraps in release builds (making the
condition false) and panics in debug builds. -/
def popRevLoop (len : Nat) : List Nat → List Nat
  | [] => []
  | [b] => [b]
  | b1 :: b2 :: rest =>
    if usub b2 b1 < 2 * (len - b1) then popRevLoop len (b2 :: rest)
    else b1 :: b2 :: rest

def popBoundsLoop (len : Nat) (bounds : List Nat) : List Nat :=
  (popRevLoop len bounds.reverse).reverse

/-- `EdgeList::seal_from`. -/
def seal_from (e : EdgeList) (position : Nat) : EdgeList :=
  if position < e.values.length then
    let prev_run := position - e.bounds.getLastD 0
    if e.values.length - position < prev_run / 2 then
      { e with bounds := e.bounds ++ [position] }
    else
      let b1 := popBoundsLoop e.values.length e.bounds
      let b2 := if b1.length = 1 ∧ b1.getD 0 0 < e.values.length / 2 then [] else b1
      consolidate_tail { e with bounds := b2 }
  else e

/-- `EdgeList::proposals` consolidates everything into one run; the returned slice
is the `values` field of the result. -/
def proposals (e : EdgeList) : EdgeList :=
  if e.bounds.length > 0 then consolidate_tail { e with bounds := [] } else e

/-- `EdgeList::expend`: on messy lists, charge the effort (a wrapping `u32`) and
fully consolidate when it exceeds the list length; the counter resets either way. -/
def expend (e : EdgeList) (effort : Nat) : EdgeList :=
  if e.bounds.length > 0 then
    if (e.effort + effort % 2 ^ 32) % 2 ^ 32 > e.values.length then
      consolidate_tail { e with bounds := [], effort := 0 }
    else { e with effort := 0 }
  else e

end EdgeList

/-- `EdgeList::intersect_helper`: galloping merge join of a source value list
against one sorted run, accumulating matched diffs into the aligned counts.
Stated cursor-free, per source element: the `Ordering::Greater` branch's gallop
(`advance`) drops the updates below the current source value, the
`Ordering::Equal` branch adds the matched diff and consumes one update, and the
`Ordering::Less` branch's gallop over the source corresponds to the source
elements for which the remaining updates start at a larger value, which receive
no contribution. -/
def intersectHelperGo : List Val → List (Val × Int) → List Int → List Int
  | [], _, cnt => cnt
  | _ :: _, _, [] => []
  | s :: st, upd, c :: ct =>
    match upd.dropWhile (fun x => decide (x.1 < s)) with
    | [] => c :: ct
    | (u, d) :: ut =>
      if u = s then (c + d) :: intersectHelperGo st ut ct
      else c :: intersectHelperGo st ((u, d) :: ut) ct

/-- `EdgeList::intersect`: process the runs newest-to-oldest. -/
def edgeIntersectGo (source : List Val) :
    List (Val × Int) → List Nat → List Int → List Int
  | vals, [], temp => intersectHelperGo source vals temp
  | vals, b :: rest, temp =>
    edgeIntersectGo source (vals.take b) rest
      (intersectHelperGo source (vals.drop b) temp)

def EdgeList.intersect (e : EdgeList) (source : List Val) (temp : List Int) :
    List Int :=
  edgeIntersectGo source e.values e.bounds.reverse temp

/-! ### `Unsorted` -/

/-- Lexicographic order on `(key, val)` used by `Unsorted::extend`'s sort. -/
def kvLe (x y : Upd) : Prop :=
  x.key < y.key ∨ (x.key = y.key ∧ x.val ≤ y.val)

instance : DecidableRel kvLe := fun x y => by
  rw [kvLe]
  infer_instance

def sortByKV (l : List Upd) : List Upd :=
  List.insertionSort kvLe l

structure Unsorted where
  updates : List Upd
  deriving DecidableEq

namespace Unsorted

def new : Unsorted := ⟨[]⟩

/-- `Unsorted::values_from`: the contiguous block of entries with key `k`. -/
def values_from (u : Unsorted) (k : Key) (cursor : Nat) : List Upd × Nat :=
  let c1 := cursor + advance (u.updates.drop cursor) (fun x => decide (x.key < k))
  let step := advance (u.updates.drop c1) (fun x => decide (x.key ≤ k))
  ((u.updates.drop c1).take step, c1 + step)

/-- `Unsorted::extend`: append the batch stamped with `time` and re-sort by
`(key, val)`.  (The Rust sort is an unstable sort on the same comparison key;
entries equal in `(key, val)` may carry distinct times and diffs, but every
reader aggregates over such groups, so the stable sort is an equivalent
representative.) -/
def extend (u : Unsorted) (time : Time) (batch : List ((Key × Val) × Int)) :
    Unsorted :=
  ⟨sortByKV (u.updates ++ batch.map fun kvd => (kvd.1.1, kvd.1.2, time, kvd.2))⟩

end Unsorted

/-! ### `Index` -/

structure Index where
  compact : CompactIndex
  /-- The `HashMap<Key, EdgeList>`: a total function, since the code treats an
  absent key and an empty `EdgeList` identically. -/
  edges : Key → EdgeList
  diffs : Unsorted

def Index.new : Index := ⟨CompactIndex.new, fun _ => EdgeList.new, Unsorted.new⟩

section IndexOps

variable {P : Type}

/-- Stable sort of a data batch by the key of its prefix
(`data.sort_unstable_by(|x,y| func(&x.0).cmp(&func(&y.0)))`). -/
def sortByKeyOf (func : P → Key) {β : Type} (data : List (P × β)) : List (P × β) :=
  List.insertionSort (fun x y => func x.1 ≤ func y.1) data

/-- A row of `Index::count`: `(prefix, best_count, best_ident, diff)`. -/
abbrev CountRow (P : Type) := P × Nat × Nat × Int

/-- The wrapping `u64` estimate of `Index::count` for one key: compact slice
length, plus the `EdgeList` count sign-extended from `i32` to `u64`, plus the
number of unsorted entries, summed modulo `2 ^ 64`. -/
def estimateU64 (clen : Nat) (ecount : Int) (dlen : Nat) : Nat :=
  (((clen : Int) + ecount + (dlen : Int)).emod (2 ^ 64)).toNat

/-- The key-grouped loop of `Index::count`.  The validity predicate is unused
(`_valid` in the source): the unsorted contribution is an over-estimate.  The
fuel argument (always at least the list length at the call site) only makes the
recursion on the remaining groups structural. -/
def countLoop (s : Index) (func : P → Key) (ident : Nat) :
    Nat → List (CountRow P) → Nat → Nat → List (CountRow P)
  | 0, _, _, _ => []
  | _, [], _, _ => []
  | fuel + 1, r :: rest, cCursor, dCursor =>
    let k := func r.1
    let cs := s.compact.values_from k cCursor
    let ds := s.diffs.values_from k dCursor
    let cnt := estimateU64 cs.1.length (s.edges k).count ds.1.length
    let grp := r :: rest.takeWhile (fun x => func x.1 = k)
    let rest' := rest.dropWhile (fun x => func x.1 = k)
    grp.map (fun x => if cnt < x.2.1 then (x.1, cnt, ident, x.2.2.2) else x) ++
      countLoop s func ident fuel rest' cs.2 ds.2

/-- `Index::count` (the index itself is not modified). -/
def Index.countOp (s : Index) (data : List (CountRow P)) (func : P → Key)
    (_valid : Time → Bool) (ident : Nat) : List (CountRow P) :=
  countLoop s func ident data.length (sortByKeyOf func data) 0 0

/-- A row of `Index::propose` / `Index::intersect`:
`(prefix, extensions, diff)`. -/
abbrev PropRow (P : Type) := P × List Val × Int

/-- The per-value positive consolidation of `Index::propose` step (id): on a
value-sorted list, sum the diffs of equal values and keep only strictly positive
sums (the in-place walk accumulates each group into its last entry, zeroes the
others, and `retain`s positives). -/
def posConsolidateGo (v : Val) (d : Int) : List (Val × Int) → List (Val × Int)
  | [] => if 0 < d then [(v, d)] else []
  | (w, e) :: rest =>
    if w = v then posConsolidateGo v (d + e) rest
    else if 0 < d then (v, d) :: posConsolidateGo w e rest
    else posConsolidateGo w e rest

def posConsolidate : List (Val × Int) → List (Val × Int)
  | [] => []
  | (v, d) :: rest => posConsolidateGo v d rest

/-- The raw proposal list for one key: compact values with diff `1`, the
consolidated edge-list run, and the valid unsorted updates. -/
def rawProposals (cvals : List Val) (evals : List (Val × Int)) (dvals : List Upd)
    (valid : Time → Bool) : List (Val × Int) :=
  cvals.map (fun v => (v, (1 : Int))) ++ evals ++
    dvals.filterMap (fun x => if valid x.time then some (x.val, x.diff) else none)

/-- Proposals for one key, consolidated and flattened (`val` repeated `cnt`
times). -/
def keyProposals (cvals : List Val) (evals : List (Val × Int)) (dvals : List Upd)
    (valid : Time → Bool) : List Val :=
  let raw := rawProposals cvals evals dvals valid
  let props := if raw.length > 0 then posConsolidate (sortByVal raw) else []
  props.flatMap (fun vc => List.replicate vc.2.toNat vc.1)

/-- The key-grouped loop of `Index::propose`; consulting a key's `EdgeList`
consolidates it (`proposals`), so the edge map is threaded through.  Fuel as in
`countLoop`. -/
def proposeLoop (s : Index) (func : P → Key) (valid : Time → Bool) :
    Nat → List (PropRow P) → Nat → Nat → (Key → EdgeList) →
      (Key → EdgeList) × List (PropRow P)
  | 0, _, _, _, ed => (ed, [])
  | _, [], _, _, ed => (ed, [])
  | fuel + 1, r :: rest, oCursor, dCursor, ed =>
    let k := func r.1
    let cs := s.compact.values_from k oCursor
    let eCons := (ed k).proposals
    let ds := s.diffs.values_from k dCursor
    let ext := keyProposals cs.1 eCons.values ds.1 valid
    let grp := r :: rest.takeWhile (fun x => func x.1 = k)
    let rest' := rest.dropWhile (fun x => func x.1 = k)
    let res := proposeLoop s func valid fuel rest' cs.2 ds.2 (Function.update ed k eCons)
    (res.1, grp.map (fun x => (x.1, x.2.1 ++ ext, x.2.2)) ++ res.2)

/-- `Index::propose`. -/
def Index.proposeOp (s : Index) (data : List (PropRow P)) (func : P → Key)
    (valid : Time → Bool) : Index × List (PropRow P) :=
  let res := proposeLoop s func valid data.length (sortByKeyOf func data) 0 0 s.edges
  ({ s with edges := res.1 }, res.2)

/-- The `(ib, ic)` walk of `Index::intersect` for one row: advance per-row
cursors over the compact slice and the unsorted slice, accumulating matches
into the aligned counts. -/
def walkCD (valid : Time → Bool) :
    List Val → List Int → List Val → List Upd → List Int
  | [], _, _, _ => []
  | _ :: _, [], _, _ => []
  | p :: ps, t :: ts, csl, dsl =>
    let csl1 := csl.drop (advance csl (fun x => decide (x < p)))
    let cnt := (csl1.takeWhile (fun x => decide (x = p))).length
    let csl2 := csl1.dropWhile (fun x => decide (x = p))
    let dsl1 := dsl.drop (advance dsl (fun x => decide (x.val < p)))
    let dgrp := dsl1.takeWhile (fun x => decide (x.val = p))
    let dsum := (dgrp.map (fun x => if valid x.time then x.diff else 0)).sum
    let dsl2 := dsl1.dropWhile (fun x => decide (x.val = p))
    (t + (cnt : Int) + dsum) :: walkCD valid ps ts csl2 dsl2

/-- One row of `Index::intersect`: zero counts, add the edge-list contributions,
walk the compact and unsorted slices, and retain extensions with positive count
(the swap/truncate compaction keeps their relative order). -/
def intersectRow (cvals : List Val) (entry : EdgeList) (dvals : List Upd)
    (valid : Time → Bool) (exts : List Val) : List Val :=
  let temp0 := List.replicate exts.length (0 : Int)
  let temp1 := entry.intersect exts temp0
  let temp2 := walkCD valid exts temp1 cvals dvals
  ((exts.zip temp2).filter (fun vt => 0 < vt.2)).map (·.1)

/-- The key-grouped loop of `Index::intersect`: per key group, compute the total
effort, `expend` it on the key's `EdgeList` (possibly consolidating it), and
process each row of the group. -/
def intersectLoop (s : Index) (func : P → Key) (valid : Time → Bool) :
    Nat → List (PropRow P) → Nat → Nat → (Key → EdgeList) →
      (Key → EdgeList) × List (PropRow P)
  | 0, _, _, _, ed => (ed, [])
  | _, [], _, _, ed => (ed, [])
  | fuel + 1, r :: rest, oCursor, dCursor, ed =>
    let k := func r.1
    let grp := r :: rest.takeWhile (fun x => func x.1 = k)
    let rest' := rest.dropWhile (fun x => func x.1 = k)
    let effort := (grp.map (fun x => x.2.1.length)).sum
    let cs := s.compact.values_from k oCursor
    let entry := (ed k).expend effort
    let ds := s.diffs.values_from k dCursor
    let grp' := grp.map (fun x => (x.1, intersectRow cs.1 entry ds.1 valid x.2.1, x.2.2))
    let res := intersectLoop s func valid fuel rest' cs.2 ds.2 (Function.update ed k entry)
    (res.1, grp' ++ res.2)

/-- `Index::intersect`. -/
def Index.intersectOp (s : Index) (data : List (PropRow P)) (func : P → Key)
    (valid : Time → Bool) : Index × List (PropRow P) :=
  let res := intersectLoop s func valid data.length (sortByKeyOf func data) 0 0 s.edges
  ({ s with edges := res.1 }, res.2)

end IndexOps

/-- The key-grouped loop of `Index::merge_to`: for each key group of the
unsorted updates, push the entries with `time ≤ t` into the key's `EdgeList`
(zeroing their diffs) and seal from the prior position. -/
def mergeLoop (t : Time) : Nat → List Upd → (Key → EdgeList) → (Key → EdgeList)
  | 0, _, ed => ed
  | _, [], ed => ed
  | fuel + 1, r :: rest, ed =>
    let k := r.key
    let grp := r :: rest.takeWhile (fun x => x.key = k)
    let rest' := rest.dropWhile (fun x => x.key = k)
    let entry := ed k
    let pos := entry.position
    let entry1 := grp.foldl
      (fun acc x => if x.time ≤ t then acc.push (x.val, x.diff) else acc) entry
    mergeLoop t fuel rest' (Function.update ed k (entry1.seal_from pos))

/-- `Index::merge_to`: commit updates with time at or before `t` into the edge
lists; drop the moved (zeroed) entries, and any other entries with zero diff,
from the unsorted buffer. -/
def Index.merge_to (s : Index) (t : Time) : Index :=
  { s with
    edges := mergeLoop t s.diffs.updates.length s.diffs.updates s.edges
    diffs := ⟨s.diffs.updates.filter (fun x => ¬ x.time ≤ t ∧ x.diff ≠ 0)⟩ }

/-- `Index::update`: stamp the batch with `time` and merge it into the unsorted
buffer. -/
def Index.updateOp (s : Index) (time : Time) (batch : List ((Key × Val) × Int)) :
    Index :=
  { s with diffs := s.diffs.extend time batch }

/-- `Index::initialize`: load the compact base from the flattened batches. -/
def Index.initializeOp (s : Index) (initial : List (List (Key × Val))) : Index :=
  { s with compact := s.compact.load (initial.flatMap id) }

/-! ### Toolkit: predicates and cursors over keyed lists -/

section KeyedList

variable {α : Type} (key : α → Nat)

/-- Sorted (nondecreasing) by the projection `key`. -/
def SortedKey (l : List α) : Prop :=
  l.Pairwise (fun a b => key a ≤ key b)

theorem sortedKey_of_cons {a : α} {l : List α} (h : SortedKey key (a :: l)) :
    SortedKey key l :=
  (List.pairwise_cons.mp h).2

theorem sortedKey_head {a : α} {l : List α} (h : SortedKey key (a :: l)) :
    ∀ x ∈ l, key a ≤ key x :=
  (List.pairwise_cons.mp h).1

/-- If the first `c` elements satisfy `p` and `c` is within bounds, advancing from
cursor `c` reaches the same position as advancing from the start. -/
theorem advance_from_cursor (l : List α) (p : α → Bool) (c : Nat)
    (hc : c ≤ l.length) (h : ∀ x ∈ l.take c, p x) :
    c + advance (l.drop c) p = advance l p := by
  induction c generalizing l with
  | zero => simp
  | succ n ih =>
    cases l with
    | nil => simp at hc
    | cons a t =>
      have hpa : p a := h a (by simp [List.take_succ_cons])
      have ht : ∀ x ∈ t.take n, p x := by
        intro x hx
        exact h x (by simp [List.take_succ_cons, hx])
      rw [List.drop_succ_cons]
      have hr : advance (a :: t) p = advance t p + 1 := by
        rw [advance, advance, List.takeWhile_cons_of_pos hpa]
        simp
      simp only [List.length_cons] at hc
      have hih := ih t (by omega) ht
      rw [hr]
      omega

theorem advance_take_all (l : List α) (p : α → Bool) :
    ∀ x ∈ l.take (advance l p), p x := by
  intro x hx
  have htake : l.take (advance l p) = l.takeWhile p := by
    have h2 := List.take_left (l.takeWhile p) (l.dropWhile p)
    rwa [List.takeWhile_append_dropWhile] at h2
  exact List.mem_takeWhile_imp (htake ▸ hx)

/-- On a key-sorted list, the elements with key `< k` form the maximal prefix
satisfying the predicate. -/
theorem takeWhile_lt_eq_filter {l : List α} (hs : SortedKey key l) (k : Nat) :
    l.takeWhile (fun x => decide (key x < k)) = l.filter (fun x => decide (key x < k)) := by
  induction l with
  | nil => rfl
  | cons a t ih =>
    have hhead := sortedKey_head key hs
    have ht := ih (sortedKey_of_cons key hs)
    by_cases h : key a < k
    · rw [List.takeWhile_cons_of_pos (by simpa using h),
        List.filter_cons_of_pos (by simpa using h), ht]
    · rw [List.takeWhile_cons_of_neg (by simpa using h),
        List.filter_cons_of_neg (by simpa using h)]
      have : ∀ x ∈ t, ¬ key x < k := fun x hx => by
        have := hhead x hx
        omega
      rw [List.filter_eq_nil_iff.mpr (fun x hx => by simpa using this x hx)]

/-- On a key-sorted list whose elements all have key `≥ k`, the elements with key
`≤ k` (equivalently `= k`) form the maximal prefix. -/
theorem takeWhile_le_eq_filter_eq {l : List α} (hs : SortedKey key l) (k : Nat)
    (hge : ∀ x ∈ l, k ≤ key x) :
    l.takeWhile (fun x => decide (key x ≤ k)) = l.filter (fun x => decide (key x = k)) := by
  induction l with
  | nil => rfl
  | cons a t ih =>
    have hhead := sortedKey_head key hs
    have ht := ih (sortedKey_of_cons key hs) (fun x hx => hge x (List.mem_cons_of_mem _ hx))
    by_cases h : key a ≤ k
    · have heq : key a = k := le_antisymm h (hge a (List.mem_cons_self _ _))
      rw [List.takeWhile_cons_of_pos (by simpa using h),
        List.filter_cons_of_pos (by simpa using heq), ht]
    · rw [List.takeWhile_cons_of_neg (by simpa using h),
        List.filter_cons_of_neg (by simp; omega)]
      have : ∀ x ∈ t, ¬ key x = k := fun x hx => by
        have := hhead x hx
        omega
      rw [List.filter_eq_nil_iff.mpr (fun x hx => by simpa using this x hx)]

/-- The three-way decomposition of a key-sorted list at key `k`:
dropping the `< k` prefix and then taking the `≤ k` prefix yields the `= k`
elements. -/
theorem sorted_slice_eq_filter {l : List α} (hs : SortedKey key l) (k : Nat) :
    (l.dropWhile (fun x => decide (key x < k))).takeWhile (fun x => decide (key x ≤ k)) =
      l.filter (fun x => decide (key x = k)) := by
  induction l with
  | nil => rfl
  | cons a t ih =>
    have hhead := sortedKey_head key hs
    by_cases h : key a < k
    · rw [List.dropWhile_cons_of_pos (by simpa using h), ih (sortedKey_of_cons key hs),
        List.filter_cons_of_neg (by simp; omega)]
    · rw [List.dropWhile_cons_of_neg (by simpa using h)]
      refine takeWhile_le_eq_filter_eq key hs k ?_
      intro x hx
      rcases List.mem_cons.mp hx with rfl | hx
      · omega
      · have := hhead x hx
        omega

end KeyedList

theorem advance_take_eq {α : Type} (l : List α) (p : α → Bool) :
    l.take (advance l p) = l.takeWhile p := by
  have h2 := List.take_left (l.takeWhile p) (l.dropWhile p)
  rwa [List.takeWhile_append_dropWhile] at h2

theorem advance_drop_eq {α : Type} (l : List α) (p : α → Bool) :
    l.drop (advance l p) = l.dropWhile p := by
  have h2 := List.drop_left (l.takeWhile p) (l.dropWhile p)
  rwa [List.takeWhile_append_dropWhile] at h2

/-! ### Cursor correctness of `values_from` -/

theorem CompactIndex.vfAt_snd_le (ci : CompactIndex) (k : Key) (c1 : Nat)
    (hfound_lt : (ci.keys[c1]?.map Prod.fst) = some k → c1 < ci.keys.length) :
    (CompactIndex.vfAt ci k c1).2 = if (ci.keys[c1]?.map Prod.fst) = some k then c1 + 1 else c1 := by
  rw [CompactIndex.vfAt]
  split
  · rfl
  · rfl

theorem compact_values_from_zero (ci : CompactIndex) (k : Key) :
    (ci.values_from k 0).2 ≤ ci.keys.length ∧
      ∀ x ∈ ci.keys.take (ci.values_from k 0).2, x.1 ≤ k := by
  rw [CompactIndex.values_from]
  by_cases hlen : 0 < ci.keys.length
  · rw [if_pos hlen]
    simp only [Nat.zero_add, List.drop_zero]
    set A := advance ci.keys (fun x => decide (x.1 < k)) with hA
    have hAle : A ≤ ci.keys.length := advance_le_length _ _
    have htakeA : ∀ x ∈ ci.keys.take A, x.1 ≤ k := by
      intro x hx
      have := advance_take_all ci.keys (fun x => decide (x.1 < k)) x hx
      simp only [decide_eq_true_eq] at this
      exact le_of_lt this
    rw [CompactIndex.vfAt]
    by_cases hfound : (ci.keys[A]?.map Prod.fst) = some k
    · rw [if_pos hfound]
      obtain ⟨entry, hentry, hfst⟩ := Option.map_eq_some'.mp hfound
      have hAlt : A < ci.keys.length := by
        by_contra hcon
        rw [List.getElem?_eq_none (by omega)] at hentry
        exact Option.noConfusion hentry
      constructor
      · show A + 1 ≤ ci.keys.length
        omega
      · show ∀ x ∈ ci.keys.take (A + 1), x.1 ≤ k
        intro x hx
        rw [List.take_succ] at hx
        rcases List.mem_append.mp hx with hx | hx
        · exact htakeA x hx
        · rw [hentry] at hx
          simp only [Option.toList_some, List.mem_singleton] at hx
          subst hx
          exact le_of_eq hfst
    · rw [if_neg hfound]
      exact ⟨hAle, htakeA⟩
  · rw [if_neg hlen]
    refine ⟨Nat.zero_le _, ?_⟩
    intro x hx
    simp at hx

theorem compact_values_from_cursor (ci : CompactIndex) (k : Key) (c : Nat)
    (hc : c ≤ ci.keys.length) (h : ∀ x ∈ ci.keys.take c, x.1 < k) :
    ci.values_from k c = ci.values_from k 0 := by
  have hadv := advance_from_cursor ci.keys (fun x => decide (x.1 < k)) c hc
    (fun x hx => by simpa using h x hx)
  rw [CompactIndex.values_from, CompactIndex.values_from]
  by_cases hce : c < ci.keys.length
  · rw [if_pos hce, if_pos (by omega), hadv]
    simp
  · have hceq : c = ci.keys.length := by omega
    rw [if_neg hce]
    by_cases hlen : 0 < ci.keys.length
    · rw [if_pos hlen]
      simp only [Nat.zero_add, List.drop_zero]
      have hall : advance ci.keys (fun x => decide (x.1 < k)) = ci.keys.length := by
        rw [← hadv, hceq]
        simp [advance]
      rw [hall, CompactIndex.vfAt]
      rw [if_neg ?_]
      · rw [hceq]
      · rw [List.getElem?_eq_none (le_refl _)]
        simp
    · rw [if_neg hlen]
      have hczero : c = 0 := by omega
      rw [hczero]

theorem unsorted_values_from_zero (u : Unsorted) (k : Key) :
    (u.values_from k 0).2 ≤ u.updates.length ∧
      ∀ x ∈ u.updates.take (u.values_from k 0).2, x.key ≤ k := by
  rw [Unsorted.values_from]
  simp only [Nat.zero_add, List.drop_zero]
  set A := advance u.updates (fun x => decide (x.key < k)) with hA
  set B := advance (u.updates.drop A) (fun x => decide (x.key ≤ k)) with hB
  have hAle : A ≤ u.updates.length := advance_le_length _ _
  have hBle : B ≤ (u.updates.drop A).length := advance_le_length _ _
  simp only [List.length_drop] at hBle
  constructor
  · show A + B ≤ u.updates.length
    omega
  · show ∀ x ∈ u.updates.take (A + B), x.key ≤ k
    intro x hx
    rw [List.take_add] at hx
    rcases List.mem_append.mp hx with hx | hx
    · have := advance_take_all u.updates (fun x => decide (x.key < k)) x hx
      simp only [decide_eq_true_eq] at this
      exact le_of_lt this
    · have := advance_take_all (u.updates.drop A) (fun x => decide (x.key ≤ k)) x
        (by rw [hB] at hx; exact hx)
      simpa using this

theorem unsorted_values_from_cursor (u : Unsorted) (k : Key) (c : Nat)
    (hc : c ≤ u.updates.length) (h : ∀ x ∈ u.updates.take c, x.key < k) :
    u.values_from k c = u.values_from k 0 := by
  have hadv := advance_from_cursor u.updates (fun x => decide (x.key < k)) c hc
    (fun x hx => by simpa using h x hx)
  rw [Unsorted.values_from, Unsorted.values_from, hadv]
  simp

/-- Under the sortedness invariant, the slice returned for `k` is exactly the
entries with key `k`. -/
theorem Unsorted.slice_sem (u : Unsorted) (hs : SortedKey Upd.key u.updates)
    (k : Key) :
    (u.values_from k 0).1 = u.updates.filter (fun x => decide (x.key = k)) := by
  rw [Unsorted.values_from]
  simp only [Nat.zero_add, List.drop_zero]
  rw [advance_drop_eq, advance_take_eq]
  exact sorted_slice_eq_filter Upd.key hs k

/-! ### C3: the `seal_from` boundary-merging loop is broken (code bug)

The comment above the loop says: "while the last region is greater than half the
second-to-last region (a sorted run), remove the boundary between them", but the
code computes `self.bounds[len-2] - self.bounds[len-1]`, the *older* boundary
minus the *newer* one.  `bounds` is increasing, so this `usize` subtraction
underflows: debug builds panic, and in release builds the wrapped value makes
the condition false, so the loop never pops a boundary and the geometric run
invariant fails.  The sequence below (seal 10 values, then 4, then 1, then 3)
exhibits it. -/

/-- The lengths of the sorted runs of an `EdgeList`, oldest to newest. -/
def diffsOf : List Nat → List Nat
  | a :: b :: rest => (b - a) :: diffsOf (b :: rest)
  | _ => []

def runLengths (e : EdgeList) : List Nat :=
  diffsOf ((0 :: e.bounds) ++ [e.values.length])

/-- Push `n` distinct values starting at `start`. -/
def pushRange (e : EdgeList) (start n : Nat) : EdgeList :=
  ((List.range n).map (fun i => (start + i, (1 : Int)))).foldl EdgeList.push e

/-- The C3 failing input: seal a run of 10, then 4, then 1, then 3. -/
def bugSealState : EdgeList :=
  let e1 := (pushRange EdgeList.new 0 10).seal_from 0
  let e2 := (pushRange e1 10 4).seal_from 10
  let e3 := (pushRange e2 14 1).seal_from 14
  (pushRange e3 15 3).seal_from 15

/-- C3 (code bug): at the final `seal_from` the boundary stack is `[10, 14]` and
the newly sealed run has 4 elements; the comment's condition (`newest run larger
than half the previous run`, `4 > 4/2`) demands popping the boundary `14`, but the
code evaluates `bounds[0] - bounds[1] = 10 - 14`, which underflows (debug panic;
release wrap-around `2^64 - 4`, making the condition false).  No boundary is
popped and the resulting run lengths `[10, 4, 4]` violate the geometric
invariant: the newest run (4) exceeds half of the run before it (4/2 = 2). -/
theorem seal_from_geometry_bug :
    bugSealState.bounds = [10, 14] ∧
    bugSealState.values.length = 18 ∧
    runLengths bugSealState = [10, 4, 4] ∧
    ¬ (4 ≤ 4 / 2) ∧
    (10 : Nat) < 14 ∧
    usub 10 14 = 2 ^ 64 - 4 ∧
    ¬ (usub 10 14 < 2 * (18 - 14)) := by
  refine ⟨by decide, by decide, by decide, by decide, by decide, ?_, ?_⟩
  · rw [usub]
    rfl
  · rw [usub]
    decide

/-! ## Per-value diff sums

`valSum v l` is the accumulated diff of value `v` over a list of `(val, diff)`
updates; it is the abstraction in which consolidation, propose and intersect are
characterised. -/

def valSum (v : Val) (l : List (Val × Int)) : Int :=
  ((l.filter (fun x => decide (x.1 = v))).map (fun x => x.2)).sum

theorem valSum_nil (v : Val) : valSum v [] = 0 := rfl

theorem valSum_cons (v : Val) (w : Val) (d : Int) (l : List (Val × Int)) :
    valSum v ((w, d) :: l) = (if w = v then d else 0) + valSum v l := by
  by_cases h : w = v
  · rw [if_pos h, valSum, List.filter_cons_of_pos (by simpa using h)]
    simp [valSum]
  · rw [if_neg h, valSum, List.filter_cons_of_neg (by simpa using h)]
    simp [valSum]

theorem valSum_append (v : Val) (l₁ l₂ : List (Val × Int)) :
    valSum v (l₁ ++ l₂) = valSum v l₁ + valSum v l₂ := by
  simp [valSum, List.filter_append]

theorem valSum_perm (v : Val) {l₁ l₂ : List (Val × Int)} (h : l₁.Perm l₂) :
    valSum v l₁ = valSum v l₂ :=
  List.Perm.sum_eq (List.Perm.map _ (List.Perm.filter _ h))

theorem valSum_sortByVal (v : Val) (l : List (Val × Int)) :
    valSum v (sortByVal l) = valSum v l :=
  valSum_perm v (List.perm_insertionSort _ l)

theorem valSum_eq_zero (v : Val) {l : List (Val × Int)}
    (h : ∀ x ∈ l, x.1 ≠ v) : valSum v l = 0 := by
  rw [valSum, List.filter_eq_nil_iff.mpr (fun x hx => by simpa using h x hx)]
  rfl

theorem valSum_nonneg (v : Val) {l : List (Val × Int)}
    (h : ∀ x ∈ l, 0 ≤ x.2) : 0 ≤ valSum v l := by
  refine List.sum_nonneg ?_
  intro d hd
  obtain ⟨x, hx, rfl⟩ := List.mem_map.mp hd
  exact h x (List.mem_of_mem_filter hx)

/-- The total diff of a list of updates. -/
def diffSum (l : List (Val × Int)) : Int := (l.map (fun x => x.2)).sum

theorem diffSum_nil : diffSum [] = 0 := rfl

theorem diffSum_cons (x : Val × Int) (l : List (Val × Int)) :
    diffSum (x :: l) = x.2 + diffSum l := by
  simp [diffSum]

theorem diffSum_append (l₁ l₂ : List (Val × Int)) :
    diffSum (l₁ ++ l₂) = diffSum l₁ + diffSum l₂ := by
  simp [diffSum]

theorem diffSum_perm {l₁ l₂ : List (Val × Int)} (h : l₁.Perm l₂) :
    diffSum l₁ = diffSum l₂ :=
  List.Perm.sum_eq (List.Perm.map _ h)

theorem diffSum_sortByVal (l : List (Val × Int)) :
    diffSum (sortByVal l) = diffSum l :=
  diffSum_perm (List.perm_insertionSort _ l)

/-- The value order used by `sortByVal` is total and transitive, so the sort
really sorts. -/
instance : IsTotal (Val × Int) (fun x y => x.1 ≤ y.1) :=
  ⟨fun a b => Nat.le_total a.1 b.1⟩

instance : IsTrans (Val × Int) (fun x y => x.1 ≤ y.1) :=
  ⟨fun _ _ _ h₁ h₂ => Nat.le_trans h₁ h₂⟩

theorem sortByVal_sorted (l : List (Val × Int)) :
    List.Pairwise (fun x y : Val × Int => x.1 ≤ y.1) (sortByVal l) :=
  List.sorted_insertionSort _ l

/-! ## Consolidation characterised by per-value sums -/

/-- The positive part of an integer. -/
def posPart (d : Int) : Int := if 0 < d then d else 0

theorem posPart_toNat (d : Int) : (posPart d).toNat = d.toNat := by
  rw [posPart]
  split
  · rfl
  · omega

/-- Values appearing in a `posConsolidateGo` output come from the input. -/
theorem posConsolidateGo_mem_val :
    ∀ (rest : List (Val × Int)) (v : Val) (d : Int) (x : Val × Int),
      x ∈ posConsolidateGo v d rest → x.1 = v ∨ x.1 ∈ rest.map (fun y => y.1)
  | [], v, d, x, hx => by
    simp only [posConsolidateGo] at hx
    split at hx
    · simp only [List.mem_singleton] at hx
      subst hx
      exact Or.inl rfl
    · simp at hx
  | (w, e) :: rest, v, d, x, hx => by
    simp only [posConsolidateGo] at hx
    split at hx
    · rcases posConsolidateGo_mem_val rest v (d + e) x hx with h | h
      · exact Or.inl h
      · exact Or.inr (by simp [h])
    · split at hx
      · rcases List.mem_cons.mp hx with rfl | hx
        · exact Or.inl rfl
        · rcases posConsolidateGo_mem_val rest w e x hx with h | h
          · exact Or.inr (by simp [h])
          · exact Or.inr (by simp [h])
      · rcases posConsolidateGo_mem_val rest w e x hx with h | h
        · exact Or.inr (by simp [h])
        · exact Or.inr (by simp [h])

theorem posConsolidateGo_pos :
    ∀ (rest : List (Val × Int)) (v : Val) (d : Int) (x : Val × Int),
      x ∈ posConsolidateGo v d rest → 0 < x.2
  | [], v, d, x, hx => by
    simp only [posConsolidateGo] at hx
    split at hx
    · simp only [List.mem_singleton] at hx
      subst hx
      assumption
    · simp at hx
  | (w, e) :: rest, v, d, x, hx => by
    simp only [posConsolidateGo] at hx
    split at hx
    · exact posConsolidateGo_pos rest v (d + e) x hx
    · split at hx
      · rcases List.mem_cons.mp hx with rfl | hx
        · assumption
        · exact posConsolidateGo_pos rest w e x hx
      · exact posConsolidateGo_pos rest w e x hx

theorem posConsolidateGo_valSum :
    ∀ (rest : List (Val × Int)) (v : Val) (d : Int) (w : Val),
      List.Pairwise (fun x y : Val × Int => x.1 ≤ y.1) rest →
      (∀ x ∈ rest, v ≤ x.1) →
      valSum w (posConsolidateGo v d rest) = posPart (valSum w ((v, d) :: rest))
  | [], v, d, w, _, _ => by
    simp only [posConsolidateGo]
    by_cases hw : v = w
    · subst hw
      split
    <;> simp [valSum_cons, valSum_nil, posPart, *]
    · split
      <;> simp [valSum_cons, valSum_nil, posPart, if_neg hw]
  | (w₀, e) :: rest, v, d, w, hs, hle => by
    have hs' := (List.pairwise_cons.mp hs).2
    have hhead := (List.pairwise_cons.mp hs).1
    simp only [posConsolidateGo]
    split
    · rename_i heq
      subst heq
      rw [posConsolidateGo_valSum rest w₀ (d + e) w hs' hhead]
      rw [valSum_cons, valSum_cons, valSum_cons]
      by_cases hw : w₀ = w
      · simp only [if_pos hw]
        ring_nf
      · simp only [if_neg hw]
        ring_nf
    · rename_i hne
      have hvlt : v < w₀ :=
        lt_of_le_of_ne (hle _ (List.mem_cons_self _ _)) (fun h => hne h.symm)
      have hrec := posConsolidateGo_valSum rest w₀ e w hs' hhead
      have hzero : valSum v ((w₀, e) :: rest) = 0 := by
        refine valSum_eq_zero v ?_
        intro x hx
        rcases List.mem_cons.mp hx with rfl | hx
        · exact fun h => absurd (h ▸ hvlt) (lt_irrefl _)
        · exact fun h =>
            absurd (h ▸ lt_of_lt_of_le hvlt (hhead x hx)) (lt_irrefl _)
      split
      · rename_i hd
        rw [valSum_cons w v d (posConsolidateGo w₀ e rest), hrec,
          valSum_cons w v d ((w₀, e) :: rest)]
        by_cases hw : v = w
        · have h0 : valSum w ((w₀, e) :: rest) = 0 := hw ▸ hzero
          rw [if_pos hw, h0]
          simp [posPart, hd]
        · rw [if_neg hw]
          simp
      · rename_i hd
        rw [hrec, valSum_cons w v d ((w₀, e) :: rest)]
        by_cases hw : v = w
        · have h0 : valSum w ((w₀, e) :: rest) = 0 := hw ▸ hzero
          rw [h0, if_pos hw]
          simp only [posPart]
          rw [if_neg (by omega), if_neg (by omega)]
        · rw [if_neg hw]
          simp

theorem posConsolidateGo_sorted :
    ∀ (rest : List (Val × Int)) (v : Val) (d : Int),
      List.Pairwise (fun x y : Val × Int => x.1 ≤ y.1) rest →
      (∀ x ∈ rest, v ≤ x.1) →
      List.Pairwise (fun x y : Val × Int => x.1 < y.1) (posConsolidateGo v d rest)
  | [], v, d, _, _ => by
    simp only [posConsolidateGo]
    split
    · exact List.pairwise_singleton _ _
    · exact List.Pairwise.nil
  | (w₀, e) :: rest, v, d, hs, hle => by
    have hs' := (List.pairwise_cons.mp hs).2
    have hhead := (List.pairwise_cons.mp hs).1
    simp only [posConsolidateGo]
    split
    · rename_i heq
      subst heq
      exact posConsolidateGo_sorted rest w₀ (d + e) hs' hhead
    · rename_i hne
      have hvlt : v < w₀ :=
        lt_of_le_of_ne (hle _ (List.mem_cons_self _ _)) (fun h => hne h.symm)
      have htail := posConsolidateGo_sorted rest w₀ e hs' hhead
      split
      · refine List.pairwise_cons.mpr ⟨?_, htail⟩
        intro x hx
        rcases posConsolidateGo_mem_val rest w₀ e x hx with h | h
        · rw [h]
          exact hvlt
        · obtain ⟨y, hy, hyx⟩ := List.mem_map.mp h
          exact lt_of_lt_of_le hvlt (hyx ▸ hhead y hy)
      · exact htail

theorem posConsolidateGo_sum :
    ∀ (rest : List (Val × Int)) (v : Val) (d : Int),
      0 ≤ d → (∀ x ∈ rest, 0 ≤ x.2) →
      diffSum (posConsolidateGo v d rest) = d + diffSum rest
  | [], v, d, hd, _ => by
    simp only [posConsolidateGo]
    split
    · simp [diffSum]
    · simp only [diffSum_nil]
      omega
  | (w₀, e) :: rest, v, d, hd, hrest => by
    have he : 0 ≤ e := hrest _ (List.mem_cons_self _ _)
    have hrest' : ∀ x ∈ rest, 0 ≤ x.2 := fun x hx => hrest x (List.mem_cons_of_mem _ hx)
    simp only [posConsolidateGo]
    split
    · rw [posConsolidateGo_sum rest v (d + e) (by omega) hrest', diffSum_cons]
      ring_nf
    · split
      · rw [diffSum_cons, posConsolidateGo_sum rest w₀ e he hrest', diffSum_cons]
      · rw [posConsolidateGo_sum rest w₀ e he hrest', diffSum_cons]
        omega

theorem posConsolidate_valSum (l : List (Val × Int))
    (h : List.Pairwise (fun x y : Val × Int => x.1 ≤ y.1) l) (w : Val) :
    valSum w (posConsolidate l) = posPart (valSum w l) := by
  cases l with
  | nil => simp [posConsolidate, valSum_nil, posPart]
  | cons x rest =>
    rw [posConsolidate]
    exact posConsolidateGo_valSum rest x.1 x.2 w (List.pairwise_cons.mp h).2
      (List.pairwise_cons.mp h).1

theorem posConsolidate_sorted (l : List (Val × Int))
    (h : List.Pairwise (fun x y : Val × Int => x.1 ≤ y.1) l) :
    List.Pairwise (fun x y : Val × Int => x.1 < y.1) (posConsolidate l) := by
  cases l with
  | nil => exact List.Pairwise.nil
  | cons x rest =>
    exact posConsolidateGo_sorted rest x.1 x.2 (List.pairwise_cons.mp h).2
      (List.pairwise_cons.mp h).1

theorem posConsolidate_pos (l : List (Val × Int)) :
    ∀ x ∈ posConsolidate l, 0 < x.2 := by
  cases l with
  | nil => intro x hx; simp [posConsolidate] at hx
  | cons y rest => exact fun x hx => posConsolidateGo_pos rest y.1 y.2 x hx

theorem posConsolidate_sum (l : List (Val × Int)) (h : ∀ x ∈ l, 0 ≤ x.2) :
    diffSum (posConsolidate l) = diffSum l := by
  cases l with
  | nil => rfl
  | cons x rest =>
    rw [posConsolidate, posConsolidateGo_sum rest x.1 x.2
      (h _ (List.mem_cons_self _ _)) (fun y hy => h y (List.mem_cons_of_mem _ hy)),
      diffSum_cons]

/-- Values appearing in a `consolidateRunGo` output come from the input. -/
theorem consolidateRunGo_mem_val :
    ∀ (rest : List (Val × Int)) (v : Val) (d : Int) (x : Val × Int),
      x ∈ consolidateRunGo v d rest → x.1 = v ∨ x.1 ∈ rest.map (fun y => y.1)
  | [], v, d, x, hx => by
    simp only [consolidateRunGo] at hx
    split at hx
    · simp only [List.mem_singleton] at hx
      subst hx
      exact Or.inl rfl
    · simp at hx
  | (w, e) :: rest, v, d, x, hx => by
    simp only [consolidateRunGo] at hx
    split at hx
    · rcases consolidateRunGo_mem_val rest v (d + e) x hx with h | h
      · exact Or.inl h
      · exact Or.inr (by simp [h])
    · split at hx
      · rcases List.mem_cons.mp hx with rfl | hx
        · exact Or.inl rfl
        · rcases consolidateRunGo_mem_val rest w e x hx with h | h
          · exact Or.inr (by simp [h])
          · exact Or.inr (by simp [h])
      · rcases consolidateRunGo_mem_val rest w e x hx with h | h
        · exact Or.inr (by simp [h])
        · exact Or.inr (by simp [h])

/-- On a value-sorted run, consolidation preserves every per-value sum exactly
(dropped groups have sum zero). -/
theorem consolidateRunGo_valSum :
    ∀ (rest : List (Val × Int)) (v : Val) (d : Int) (w : Val),
      List.Pairwise (fun x y : Val × Int => x.1 ≤ y.1) rest →
      (∀ x ∈ rest, v ≤ x.1) →
      valSum w (consolidateRunGo v d rest) = valSum w ((v, d) :: rest)
  | [], v, d, w, _, _ => by
    simp only [consolidateRunGo]
    split
    · rfl
    · rename_i hd
      simp only [Decidable.not_not] at hd
      subst hd
      rw [valSum_cons, valSum_nil]
      simp
  | (w₀, e) :: rest, v, d, w, hs, hle => by
    have hs' := (List.pairwise_cons.mp hs).2
    have hhead := (List.pairwise_cons.mp hs).1
    simp only [consolidateRunGo]
    split
    · rename_i heq
      subst heq
      rw [consolidateRunGo_valSum rest w₀ (d + e) w hs' hhead]
      rw [valSum_cons, valSum_cons, valSum_cons]
      by_cases hw : w₀ = w
      · simp only [if_pos hw]
        ring_nf
      · simp only [if_neg hw]
        ring_nf
    · rename_i hne
      have hrec := consolidateRunGo_valSum rest w₀ e w hs' hhead
      split
      · rw [valSum_cons w v d (consolidateRunGo w₀ e rest), hrec]
        rw [valSum_cons w v d ((w₀, e) :: rest)]
      · rename_i hd
        simp only [Decidable.not_not] at hd
        subst hd
        rw [hrec, valSum_cons w v 0 ((w₀, e) :: rest)]
        split
        <;> simp

theorem consolidateRunGo_sum :
    ∀ (rest : List (Val × Int)) (v : Val) (d : Int),
      diffSum (consolidateRunGo v d rest) = d + diffSum rest
  | [], v, d => by
    simp only [consolidateRunGo]
    split
    · simp [diffSum]
    · rename_i hd
      simp only [Decidable.not_not] at hd
      subst hd
      simp [diffSum]
  | (w₀, e) :: rest, v, d => by
    simp only [consolidateRunGo]
    split
    · rw [consolidateRunGo_sum rest v (d + e), diffSum_cons]
      ring_nf
    · split
      · rw [diffSum_cons, consolidateRunGo_sum rest w₀ e, diffSum_cons]
      · rename_i hd
        simp only [Decidable.not_not] at hd
        subst hd
        rw [consolidateRunGo_sum rest w₀ e, diffSum_cons]
        simp

theorem consolidateRunGo_nonneg :
    ∀ (rest : List (Val × Int)) (v : Val) (d : Int),
      0 ≤ d → (∀ x ∈ rest, 0 ≤ x.2) →
      ∀ x ∈ consolidateRunGo v d rest, 0 ≤ x.2
  | [], v, d, hd, _, x, hx => by
    simp only [consolidateRunGo] at hx
    split at hx
    · simp only [List.mem_singleton] at hx
      subst hx
      exact hd
    · simp at hx
  | (w₀, e) :: rest, v, d, hd, hrest, x, hx => by
    have he : 0 ≤ e := hrest _ (List.mem_cons_self _ _)
    have hrest' : ∀ y ∈ rest, 0 ≤ y.2 := fun y hy => hrest y (List.mem_cons_of_mem _ hy)
    simp only [consolidateRunGo] at hx
    split at hx
    · exact consolidateRunGo_nonneg rest v (d + e) (by omega) hrest' x hx
    · split at hx
      · rcases List.mem_cons.mp hx with rfl | hx
        · exact hd
        · exact consolidateRunGo_nonneg rest w₀ e he hrest' x hx
      · exact consolidateRunGo_nonneg rest w₀ e he hrest' x hx

theorem consolidateRun_valSum (l : List (Val × Int))
    (h : List.Pairwise (fun x y : Val × Int => x.1 ≤ y.1) l) (w : Val) :
    valSum w (consolidateRun l) = valSum w l := by
  cases l with
  | nil => rfl
  | cons x rest =>
    rw [consolidateRun]
    exact consolidateRunGo_valSum rest x.1 x.2 w (List.pairwise_cons.mp h).2
      (List.pairwise_cons.mp h).1

theorem consolidateRun_sum (l : List (Val × Int)) :
    diffSum (consolidateRun l) = diffSum l := by
  cases l with
  | nil => rfl
  | cons x rest =>
    rw [consolidateRun, consolidateRunGo_sum rest x.1 x.2, diffSum_cons]

theorem consolidateRun_nonneg (l : List (Val × Int)) (h : ∀ x ∈ l, 0 ≤ x.2) :
    ∀ x ∈ consolidateRun l, 0 ≤ x.2 := by
  cases l with
  | nil => intro x hx; simp [consolidateRun] at hx
  | cons y rest =>
    exact consolidateRunGo_nonneg rest y.1 y.2 (h _ (List.mem_cons_self _ _))
      (fun x hx => h x (List.mem_cons_of_mem _ hx))

/-- Sort-then-consolidate preserves every per-value sum. -/
theorem consolidate_sortByVal_valSum (l : List (Val × Int)) (w : Val) :
    valSum w (consolidateRun (sortByVal l)) = valSum w l := by
  rw [consolidateRun_valSum (sortByVal l) (sortByVal_sorted l) w, valSum_sortByVal]

theorem consolidate_sortByVal_sum (l : List (Val × Int)) :
    diffSum (consolidateRun (sortByVal l)) = diffSum l := by
  rw [consolidateRun_sum, diffSum_sortByVal]

theorem consolidate_sortByVal_nonneg (l : List (Val × Int)) (h : ∀ x ∈ l, 0 ≤ x.2) :
    ∀ x ∈ consolidateRun (sortByVal l), 0 ≤ x.2 :=
  consolidateRun_nonneg (sortByVal l)
    (fun x hx => h x ((List.perm_insertionSort _ l).mem_iff.mp hx))

/-! ## `EdgeList` operations in terms of per-value sums -/

theorem consolidate_tail_valSum (e : EdgeList) (w : Val) :
    valSum w e.consolidate_tail.values = valSum w e.values := by
  rw [EdgeList.consolidate_tail]
  simp only
  rw [valSum_append, consolidate_sortByVal_valSum, ← valSum_append,
    List.take_append_drop]

theorem consolidate_tail_sum (e : EdgeList) :
    diffSum e.consolidate_tail.values = diffSum e.values := by
  rw [EdgeList.consolidate_tail]
  simp only
  rw [diffSum_append, consolidate_sortByVal_sum, ← diffSum_append,
    List.take_append_drop]

theorem consolidate_tail_nonneg (e : EdgeList) (h : ∀ x ∈ e.values, 0 ≤ x.2) :
    ∀ x ∈ e.consolidate_tail.values, 0 ≤ x.2 := by
  rw [EdgeList.consolidate_tail]
  simp only
  intro x hx
  rcases List.mem_append.mp hx with hx | hx
  · exact h x (List.mem_of_mem_take hx)
  · exact consolidate_sortByVal_nonneg _ (fun y hy => h y (List.mem_of_mem_drop hy)) x hx

theorem consolidate_tail_count (e : EdgeList) :
    e.consolidate_tail.count = e.count := rfl

theorem seal_from_valSum (e : EdgeList) (pos : Nat) (w : Val) :
    valSum w (e.seal_from pos).values = valSum w e.values := by
  rw [EdgeList.seal_from]
  split
  · dsimp only
    split
    · rfl
    · exact consolidate_tail_valSum _ w
  · rfl

theorem seal_from_sum (e : EdgeList) (pos : Nat) :
    diffSum (e.seal_from pos).values = diffSum e.values := by
  rw [EdgeList.seal_from]
  split
  · dsimp only
    split
    · rfl
    · exact consolidate_tail_sum _
  · rfl

theorem seal_from_nonneg (e : EdgeList) (pos : Nat) (h : ∀ x ∈ e.values, 0 ≤ x.2) :
    ∀ x ∈ (e.seal_from pos).values, 0 ≤ x.2 := by
  rw [EdgeList.seal_from]
  split
  · dsimp only
    split
    · exact h
    · exact consolidate_tail_nonneg _ h
  · exact h

theorem seal_from_count (e : EdgeList) (pos : Nat) :
    (e.seal_from pos).count = e.count := by
  rw [EdgeList.seal_from]
  split
  · dsimp only
    split
    · rfl
    · rfl
  · rfl

theorem proposals_valSum (e : EdgeList) (w : Val) :
    valSum w e.proposals.values = valSum w e.values := by
  rw [EdgeList.proposals]
  split
  · exact consolidate_tail_valSum _ w
  · rfl

theorem proposals_sum (e : EdgeList) :
    diffSum e.proposals.values = diffSum e.values := by
  rw [EdgeList.proposals]
  split
  · exact consolidate_tail_sum _
  · rfl

theorem proposals_nonneg (e : EdgeList) (h : ∀ x ∈ e.values, 0 ≤ x.2) :
    ∀ x ∈ e.proposals.values, 0 ≤ x.2 := by
  rw [EdgeList.proposals]
  split
  · exact consolidate_tail_nonneg _ h
  · exact h

theorem push_valSum (e : EdgeList) (u : Val × Int) (w : Val) :
    valSum w (e.push u).values = valSum w e.values + (if u.1 = w then u.2 else 0) := by
  rw [EdgeList.push]
  simp only
  rw [valSum_append, valSum_cons, valSum_nil]
  ring_nf

theorem push_sum (e : EdgeList) (u : Val × Int) :
    diffSum (e.push u).values = diffSum e.values + u.2 := by
  rw [EdgeList.push]
  simp only
  rw [diffSum_append, diffSum_cons, diffSum_nil]
  ring_nf

theorem push_nonneg (e : EdgeList) (u : Val × Int) (h : ∀ x ∈ e.values, 0 ≤ x.2)
    (hu : 0 ≤ u.2) : ∀ x ∈ (e.push u).values, 0 ≤ x.2 := by
  rw [EdgeList.push]
  simp only
  intro x hx
  rcases List.mem_append.mp hx with hx | hx
  · exact h x hx
  · simp only [List.mem_singleton] at hx
    subst hx
    exact hu

theorem push_count (e : EdgeList) (u : Val × Int) :
    (e.push u).count = e.count + u.2 := rfl

/-- `expend` is the identity on a fully consolidated (single-run) list. -/
theorem expend_of_bounds_nil (e : EdgeList) (h : e.bounds = []) (effort : Nat) :
    e.expend effort = e := by
  rw [EdgeList.expend, h]
  simp

/-! ## The per-key proposal list, characterised -/

/-- The diff sum of the unsorted entries with value `v` accepted by `valid`. -/
def dSum (v : Val) (dvals : List Upd) (valid : Time → Bool) : Int :=
  ((dvals.filter (fun x => valid x.time && decide (x.val = v))).map Upd.diff).sum

theorem dSum_nil (v : Val) (valid : Time → Bool) : dSum v [] valid = 0 := rfl

theorem valSum_map_one (v : Val) (cvals : List Val) :
    valSum v (cvals.map (fun w => (w, (1 : Int)))) = (cvals.count v : Int) := by
  induction cvals with
  | nil => rfl
  | cons c rest ih =>
    rw [List.map_cons, valSum_cons, ih, List.count_cons]
    by_cases h : c = v
    · subst h
      simp
      omega
    · rw [if_neg h, if_neg (by simpa using h)]
      simp

theorem valSum_filterMap_valid (v : Val) (dvals : List Upd) (valid : Time → Bool) :
    valSum v (dvals.filterMap
        (fun x => if valid x.time then some (x.val, x.diff) else none)) =
      dSum v dvals valid := by
  induction dvals with
  | nil => rfl
  | cons x rest ih =>
    rw [List.filterMap_cons]
    by_cases hv : valid x.time
    · rw [if_pos hv, valSum_cons, ih]
      simp only [dSum]
      rw [List.filter_cons]
      by_cases hx : x.val = v
      · have hcond : (valid x.time && decide (x.val = v)) = true := by simp [hv, hx]
        rw [if_pos hx, if_pos hcond, List.map_cons, List.sum_cons]
      · have hcond : ¬ ((valid x.time && decide (x.val = v)) = true) := by simp [hx]
        rw [if_neg hx, if_neg hcond]
        exact Int.zero_add _
    · rw [if_neg hv, ih]
      simp only [dSum]
      rw [List.filter_cons]
      have hcond : ¬ ((valid x.time && decide (x.val = v)) = true) := by simp [hv]
      rw [if_neg hcond]

/-- The per-value sum of the raw proposal list. -/
theorem rawProposals_valSum (v : Val) (cvals : List Val) (evals : List (Val × Int))
    (dvals : List Upd) (valid : Time → Bool) :
    valSum v (rawProposals cvals evals dvals valid) =
      (cvals.count v : Int) + valSum v evals + dSum v dvals valid := by
  rw [rawProposals, valSum_append, valSum_append, valSum_map_one,
    valSum_filterMap_valid]

theorem mem_flatMap_replicate {L : List (Val × Int)} {x : Val}
    (hx : x ∈ L.flatMap (fun vc => List.replicate vc.2.toNat vc.1)) :
    ∃ vc ∈ L, x = vc.1 := by
  obtain ⟨vc, hvc, hmem⟩ := List.mem_flatMap.mp hx
  exact ⟨vc, hvc, List.eq_of_mem_replicate hmem⟩

theorem count_flatMap_replicate (L : List (Val × Int)) (w : Val) :
    (L.flatMap (fun vc => List.replicate vc.2.toNat vc.1)).count w =
      (L.map (fun vc => if vc.1 = w then vc.2.toNat else 0)).sum := by
  induction L with
  | nil => rfl
  | cons vc rest ih =>
    rw [List.flatMap_cons, List.count_append, ih, List.map_cons, List.sum_cons,
      List.count_replicate]
    by_cases h : vc.1 = w
    · rw [if_pos (by simpa using h), if_pos h]
    · rw [if_neg (by simpa using h), if_neg h]

theorem countSum_eq_toNat_valSum (L : List (Val × Int)) (w : Val)
    (hs : List.Pairwise (fun x y : Val × Int => x.1 < y.1) L)
    (hp : ∀ x ∈ L, 0 < x.2) :
    (L.map (fun vc => if vc.1 = w then vc.2.toNat else 0)).sum = (valSum w L).toNat := by
  induction L with
  | nil => rfl
  | cons vc rest ih =>
    have hrest := ih (List.pairwise_cons.mp hs).2
      (fun x hx => hp x (List.mem_cons_of_mem _ hx))
    have hcons : valSum w (vc :: rest) = (if vc.1 = w then vc.2 else 0) + valSum w rest := by
      have := valSum_cons w vc.1 vc.2 rest
      simpa using this
    rw [List.map_cons, List.sum_cons, hrest, hcons]
    by_cases h : vc.1 = w
    · have hzero : valSum w rest = 0 := by
        refine valSum_eq_zero w ?_
        intro x hx
        have := (List.pairwise_cons.mp hs).1 x hx
        exact fun hc => absurd (hc ▸ (h ▸ this)) (lt_irrefl _)
      rw [if_pos h, if_pos h, hzero]
      have := hp vc (List.mem_cons_self _ _)
      omega
    · rw [if_neg h, if_neg h]
      have h0 : (0 : Int) + valSum w rest = valSum w rest := by ring_nf
      rw [h0]
      exact Nat.zero_add _

theorem pairwise_replicate_le (n : Nat) (v : Val) :
    List.Pairwise (fun x y : Val => x ≤ y) (List.replicate n v) := by
  induction n with
  | zero => exact List.Pairwise.nil
  | succ m ih =>
    rw [List.replicate_succ]
    refine List.pairwise_cons.mpr ⟨?_, ih⟩
    intro x hx
    rw [List.eq_of_mem_replicate hx]

theorem sorted_flatMap_replicate (L : List (Val × Int))
    (hs : List.Pairwise (fun x y : Val × Int => x.1 < y.1) L) :
    List.Pairwise (fun x y : Val => x ≤ y)
      (L.flatMap (fun vc => List.replicate vc.2.toNat vc.1)) := by
  induction L with
  | nil => exact List.Pairwise.nil
  | cons vc rest ih =>
    rw [List.flatMap_cons]
    refine List.pairwise_append.mpr ⟨pairwise_replicate_le _ _,
      ih (List.pairwise_cons.mp hs).2, ?_⟩
    intro x hx y hy
    rw [List.eq_of_mem_replicate hx]
    obtain ⟨uc, huc, rfl⟩ := mem_flatMap_replicate hy
    exact le_of_lt ((List.pairwise_cons.mp hs).1 uc huc)

theorem keyProposals_eq (cvals : List Val) (evals : List (Val × Int))
    (dvals : List Upd) (valid : Time → Bool) :
    keyProposals cvals evals dvals valid =
      (posConsolidate (sortByVal (rawProposals cvals evals dvals valid))).flatMap
        (fun vc => List.replicate vc.2.toNat vc.1) := by
  rw [keyProposals]
  by_cases h : (rawProposals cvals evals dvals valid).length > 0
  · rw [if_pos h]
  · rw [if_neg h]
    have hnil : rawProposals cvals evals dvals valid = [] :=
      List.eq_nil_of_length_eq_zero (by omega)
    rw [hnil]
    rfl

/-- Count of one value in a key's proposal list: the positive part of its raw
accumulated diff. -/
theorem keyProposals_count (cvals : List Val) (evals : List (Val × Int))
    (dvals : List Upd) (valid : Time → Bool) (v : Val) :
    (keyProposals cvals evals dvals valid).count v =
      (valSum v (rawProposals cvals evals dvals valid)).toNat := by
  rw [keyProposals_eq, count_flatMap_replicate,
    countSum_eq_toNat_valSum _ _
      (posConsolidate_sorted _ (sortByVal_sorted _))
      (posConsolidate_pos _),
    posConsolidate_valSum _ (sortByVal_sorted _), posPart_toNat, valSum_sortByVal]

theorem keyProposals_sorted (cvals : List Val) (evals : List (Val × Int))
    (dvals : List Upd) (valid : Time → Bool) :
    List.Pairwise (fun x y : Val => x ≤ y) (keyProposals cvals evals dvals valid) := by
  rw [keyProposals_eq]
  exact sorted_flatMap_replicate _ (posConsolidate_sorted _ (sortByVal_sorted _))

theorem toNat_sum_of_nonneg (L : List (Val × Int)) (h : ∀ x ∈ L, 0 ≤ x.2) :
    (L.map (fun vc => vc.2.toNat)).sum = (diffSum L).toNat := by
  induction L with
  | nil => rfl
  | cons vc rest ih =>
    have hrest := ih (fun x hx => h x (List.mem_cons_of_mem _ hx))
    have hvc := h vc (List.mem_cons_self _ _)
    have hsum : 0 ≤ diffSum rest := by
      rw [diffSum]
      refine List.sum_nonneg ?_
      intro d hd
      obtain ⟨x, hx, rfl⟩ := List.mem_map.mp hd
      exact h x (List.mem_cons_of_mem _ hx)
    rw [List.map_cons, List.sum_cons, hrest, diffSum_cons]
    omega

/-- With insert-only diffs the proposal list length is the total raw diff. -/
theorem keyProposals_length (cvals : List Val) (evals : List (Val × Int))
    (dvals : List Upd) (valid : Time → Bool)
    (h : ∀ x ∈ rawProposals cvals evals dvals valid, 0 ≤ x.2) :
    (keyProposals cvals evals dvals valid).length =
      (diffSum (rawProposals cvals evals dvals valid)).toNat := by
  rw [keyProposals_eq]
  have hperm : ∀ x ∈ sortByVal (rawProposals cvals evals dvals valid), 0 ≤ x.2 :=
    fun x hx => h x ((List.perm_insertionSort _ _).mem_iff.mp hx)
  have hpos : ∀ x ∈ posConsolidate (sortByVal (rawProposals cvals evals dvals valid)),
      0 ≤ x.2 := fun x hx => le_of_lt (posConsolidate_pos _ x hx)
  have hmap : ((posConsolidate (sortByVal (rawProposals cvals evals dvals valid))).flatMap
        (fun vc : Val × Int => List.replicate vc.2.toNat vc.1)).length =
      ((posConsolidate (sortByVal (rawProposals cvals evals dvals valid))).map
        (fun vc => vc.2.toNat)).sum := by
    rw [List.length_flatMap]
    refine congrArg List.sum ?_
    refine List.map_congr_left ?_
    intro x _
    simp
  rw [hmap, toNat_sum_of_nonneg _ hpos, posConsolidate_sum _ hperm, diffSum_sortByVal]

/-! ## Per-key answers of the index operators -/

/-- The slice of compact values the operators consult for key `k`. -/
def compactSlice (s : Index) (k : Key) : List Val := (s.compact.values_from k 0).1

/-- The slice of unsorted updates the operators consult for key `k`. -/
def unsortedSlice (s : Index) (k : Key) : List Upd := (s.diffs.values_from k 0).1

/-- The `count` estimate for key `k` (wrapping `u64` arithmetic). -/
def countEst (s : Index) (k : Key) : Nat :=
  estimateU64 (s.compact.values_from k 0).1.length (s.edges k).count
    (s.diffs.values_from k 0).1.length

/-- The extension list `propose` appends for key `k`. -/
def propExt (s : Index) (k : Key) (valid : Time → Bool) : List Val :=
  keyProposals (s.compact.values_from k 0).1 ((s.edges k).proposals).values
    ((s.diffs.values_from k 0).1) valid

/-- The accumulated diff of `(k, v)`: compact slice count, plus the raw `EdgeList`
entries, plus the unsorted entries for `k` accepted by `valid`. -/
def accumIdx (s : Index) (k : Key) (valid : Time → Bool) (v : Val) : Int :=
  ((s.compact.values_from k 0).1.count v : Int) + valSum v (s.edges k).values +
    dSum v (s.diffs.updates.filter (fun x => decide (x.key = k))) valid

/-- How `count` rewrites one row. -/
def countRowFun (s : Index) {P : Type} (func : P → Key) (ident : Nat)
    (x : CountRow P) : CountRow P :=
  if countEst s (func x.1) < x.2.1 then (x.1, countEst s (func x.1), ident, x.2.2.2)
  else x

/-- How `propose` rewrites one row. -/
def proposeRowFun (s : Index) {P : Type} (func : P → Key) (valid : Time → Bool)
    (x : PropRow P) : PropRow P :=
  (x.1, x.2.1 ++ propExt s (func x.1) valid, x.2.2)

/-- After dropping the leading `= k` group of a key-sorted list with keys `≥ k`,
all remaining keys are `> k`. -/
theorem mem_dropWhile_key_gt {β : Type} (keyf : β → Nat) (k : Nat) :
    ∀ (l : List β), List.Pairwise (fun x y => keyf x ≤ keyf y) l →
      (∀ x ∈ l, k ≤ keyf x) →
      ∀ x ∈ l.dropWhile (fun x => decide (keyf x = k)), k < keyf x
  | [], _, _, x, hx => by simp at hx
  | a :: t, hs, hge, x, hx => by
    by_cases ha : keyf a = k
    · rw [List.dropWhile_cons_of_pos (by simpa using ha)] at hx
      exact mem_dropWhile_key_gt keyf k t (List.pairwise_cons.mp hs).2
        (fun y hy => hge y (List.mem_cons_of_mem _ hy)) x hx
    · rw [List.dropWhile_cons_of_neg (by simpa using ha)] at hx
      have hak : k < keyf a :=
        lt_of_le_of_ne (hge a (List.mem_cons_self _ _)) (fun h => ha h.symm)
      rcases List.mem_cons.mp hx with rfl | hx
      · exact hak
      · exact lt_of_lt_of_le hak ((List.pairwise_cons.mp hs).1 x hx)

theorem dropWhile_length_le {β : Type} (p : β → Bool) (l : List β) :
    (l.dropWhile p).length ≤ l.length :=
  (List.dropWhile_sublist p).length_le

/-- The key-grouped `count` loop maps `countRowFun` over key-sorted data. -/
theorem countLoop_char {P : Type} (s : Index) (func : P → Key) (ident : Nat) :
    ∀ (fuel : Nat) (data : List (CountRow P)) (cC dC : Nat),
      data.length ≤ fuel →
      List.Pairwise (fun x y => func x.1 ≤ func y.1) data →
      cC ≤ s.compact.keys.length →
      (∀ x ∈ s.compact.keys.take cC, ∀ r ∈ data, x.1 < func r.1) →
      dC ≤ s.diffs.updates.length →
      (∀ x ∈ s.diffs.updates.take dC, ∀ r ∈ data, x.key < func r.1) →
      countLoop s func ident fuel data cC dC = data.map (countRowFun s func ident) := by
  intro fuel
  induction fuel with
  | zero =>
    intro data cC dC hlen _ _ _ _ _
    rw [List.eq_nil_of_length_eq_zero (Nat.le_zero.mp hlen)]
    rfl
  | succ fuel ih =>
    intro data cC dC hlen hpair hcle hctake hdle hdtake
    cases data with
    | nil => rfl
    | cons r rest =>
      have hc0 : s.compact.values_from (func r.1) cC = s.compact.values_from (func r.1) 0 :=
        compact_values_from_cursor s.compact (func r.1) cC hcle
          (fun x hx => hctake x hx r (List.mem_cons_self _ _))
      have hd0 : s.diffs.values_from (func r.1) dC = s.diffs.values_from (func r.1) 0 :=
        unsorted_values_from_cursor s.diffs (func r.1) dC hdle
          (fun x hx => hdtake x hx r (List.mem_cons_self _ _))
      have hpair' := (List.pairwise_cons.mp hpair).2
      have hhead := (List.pairwise_cons.mp hpair).1
      have hgt : ∀ x ∈ rest.dropWhile (fun x => decide (func x.1 = func r.1)),
          func r.1 < func x.1 :=
        mem_dropWhile_key_gt (fun x => func x.1) (func r.1) rest hpair' hhead
      have hsplit : r :: rest =
          (r :: rest.takeWhile (fun x => decide (func x.1 = func r.1))) ++
            rest.dropWhile (fun x => decide (func x.1 = func r.1)) := by
        rw [List.cons_append, List.takeWhile_append_dropWhile]
      simp only [countLoop]
      rw [hc0, hd0]
      have hczero := compact_values_from_zero s.compact (func r.1)
      have hdzero := unsorted_values_from_zero s.diffs (func r.1)
      have hrec := ih (rest.dropWhile (fun x => decide (func x.1 = func r.1)))
        (s.compact.values_from (func r.1) 0).2 (s.diffs.values_from (func r.1) 0).2
        (le_trans (dropWhile_length_le _ rest) (by simpa using hlen))
        (List.Pairwise.sublist (List.Sublist.cons r (List.dropWhile_sublist _)) hpair)
        hczero.1
        (fun x hx r' hr' => lt_of_le_of_lt (hczero.2 x hx) (hgt r' hr'))
        hdzero.1
        (fun x hx r' hr' => lt_of_le_of_lt (hdzero.2 x hx) (hgt r' hr'))
      rw [hrec]
      conv_rhs => rw [hsplit]
      rw [List.map_append]
      refine congrArg (· ++ _) ?_
      refine List.map_congr_left ?_
      intro x hx
      have hk : func x.1 = func r.1 := by
        rcases List.mem_cons.mp hx with rfl | hx
        · rfl
        · simpa using List.mem_takeWhile_imp hx
      rw [countRowFun, hk, countEst]

/-- `Index.count` maps `countRowFun` over the key-sorted data; the answer for a
row depends on the row alone. -/
theorem countOp_char {P : Type} (s : Index) (data : List (CountRow P))
    (func : P → Key) (valid : Time → Bool) (ident : Nat) :
    Index.countOp s data func valid ident =
      (sortByKeyOf func data).map (countRowFun s func ident) := by
  rw [Index.countOp]
  refine countLoop_char s func ident data.length (sortByKeyOf func data) 0 0
    (le_of_eq (List.Perm.length_eq (List.perm_insertionSort _ data)))
    ?_ (Nat.zero_le _) (by simp) (Nat.zero_le _) (by simp)
  letI : IsTotal (CountRow P) (fun x y => func x.1 ≤ func y.1) :=
    ⟨fun a b => Nat.le_total (func a.1) (func b.1)⟩
  letI : IsTrans (CountRow P) (fun x y => func x.1 ≤ func y.1) :=
    ⟨fun _ _ _ h₁ h₂ => Nat.le_trans h₁ h₂⟩
  exact List.sorted_insertionSort _ data

/-- The key-grouped `propose` loop maps `proposeRowFun` over key-sorted data,
as long as the threaded edge map agrees with the index on the keys still to be
consulted. -/
theorem proposeLoop_char {P : Type} (s : Index) (func : P → Key) (valid : Time → Bool) :
    ∀ (fuel : Nat) (data : List (PropRow P)) (oC dC : Nat) (ed : Key → EdgeList),
      data.length ≤ fuel →
      List.Pairwise (fun x y => func x.1 ≤ func y.1) data →
      oC ≤ s.compact.keys.length →
      (∀ x ∈ s.compact.keys.take oC, ∀ r ∈ data, x.1 < func r.1) →
      dC ≤ s.diffs.updates.length →
      (∀ x ∈ s.diffs.updates.take dC, ∀ r ∈ data, x.key < func r.1) →
      (∀ r ∈ data, ed (func r.1) = s.edges (func r.1)) →
      (proposeLoop s func valid fuel data oC dC ed).2 =
        data.map (proposeRowFun s func valid) := by
  intro fuel
  induction fuel with
  | zero =>
    intro data oC dC ed hlen _ _ _ _ _ _
    rw [List.eq_nil_of_length_eq_zero (Nat.le_zero.mp hlen)]
    rfl
  | succ fuel ih =>
    intro data oC dC ed hlen hpair hcle hctake hdle hdtake hed
    cases data with
    | nil => rfl
    | cons r rest =>
      have hc0 : s.compact.values_from (func r.1) oC = s.compact.values_from (func r.1) 0 :=
        compact_values_from_cursor s.compact (func r.1) oC hcle
          (fun x hx => hctake x hx r (List.mem_cons_self _ _))
      have hd0 : s.diffs.values_from (func r.1) dC = s.diffs.values_from (func r.1) 0 :=
        unsorted_values_from_cursor s.diffs (func r.1) dC hdle
          (fun x hx => hdtake x hx r (List.mem_cons_self _ _))
      have hpair' := (List.pairwise_cons.mp hpair).2
      have hhead := (List.pairwise_cons.mp hpair).1
      have hgt : ∀ x ∈ rest.dropWhile (fun x => decide (func x.1 = func r.1)),
          func r.1 < func x.1 :=
        mem_dropWhile_key_gt (fun x => func x.1) (func r.1) rest hpair' hhead
      have hsplit : r :: rest =
          (r :: rest.takeWhile (fun x => decide (func x.1 = func r.1))) ++
            rest.dropWhile (fun x => decide (func x.1 = func r.1)) := by
        rw [List.cons_append, List.takeWhile_append_dropWhile]
      simp only [proposeLoop]
      rw [hc0, hd0, hed r (List.mem_cons_self _ _)]
      have hczero := compact_values_from_zero s.compact (func r.1)
      have hdzero := unsorted_values_from_zero s.diffs (func r.1)
      have hrec := ih (rest.dropWhile (fun x => decide (func x.1 = func r.1)))
        (s.compact.values_from (func r.1) 0).2 (s.diffs.values_from (func r.1) 0).2
        (Function.update ed (func r.1) ((s.edges (func r.1)).proposals))
        (le_trans (dropWhile_length_le _ rest) (by simpa using hlen))
        (List.Pairwise.sublist (List.Sublist.cons r (List.dropWhile_sublist _)) hpair)
        hczero.1
        (fun x hx r' hr' => lt_of_le_of_lt (hczero.2 x hx) (hgt r' hr'))
        hdzero.1
        (fun x hx r' hr' => lt_of_le_of_lt (hdzero.2 x hx) (hgt r' hr'))
        (fun r' hr' => by
          rw [Function.update_noteq (hgt r' hr').ne']
          exact hed r' (List.mem_cons_of_mem _ ((List.dropWhile_sublist _).subset hr')))
      rw [hrec]
      conv_rhs => rw [hsplit]
      rw [List.map_append]
      refine congrArg (· ++ _) ?_
      refine List.map_congr_left ?_
      intro x hx
      have hk : func x.1 = func r.1 := by
        rcases List.mem_cons.mp hx with rfl | hx
        · rfl
        · simpa using List.mem_takeWhile_imp hx
      rw [proposeRowFun, hk, propExt]

/-- `Index.propose` appends `propExt` at the row's key to every row of the
key-sorted data. -/
theorem proposeOp_char {P : Type} (s : Index) (data : List (PropRow P))
    (func : P → Key) (valid : Time → Bool) :
    (Index.proposeOp s data func valid).2 =
      (sortByKeyOf func data).map (proposeRowFun s func valid) := by
  rw [Index.proposeOp]
  refine proposeLoop_char s func valid data.length (sortByKeyOf func data) 0 0 s.edges
    (le_of_eq (List.Perm.length_eq (List.perm_insertionSort _ data)))
    ?_ (Nat.zero_le _) (by simp) (Nat.zero_le _) (by simp) (fun _ _ => rfl)
  letI : IsTotal (PropRow P) (fun x y => func x.1 ≤ func y.1) :=
    ⟨fun a b => Nat.le_total (func a.1) (func b.1)⟩
  letI : IsTrans (PropRow P) (fun x y => func x.1 ≤ func y.1) :=
    ⟨fun _ _ _ h₁ h₂ => Nat.le_trans h₁ h₂⟩
  exact List.sorted_insertionSort _ data

/-! ## Reachable index states -/

instance : IsTrans Upd kvLe :=
  ⟨by
    intro a b c h₁ h₂
    rcases h₁ with h₁ | ⟨e₁, v₁⟩
    · rcases h₂ with h₂ | ⟨e₂, v₂⟩
      · exact Or.inl (lt_trans h₁ h₂)
      · exact Or.inl (e₂ ▸ h₁)
    · rcases h₂ with h₂ | ⟨e₂, v₂⟩
      · exact Or.inl (e₁.symm ▸ h₂)
      · exact Or.inr ⟨e₁.trans e₂, le_trans v₁ v₂⟩⟩

instance : IsTotal Upd kvLe :=
  ⟨by
    intro a b
    rcases Nat.lt_trichotomy a.key b.key with h | h | h
    · exact Or.inl (Or.inl h)
    · rcases Nat.le_total a.val b.val with hv | hv
      · exact Or.inl (Or.inr ⟨h, hv⟩)
      · exact Or.inr (Or.inr ⟨h.symm, hv⟩)
    · exact Or.inr (Or.inl h)⟩

theorem sortByKV_sorted (l : List Upd) : List.Pairwise kvLe (sortByKV l) :=
  List.sorted_insertionSort _ l

theorem kvLe_key_le {x y : Upd} (h : kvLe x y) : x.key ≤ y.key := by
  rcases h with h | ⟨h, _⟩
  · exact le_of_lt h
  · exact le_of_eq h

/-- The states reachable through the index's mutating interface. -/
inductive Reach : Index → Prop
  | new : Reach Index.new
  | load (s : Index) (init : List (List (Key × Val))) :
      Reach s → Reach (s.initializeOp init)
  | update (s : Index) (time : Time) (batch : List ((Key × Val) × Int)) :
      Reach s → Reach (s.updateOp time batch)
  | merge (s : Index) (t : Time) : Reach s → Reach (s.merge_to t)

/-- On every reachable state the unsorted buffer is `(key, val)`-sorted. -/
theorem reach_kv_sorted {s : Index} (h : Reach s) :
    List.Pairwise kvLe s.diffs.updates := by
  induction h with
  | new => exact List.Pairwise.nil
  | load s init _ ih => exact ih
  | update s time batch _ _ => exact sortByKV_sorted _
  | merge s t _ ih => exact List.Pairwise.sublist (List.filter_sublist _) ih

theorem reach_key_sorted {s : Index} (h : Reach s) :
    List.Pairwise (fun x y : Upd => x.key ≤ y.key) s.diffs.updates :=
  (reach_kv_sorted h).imp kvLe_key_le

/-- Count of one value in a key's propose output, on any state with a key-sorted
unsorted buffer. -/
theorem propExt_count (s : Index)
    (hs : List.Pairwise (fun x y : Upd => x.key ≤ y.key) s.diffs.updates)
    (k : Key) (valid : Time → Bool) (v : Val) :
    (propExt s k valid).count v = (accumIdx s k valid v).toNat := by
  have hsl : (s.diffs.values_from k 0).1 =
      s.diffs.updates.filter (fun x => decide (x.key = k)) :=
    Unsorted.slice_sem s.diffs hs k
  rw [propExt, keyProposals_count, rawProposals_valSum, hsl, proposals_valSum, accumIdx]

/-- C1 (amended): on every reachable state, `Index.propose` appends to each
key-sorted data row exactly `propExt` at the row's key: the value-sorted list in
which each value `v` occurs with multiplicity the positive part of its
accumulated diff over the compact slice, the key's edge list, and the valid
unsorted entries.  (The spec's claim that this list is deduplicated is wrong:
a value with accumulated diff `c > 1` occurs `c` times.) -/
theorem propose_multiset_amended {P : Type} (s : Index) (hs : Reach s)
    (data : List (PropRow P)) (func : P → Key) (valid : Time → Bool) :
    (Index.proposeOp s data func valid).2 =
        (sortByKeyOf func data).map (proposeRowFun s func valid) ∧
      (∀ k, List.Pairwise (fun a b : Val => a ≤ b) (propExt s k valid)) ∧
      (∀ k v, (propExt s k valid).count v = (accumIdx s k valid v).toNat) := by
  refine ⟨proposeOp_char s data func valid, ?_, ?_⟩
  · intro k
    rw [propExt]
    exact keyProposals_sorted _ _ _ _
  · intro k v
    exact propExt_count s (reach_key_sorted hs) k valid v

/-- C1 counterexample: initializing with the duplicated edge `(1, 5)` makes
`propose` return the extension list `[5, 5]`, which is not deduplicated. -/
theorem propose_dedup_counterexample :
    (Index.proposeOp (P := Nat) (Index.initializeOp Index.new [[(1, 5), (1, 5)]])
        [(0, [], 1)] (fun _ => 1) (fun _ => true)).2 = [(0, [5, 5], 1)] ∧
      ¬ ([5, 5] : List Val).Nodup := by
  refine ⟨by decide, by decide⟩

/-- Witness for the amended C1 at a concrete reachable state and batch. -/
theorem propose_multiset_amended_witness :
    (Index.proposeOp (P := Nat) (Index.initializeOp Index.new [[(1, 5)]])
        [(0, [], 1)] (fun _ => 1) (fun _ => true)).2 =
        (sortByKeyOf (fun _ => 1) [(0, ([] : List Val), (1 : Int))]).map
          (proposeRowFun (Index.initializeOp Index.new [[(1, 5)]]) (fun _ => 1)
            (fun _ => true)) ∧
      (∀ k, List.Pairwise (fun a b : Val => a ≤ b)
        (propExt (Index.initializeOp Index.new [[(1, 5)]]) k (fun _ => true))) ∧
      (∀ k v, (propExt (Index.initializeOp Index.new [[(1, 5)]]) k (fun _ => true)).count v =
        (accumIdx (Index.initializeOp Index.new [[(1, 5)]]) k (fun _ => true) v).toNat) :=
  propose_multiset_amended (Index.initializeOp Index.new [[(1, 5)]])
    (Reach.load _ _ Reach.new) [(0, [], 1)] (fun _ => 1) (fun _ => true)

/-! ## `merge_to`, characterised -/

/-- The diff the merge moves into key `k`, value `v`: entries at or before `t`. -/
def mSum (t : Time) (k : Key) (v : Val) (updates : List Upd) : Int :=
  ((updates.filter
      (fun x => decide (x.key = k) && decide (x.time ≤ t) && decide (x.val = v))).map
    Upd.diff).sum

theorem mSum_nil (t : Time) (k : Key) (v : Val) : mSum t k v [] = 0 := rfl

theorem mSum_append (t : Time) (k : Key) (v : Val) (l₁ l₂ : List Upd) :
    mSum t k v (l₁ ++ l₂) = mSum t k v l₁ + mSum t k v l₂ := by
  simp [mSum, List.filter_append]

theorem mSum_eq_zero (t : Time) (k : Key) (v : Val) {l : List Upd}
    (h : ∀ x ∈ l, x.key ≠ k) : mSum t k v l = 0 := by
  rw [mSum, List.filter_eq_nil_iff.mpr (fun x hx => by simp [h x hx])]
  rfl

/-- `mergeLoop` leaves keys absent from the updates untouched. -/
theorem mergeLoop_not_mem (t : Time) :
    ∀ (fuel : Nat) (updates : List Upd) (ed : Key → EdgeList) (k : Key),
      (∀ x ∈ updates, x.key ≠ k) → mergeLoop t fuel updates ed k = ed k
  | 0, updates, _, _, _ => by cases updates <;> rfl
  | _ + 1, [], _, _, _ => rfl
  | fuel + 1, r :: rest, ed, k, h => by
    simp only [mergeLoop]
    rw [mergeLoop_not_mem t fuel _ _ k
      (fun x hx => h x (List.mem_cons_of_mem _ ((List.dropWhile_sublist _).subset hx)))]
    exact Function.update_noteq (fun hc => h r (List.mem_cons_self _ _) hc.symm) _ _

theorem push_valSum_upd (e : EdgeList) (x : Upd) (v : Val) :
    valSum v (e.push (x.val, x.diff)).values =
      valSum v e.values + (if x.val = v then Upd.diff x else 0) := by
  rw [push_valSum]

theorem foldl_push_valSum (t : Time) (v : Val) :
    ∀ (grp : List Upd) (e : EdgeList),
      valSum v ((grp.foldl
          (fun acc x => if x.time ≤ t then acc.push (x.val, x.diff) else acc) e)).values =
        valSum v e.values +
          ((grp.filter (fun x => decide (x.time ≤ t) && decide (x.val = v))).map
            Upd.diff).sum
  | [], e => by simp
  | x :: rest, e => by
    rw [List.foldl_cons, List.filter_cons]
    by_cases ht : x.time ≤ t
    · rw [if_pos ht, foldl_push_valSum t v rest (e.push (x.val, x.diff)),
        push_valSum_upd]
      by_cases hx : x.val = v
      · have hcond : (decide (x.time ≤ t) && decide (x.val = v)) = true := by
          simp [ht, hx]
        rw [if_pos hcond, List.map_cons, List.sum_cons, if_pos hx]
        ring_nf
      · have hcond : ¬ ((decide (x.time ≤ t) && decide (x.val = v)) = true) := by
          simp [hx]
        rw [if_neg hcond, if_neg hx]
        ring_nf
    · rw [if_neg ht, if_neg (by simp [ht]), foldl_push_valSum t v rest e]

/-- Per-key, per-value effect of the merge loop on the edge lists. -/
theorem mergeLoop_valSum (t : Time) :
    ∀ (fuel : Nat) (updates : List Upd) (ed : Key → EdgeList) (k : Key) (v : Val),
      updates.length ≤ fuel →
      List.Pairwise (fun x y : Upd => x.key ≤ y.key) updates →
      valSum v ((mergeLoop t fuel updates ed) k).values =
        valSum v (ed k).values + mSum t k v updates := by
  intro fuel
  induction fuel with
  | zero =>
    intro updates ed k v hlen _
    rw [List.eq_nil_of_length_eq_zero (Nat.le_zero.mp hlen)]
    have h0 : mergeLoop t 0 [] ed = ed := rfl
    rw [h0, mSum_nil]
    simp
  | succ fuel ih =>
    intro updates ed k v hlen hpair
    cases updates with
    | nil => simp [mergeLoop, mSum_nil]
    | cons r rest =>
      have hpair' := (List.pairwise_cons.mp hpair).2
      have hhead := (List.pairwise_cons.mp hpair).1
      have hgt : ∀ x ∈ rest.dropWhile (fun x => decide (x.key = r.key)),
          r.key < x.key :=
        mem_dropWhile_key_gt (fun x : Upd => x.key) r.key rest hpair' hhead
      have hsplit : r :: rest =
          (r :: rest.takeWhile (fun x => decide (x.key = r.key))) ++
            rest.dropWhile (fun x => decide (x.key = r.key)) := by
        rw [List.cons_append, List.takeWhile_append_dropWhile]
      have hgrpkey : ∀ x ∈ r :: rest.takeWhile (fun x => decide (x.key = r.key)),
          x.key = r.key := by
        intro x hx
        rcases List.mem_cons.mp hx with rfl | hx
        · rfl
        · simpa using List.mem_takeWhile_imp hx
      simp only [mergeLoop]
      have hrec := ih (rest.dropWhile (fun x => decide (x.key = r.key)))
        (Function.update ed r.key
          (((r :: rest.takeWhile (fun x => decide (x.key = r.key))).foldl
              (fun acc x => if x.time ≤ t then acc.push (x.val, x.diff) else acc)
              (ed r.key)).seal_from (ed r.key).position))
        k v
        (le_trans (dropWhile_length_le _ rest) (by simpa using hlen))
        (List.Pairwise.sublist (List.dropWhile_sublist _) hpair')
      rw [hrec]
      conv_rhs => rw [hsplit]
      rw [mSum_append]
      by_cases hk : k = r.key
      · rw [hk, Function.update_same, seal_from_valSum, foldl_push_valSum]
        have hz : mSum t r.key v (rest.dropWhile (fun x => decide (x.key = r.key))) = 0 :=
          mSum_eq_zero t r.key v (fun x hx => (hgt x hx).ne')
        rw [hz]
        have hgrp : ((r :: rest.takeWhile (fun x => decide (x.key = r.key))).filter
              (fun x => decide (x.time ≤ t) && decide (x.val = v))).map Upd.diff =
            ((r :: rest.takeWhile (fun x => decide (x.key = r.key))).filter
              (fun x => decide (x.key = r.key) && decide (x.time ≤ t) &&
                decide (x.val = v))).map Upd.diff := by
          refine congrArg (List.map Upd.diff) ?_
          refine List.filter_congr ?_
          intro x hx
          simp [hgrpkey x hx]
        rw [hgrp, mSum]
        ring_nf
      · rw [Function.update_noteq hk]
        have hz : mSum t k v (r :: rest.takeWhile (fun x => decide (x.key = r.key))) = 0 :=
          mSum_eq_zero t k v (fun x hx => by rw [hgrpkey x hx]; exact fun hc => hk hc.symm)
        rw [hz]
        ring_nf

/-- Splitting a filtered sum pointwise. -/
theorem sum_filter_split (f : Upd → Int) (g₁ g₂ g₃ : Upd → Bool)
    (h : ∀ x : Upd, (if g₁ x then f x else 0) + (if g₂ x then f x else 0) =
      (if g₃ x then f x else 0)) :
    ∀ l : List Upd,
      ((l.filter g₁).map f).sum + ((l.filter g₂).map f).sum =
        ((l.filter g₃).map f).sum
  | [] => by simp
  | x :: rest => by
    have ih := sum_filter_split f g₁ g₂ g₃ h rest
    have hx := h x
    rw [List.filter_cons, List.filter_cons, List.filter_cons]
    by_cases h₁ : g₁ x = true <;> by_cases h₂ : g₂ x = true <;>
      by_cases h₃ : g₃ x = true <;>
      simp [h₁, h₂, h₃] at hx ⊢ <;>
      try omega

/-- Dropping the committed entries from the unsorted buffer and crediting them to
the edge lists preserves the valid per-value sums, as long as `valid` accepts
every time at or before the frontier. -/
theorem dSum_filter_merge (t : Time) (valid : Time → Bool)
    (hv : ∀ u, u ≤ t → valid u = true) (k : Key) (v : Val) (updates : List Upd) :
    dSum v ((updates.filter (fun x => decide (¬ x.time ≤ t ∧ x.diff ≠ 0))).filter
        (fun x => decide (x.key = k))) valid + mSum t k v updates =
      dSum v (updates.filter (fun x => decide (x.key = k))) valid := by
  simp only [dSum, mSum, List.filter_filter]
  refine sum_filter_split Upd.diff _ _ _ ?_ updates
  intro x
  by_cases htime : x.time ≤ t
  · have hvx : valid x.time = true := hv _ htime
    by_cases hkey : x.key = k
    · by_cases hval : x.val = v
      · rw [if_neg (by simp [htime]), if_pos (by simp [htime, hkey, hval]),
          if_pos (by simp [hvx, hval, hkey])]
        simp
      · rw [if_neg (by simp [htime]), if_neg (by simp [hval]),
          if_neg (by simp [hval])]
        simp
    · rw [if_neg (by simp [htime]), if_neg (by simp [hkey]),
        if_neg (by simp [hkey])]
      simp
  · by_cases hdiff : x.diff = 0
    · rw [if_neg (by simp [hdiff]), if_neg (by simp [htime])]
      have hz : Upd.diff x = 0 := hdiff
      rw [hz]
      simp
    · by_cases hkey : x.key = k
      · by_cases hval : x.val = v
        · by_cases hvx : valid x.time = true
          · rw [if_pos (by simp [htime, hdiff, hvx, hval, hkey]),
              if_neg (by simp [htime]), if_pos (by simp [hvx, hval, hkey])]
            simp
          · rw [if_neg (by simp [hvx]), if_neg (by simp [htime]),
              if_neg (by simp [hvx])]
            simp
        · rw [if_neg (by simp [hval]), if_neg (by simp [hval]),
            if_neg (by simp [hval])]
          simp
      · rw [if_neg (by simp [hkey]), if_neg (by simp [hkey]),
          if_neg (by simp [hkey])]
        simp

/-- `merge_to` preserves every accumulated diff when `valid` accepts all times
at or before the merge frontier. -/
theorem merge_to_accum (s : Index)
    (hs : List.Pairwise (fun x y : Upd => x.key ≤ y.key) s.diffs.updates)
    (t : Time) (valid : Time → Bool) (hv : ∀ u, u ≤ t → valid u = true)
    (k : Key) (v : Val) :
    accumIdx (s.merge_to t) k valid v = accumIdx s k valid v := by
  rw [accumIdx, accumIdx]
  have hedge : valSum v ((s.merge_to t).edges k).values =
      valSum v (s.edges k).values + mSum t k v s.diffs.updates := by
    rw [Index.merge_to]
    exact mergeLoop_valSum t s.diffs.updates.length s.diffs.updates s.edges k v
      (le_refl _) hs
  have hdiffs : dSum v ((s.merge_to t).diffs.updates.filter
        (fun x => decide (x.key = k))) valid + mSum t k v s.diffs.updates =
      dSum v (s.diffs.updates.filter (fun x => decide (x.key = k))) valid := by
    rw [Index.merge_to]
    exact dSum_filter_merge t valid hv k v s.diffs.updates
  have hcompact : (s.merge_to t).compact = s.compact := rfl
  rw [hcompact, hedge]
  omega

theorem propExt_merge_eq (s : Index) (hs : Reach s) (t : Time)
    (valid : Time → Bool) (hv : ∀ u, u ≤ t → valid u = true) (k : Key) :
    propExt (s.merge_to t) k valid = propExt s k valid := by
  have hsort₁ : List.Pairwise (fun a b : Val => a ≤ b) (propExt (s.merge_to t) k valid) := by
    rw [propExt]
    exact keyProposals_sorted _ _ _ _
  have hsort₂ : List.Pairwise (fun a b : Val => a ≤ b) (propExt s k valid) := by
    rw [propExt]
    exact keyProposals_sorted _ _ _ _
  have hcount : ∀ v, (propExt (s.merge_to t) k valid).count v =
      (propExt s k valid).count v := by
    intro v
    rw [propExt_count (s.merge_to t) (reach_key_sorted (Reach.merge s t hs)) k valid v,
      propExt_count s (reach_key_sorted hs) k valid v,
      merge_to_accum s (reach_key_sorted hs) t valid hv k v]
  exact List.eq_of_perm_of_sorted (List.perm_iff_count.mpr hcount) hsort₁ hsort₂

/-- C4 (amended): `merge_to t` preserves the answers of `propose` whenever the
validity predicate accepts every time at or before `t` (in particular both
`< t'` and `≤ t'` for `t' > t`, and `≤ t'` for `t' = t`); `count` and
`intersect` answers are *not* preserved in general. -/
theorem merge_to_propose_amended {P : Type} (s : Index) (hs : Reach s) (t : Time)
    (valid : Time → Bool) (hv : ∀ u, u ≤ t → valid u = true)
    (data : List (PropRow P)) (func : P → Key) :
    (Index.proposeOp (s.merge_to t) data func valid).2 =
      (Index.proposeOp s data func valid).2 := by
  rw [proposeOp_char, proposeOp_char]
  refine List.map_congr_left ?_
  intro x _
  rw [proposeRowFun, proposeRowFun, propExt_merge_eq s hs t valid hv]

/-- C4 counterexample: a single uncommitted update `((1,7), +2)` at time `1` gives
the count estimate `1`; after `merge_to 1` the same query at time `t' = 1 ≥ t`
returns `2`, so `merge_to` does not preserve `count` answers. -/
theorem merge_to_count_counterexample :
    (Index.countOp (P := Nat) (Index.updateOp Index.new 1 [((1, 7), 2)])
        [(0, 2 ^ 31, 0, 1)] (fun _ => 1) (fun u => decide (u ≤ 1)) 0) =
        [(0, 1, 0, 1)] ∧
      (Index.countOp (P := Nat) ((Index.updateOp Index.new 1 [((1, 7), 2)]).merge_to 1)
        [(0, 2 ^ 31, 0, 1)] (fun _ => 1) (fun u => decide (u ≤ 1)) 0) =
        [(0, 2, 0, 1)] ∧
      (1 : Nat) ≠ 2 := by
  refine ⟨by decide, by decide, by decide⟩

/-- Witness for the amended C4 at a concrete state, frontier and predicate. -/
theorem merge_to_propose_amended_witness :
    (Index.proposeOp (P := Nat) ((Index.updateOp Index.new 5 [((1, 7), 1)]).merge_to 3)
        [(0, [], 1)] (fun _ => 1) (fun u => decide (u ≤ 9))).2 =
      (Index.proposeOp (P := Nat) (Index.updateOp Index.new 5 [((1, 7), 1)])
        [(0, [], 1)] (fun _ => 1) (fun u => decide (u ≤ 9))).2 :=
  merge_to_propose_amended (Index.updateOp Index.new 5 [((1, 7), 1)])
    (Reach.update _ _ _ Reach.new) 3 (fun u => decide (u ≤ 9))
    (fun u hu => decide_eq_true (le_trans hu (by omega : (3 : Nat) ≤ 9))) [(0, [], 1)]
    (fun _ => 1)

/-! ## Insert-only states and the count estimate (C2) -/

theorem diffSum_nonneg {l : List (Val × Int)} (h : ∀ x ∈ l, 0 ≤ x.2) :
    0 ≤ diffSum l := by
  rw [diffSum]
  refine List.sum_nonneg ?_
  intro d hd
  obtain ⟨x, hx, rfl⟩ := List.mem_map.mp hd
  exact h x hx

theorem diffSum_map_one (cvals : List Val) :
    diffSum (cvals.map (fun w => (w, (1 : Int)))) = cvals.length := by
  induction cvals with
  | nil => rfl
  | cons c rest ih =>
    rw [List.map_cons, diffSum_cons, ih, List.length_cons]
    push_cast
    ring_nf

/-- The edge-list invariant maintained on insert-only states. -/
def EdgeInv (e : EdgeList) : Prop :=
  e.count = diffSum e.values ∧ ∀ x ∈ e.values, 0 ≤ x.2

theorem edgeInv_new : EdgeInv EdgeList.new := by
  constructor
  · rfl
  · intro x hx
    simp [EdgeList.new] at hx

theorem foldl_push_inv (t : Time) :
    ∀ (grp : List Upd) (e : EdgeList), (∀ x ∈ grp, 0 ≤ x.diff) → EdgeInv e →
      EdgeInv (grp.foldl
        (fun acc x => if x.time ≤ t then acc.push (x.val, x.diff) else acc) e)
  | [], e, _, he => he
  | x :: rest, e, hgrp, he => by
    rw [List.foldl_cons]
    by_cases ht : x.time ≤ t
    · rw [if_pos ht]
      refine foldl_push_inv t rest _ (fun y hy => hgrp y (List.mem_cons_of_mem _ hy)) ?_
      constructor
      · rw [push_count, push_sum, he.1]
      · exact push_nonneg e _ he.2 (hgrp x (List.mem_cons_self _ _))
    · rw [if_neg ht]
      exact foldl_push_inv t rest e (fun y hy => hgrp y (List.mem_cons_of_mem _ hy)) he

theorem seal_from_inv (e : EdgeList) (pos : Nat) (he : EdgeInv e) :
    EdgeInv (e.seal_from pos) := by
  constructor
  · rw [seal_from_count, seal_from_sum, he.1]
  · exact seal_from_nonneg e pos he.2

theorem mergeLoop_inv (t : Time) :
    ∀ (fuel : Nat) (updates : List Upd) (ed : Key → EdgeList),
      (∀ x ∈ updates, 0 ≤ x.diff) → (∀ k, EdgeInv (ed k)) →
      ∀ k, EdgeInv ((mergeLoop t fuel updates ed) k)
  | 0, updates, ed, _, hed, k => by cases updates <;> exact hed k
  | _ + 1, [], ed, _, hed, k => hed k
  | fuel + 1, r :: rest, ed, hupd, hed, k => by
    simp only [mergeLoop]
    refine mergeLoop_inv t fuel _ _
      (fun x hx => hupd x (List.mem_cons_of_mem _ ((List.dropWhile_sublist _).subset hx)))
      ?_ k
    intro k'
    by_cases hk : k' = r.key
    · rw [hk, Function.update_same]
      refine seal_from_inv _ _ ?_
      refine foldl_push_inv t _ _ ?_ (hed r.key)
      intro x hx
      rcases List.mem_cons.mp hx with rfl | hx
      · exact hupd x (List.mem_cons_self _ _)
      · exact hupd x
          (List.mem_cons_of_mem _ ((List.takeWhile_sublist _).subset hx))
    · rw [Function.update_noteq hk]
      exact hed k'

/-- The states reachable when every update batch is insert-only. -/
inductive ReachIns : Index → Prop
  | new : ReachIns Index.new
  | load (s : Index) (init : List (List (Key × Val))) :
      ReachIns s → ReachIns (s.initializeOp init)
  | update (s : Index) (time : Time) (batch : List ((Key × Val) × Int)) :
      (∀ x ∈ batch, 0 ≤ x.2) → ReachIns s → ReachIns (s.updateOp time batch)
  | merge (s : Index) (t : Time) : ReachIns s → ReachIns (s.merge_to t)

theorem reachIns_kv_sorted {s : Index} (h : ReachIns s) :
    List.Pairwise kvLe s.diffs.updates := by
  induction h with
  | new => exact List.Pairwise.nil
  | load s init _ ih => exact ih
  | update s time batch _ _ _ => exact sortByKV_sorted _
  | merge s t _ ih => exact List.Pairwise.sublist (List.filter_sublist _) ih

theorem reachIns_key_sorted {s : Index} (h : ReachIns s) :
    List.Pairwise (fun x y : Upd => x.key ≤ y.key) s.diffs.updates :=
  (reachIns_kv_sorted h).imp kvLe_key_le

theorem reachIns_diff_nonneg {s : Index} (h : ReachIns s) :
    ∀ x ∈ s.diffs.updates, 0 ≤ x.diff := by
  induction h with
  | new => intro x hx; simp [Index.new, Unsorted.new] at hx
  | load s init _ ih => exact ih
  | update s time batch hb _ ih =>
    intro x hx
    have hx' := (List.perm_insertionSort kvLe _).mem_iff.mp hx
    rcases List.mem_append.mp hx' with hx' | hx'
    · exact ih x hx'
    · obtain ⟨kvd, hkvd, rfl⟩ := List.mem_map.mp hx'
      exact hb kvd hkvd
  | merge s t _ ih =>
    intro x hx
    exact ih x (List.mem_of_mem_filter hx)

theorem reachIns_edge_inv {s : Index} (h : ReachIns s) :
    ∀ k, EdgeInv (s.edges k) := by
  induction h with
  | new => intro k; exact edgeInv_new
  | load s init _ ih => exact ih
  | update s time batch _ _ ih => exact ih
  | merge s t hr ih =>
    intro k
    exact mergeLoop_inv t s.diffs.updates.length s.diffs.updates s.edges
      (reachIns_diff_nonneg hr) ih k

/-- C2 (amended): on an insert-only state with no uncommitted updates for `k`
(and no `u64` wrap-around), the `count` estimate equals the length of the
propose extension list; and `count` is, per row, a pure function of the row via
`countRowFun`.  (The original upper-bound claim is false in general: an
uncommitted update with diff greater than one makes `propose` longer than the
estimate.) -/
theorem count_estimate_amended (s : Index) (hs : ReachIns s) (k : Key)
    (valid : Time → Bool)
    (hempty : s.diffs.updates.filter (fun x => decide (x.key = k)) = [])
    (hbound : ((s.compact.values_from k 0).1.length : Int) + (s.edges k).count < 2 ^ 64) :
    countEst s k = (propExt s k valid).length ∧
      ∀ (Q : Type) (data : List (CountRow Q)) (func : Q → Key) (ident : Nat),
        Index.countOp s data func valid ident =
          (sortByKeyOf func data).map (countRowFun s func ident) := by
  refine ⟨?_, fun Q data func ident => countOp_char s data func valid ident⟩
  have hinv := reachIns_edge_inv hs k
  have hsl : (s.diffs.values_from k 0).1 = [] := by
    rw [Unsorted.slice_sem s.diffs (reachIns_key_sorted hs) k, hempty]
  have hcount0 : 0 ≤ (s.edges k).count := hinv.1 ▸ diffSum_nonneg hinv.2
  have hraw : ∀ x ∈ rawProposals (s.compact.values_from k 0).1
      ((s.edges k).proposals.values) [] valid, 0 ≤ x.2 := by
    intro x hx
    rw [rawProposals] at hx
    rcases List.mem_append.mp hx with hx | hx
    · rcases List.mem_append.mp hx with hx | hx
      · obtain ⟨w, _, rfl⟩ := List.mem_map.mp hx
        exact zero_le_one
      · exact proposals_nonneg _ hinv.2 x hx
    · simp at hx
  have hlen : (propExt s k valid).length =
      (((s.compact.values_from k 0).1.length : Int) + (s.edges k).count).toNat := by
    rw [propExt, hsl, keyProposals_length _ _ _ _ hraw, rawProposals,
      diffSum_append, diffSum_append, diffSum_map_one]
    have hev : diffSum ((s.edges k).proposals.values) = (s.edges k).count := by
      rw [proposals_sum, hinv.1]
    have hfm : diffSum (List.filterMap
        (fun x : Upd => if valid x.time then some (x.val, x.diff) else none) []) = 0 := rfl
    rw [hev, hfm]
    refine congrArg Int.toNat ?_
    ring_nf
  have hest : countEst s k =
      (((s.compact.values_from k 0).1.length : Int) + (s.edges k).count).toNat := by
    rw [countEst, hsl, estimateU64]
    refine congrArg Int.toNat ?_
    have h0 : (0 : Int) ≤ ((s.compact.values_from k 0).1.length : Int) + (s.edges k).count := by
      have : (0 : Int) ≤ ((s.compact.values_from k 0).1.length : Int) := Int.ofNat_nonneg _
      omega
    rw [show (([] : List Upd).length : Int) = 0 from rfl]
    rw [show ((s.compact.values_from k 0).1.length : Int) + (s.edges k).count + 0 =
      ((s.compact.values_from k 0).1.length : Int) + (s.edges k).count from by ring_nf]
    exact Int.emod_eq_of_lt h0 hbound
  rw [hest, hlen]

/-- C2 counterexample: a single uncommitted update with diff `2` makes the
estimate `1` while `propose` returns two extensions, so `count` is not an upper
bound on `|propose|`. -/
theorem count_not_upper_bound_counterexample :
    (Index.countOp (P := Nat) (Index.updateOp Index.new 1 [((1, 5), 2)])
        [(0, 2 ^ 31, 0, 1)] (fun _ => 1) (fun _ => true) 0) = [(0, 1, 0, 1)] ∧
      (Index.proposeOp (P := Nat) (Index.updateOp Index.new 1 [((1, 5), 2)])
        [(0, [], 1)] (fun _ => 1) (fun _ => true)).2 = [(0, [5, 5], 1)] ∧
      (1 : Nat) < 2 := by
  refine ⟨by decide, by decide, by decide⟩

/-- Witness for the amended C2 at a concrete insert-only state. -/
theorem count_estimate_amended_witness :
    countEst ((Index.updateOp Index.new 1 [((1, 5), 2)]).merge_to 1) 1 =
        (propExt ((Index.updateOp Index.new 1 [((1, 5), 2)]).merge_to 1) 1
          (fun _ => true)).length ∧
      ∀ (Q : Type) (data : List (CountRow Q)) (func : Q → Key) (ident : Nat),
        Index.countOp ((Index.updateOp Index.new 1 [((1, 5), 2)]).merge_to 1) data func
            (fun _ => true) ident =
          (sortByKeyOf func data).map
            (countRowFun ((Index.updateOp Index.new 1 [((1, 5), 2)]).merge_to 1) func ident) :=
  count_estimate_amended ((Index.updateOp Index.new 1 [((1, 5), 2)]).merge_to 1)
    (ReachIns.merge _ _ (ReachIns.update _ _ _ (by decide) ReachIns.new)) 1
    (fun _ => true) (by decide) (by decide)

/-! ## Determinism and batching (C7) -/

/-- C7 (amended): for a fixed operation history and validity predicate, `count`
and `propose` compute each row's answer as a function of that row alone
(`countRowFun` / `proposeRowFun` applied under the stable key sort), so
permuting or splitting query batches cannot change any row's answer.  The same
is *not* true of `intersect`: its `expend` call consolidates a key's edge list
only when the whole batch's effort exceeds the list length, and consolidation
changes answers on duplicated extensions. -/
theorem count_propose_batch_invariant {P : Type} (s : Index) (func : P → Key)
    (valid : Time → Bool) (ident : Nat) (cdata : List (CountRow P))
    (pdata : List (PropRow P)) :
    Index.countOp s cdata func valid ident =
        (sortByKeyOf func cdata).map (countRowFun s func ident) ∧
      (Index.proposeOp s pdata func valid).2 =
        (sortByKeyOf func pdata).map (proposeRowFun s func valid) :=
  ⟨countOp_char s cdata func valid ident, proposeOp_char s pdata func valid⟩

/-- The C7/C6 counterexample state: one consolidated run of ten values
`100..109` under key `1`, then a raw sealed run holding `(7,1)` twice. -/
def s7c : Index :=
  (((Index.updateOp Index.new 1
      ((List.range 10).map (fun i => ((1, 100 + i), (1 : Int))))).merge_to 1).updateOp 2
    [((1, 7), 1), ((1, 7), 1)]).merge_to 2

/-- C7 counterexample: querying `[7,7]` alone leaves the edge list raw and both
copies survive; batching it with a long query pushes the effort over the list
length, `expend` consolidates the duplicate `(7,1)` entries into `(7,2)`, and
the same row now returns `[7]`. -/
theorem intersect_batching_counterexample :
    (Index.intersectOp (P := Nat) s7c [(0, [7, 7], 1)] (fun _ => 1)
        (fun _ => true)).2 = [(0, [7, 7], 1)] ∧
      (Index.intersectOp (P := Nat) s7c
          [(0, [7, 7], 1), (1, (List.range 11).map (fun i => 200 + i), 1)]
          (fun _ => 1) (fun _ => true)).2 = [(0, [7], 1), (1, [], 1)] ∧
      ([7, 7] : List Val) ≠ [7] := by
  refine ⟨by decide, by decide, by decide⟩

/-! ## `intersect`, characterised on consolidated states (C6) -/

theorem zipWith_add_congr (f g : Val → Int) :
    ∀ (src : List Val) (temp : List Int), (∀ p ∈ src, f p = g p) →
      List.zipWith (fun p t => t + f p) src temp =
        List.zipWith (fun p t => t + g p) src temp
  | [], _, _ => rfl
  | p :: ps, [], _ => rfl
  | p :: ps, t :: ts, h => by
    rw [List.zipWith_cons_cons, List.zipWith_cons_cons,
      h p (List.mem_cons_self _ _),
      zipWith_add_congr f g ps ts (fun q hq => h q (List.mem_cons_of_mem _ hq))]

theorem zipWith_add_zero (f : Val → Int) :
    ∀ (src : List Val) (temp : List Int), temp.length = src.length →
      (∀ p ∈ src, f p = 0) →
      List.zipWith (fun p t => t + f p) src temp = temp
  | [], [], _, _ => rfl
  | [], t :: ts, h, _ => by simp at h
  | p :: ps, [], h, _ => by simp at h
  | p :: ps, t :: ts, h, hz => by
    rw [List.zipWith_cons_cons, hz p (List.mem_cons_self _ _),
      zipWith_add_zero f ps ts (by simpa using h)
        (fun q hq => hz q (List.mem_cons_of_mem _ hq))]
    simp

theorem dropWhile_head_not {α : Type} (p : α → Bool) :
    ∀ (l : List α) {b : α} {l' : List α}, l.dropWhile p = b :: l' → p b = false
  | [], _, _, h => by simp at h
  | a :: t, b, l', h => by
    by_cases ha : p a = true
    · rw [List.dropWhile_cons_of_pos ha] at h
      exact dropWhile_head_not p t h
    · rw [List.dropWhile_cons_of_neg ha] at h
      injection h with h1 h2
      subst h1
      cases hpa : p a
      · rfl
      · exact absurd hpa ha

/-- Galloping merge join of a strictly sorted source against one strictly
sorted run adds each source value's diff sum to its aligned count. -/
theorem intersectHelperGo_char :
    ∀ (src : List Val) (upd : List (Val × Int)) (temp : List Int),
      List.Pairwise (fun a b : Val => a < b) src →
      List.Pairwise (fun x y : Val × Int => x.1 < y.1) upd →
      temp.length = src.length →
      intersectHelperGo src upd temp =
        List.zipWith (fun p t => t + valSum p upd) src temp
  | [], upd, temp, _, _, hlen => by
    rw [List.eq_nil_of_length_eq_zero hlen]
    rfl
  | s :: st, upd, [], _, _, hlen => by simp at hlen
  | s :: st, upd, t :: ts, hsrc, hupd, hlen => by
    have hsrc' := (List.pairwise_cons.mp hsrc).2
    have hshead := (List.pairwise_cons.mp hsrc).1
    have hdsub : List.Pairwise (fun x y : Val × Int => x.1 < y.1)
        (upd.dropWhile (fun x => decide (x.1 < s))) :=
      List.Pairwise.sublist (List.dropWhile_sublist _) hupd
    have htlen : (ts : List Int).length = st.length := by simpa using hlen
    rcases hD : upd.dropWhile (fun x => decide (x.1 < s)) with _ | ⟨⟨u, d⟩, ut⟩
    · simp only [intersectHelperGo, hD]
      have hall : ∀ x ∈ upd, x.1 < s := by
        intro x hx
        have := List.dropWhile_eq_nil_iff.mp hD x hx
        simpa using this
      rw [List.zipWith_cons_cons]
      have hz : valSum s upd = 0 :=
        valSum_eq_zero s (fun x hx => (hall x hx).ne)
      rw [hz, zipWith_add_zero _ st ts htlen
        (fun q hq => valSum_eq_zero q
          (fun x hx => (lt_trans (hall x hx) (hshead q hq)).ne))]
      simp
    · simp only [intersectHelperGo, hD]
      have hnot : ¬ u < s := by
        have := dropWhile_head_not _ upd hD
        simpa using this
      have hdecomp : upd = upd.takeWhile (fun x => decide (x.1 < s)) ++ (u, d) :: ut := by
        rw [← hD, List.takeWhile_append_dropWhile]
      have htw : ∀ x ∈ upd.takeWhile (fun x => decide (x.1 < s)), x.1 < s := by
        intro x hx
        simpa using List.mem_takeWhile_imp hx
      have hDsorted : List.Pairwise (fun x y : Val × Int => x.1 < y.1) ((u, d) :: ut) :=
        hD ▸ hdsub
      have hut := (List.pairwise_cons.mp hDsorted).2
      have huthead := (List.pairwise_cons.mp hDsorted).1
      by_cases heq : u = s
      · rw [if_pos heq]
        have hvs : valSum s upd = d := by
          rw [hdecomp, valSum_append, valSum_cons,
            valSum_eq_zero s (fun x hx => (htw x hx).ne), if_pos heq,
            valSum_eq_zero s (fun x hx => by
              have := huthead x hx
              exact (heq ▸ this).ne')]
          ring_nf
        rw [List.zipWith_cons_cons, hvs,
          intersectHelperGo_char st ut ts hsrc' hut htlen,
          zipWith_add_congr _ (fun p => valSum p upd) st ts ?_]
        intro q hq
        have hqs : s < q := hshead q hq
        show valSum q ut = valSum q upd
        rw [hdecomp, valSum_append, valSum_cons,
          valSum_eq_zero q (fun x hx => (lt_trans (htw x hx) hqs).ne),
          if_neg (fun hc => absurd (heq ▸ hc ▸ hqs) (lt_irrefl _))]
        ring_nf
      · rw [if_neg heq]
        have hus : s < u := lt_of_le_of_ne (Nat.le_of_not_lt hnot) (fun h => heq h.symm)
        have hvs : valSum s upd = 0 := by
          rw [hdecomp, valSum_append, valSum_cons,
            valSum_eq_zero s (fun x hx => (htw x hx).ne),
            if_neg (fun hc => absurd (hc ▸ hus) (lt_irrefl _)),
            valSum_eq_zero s (fun x hx => (lt_trans hus (huthead x hx)).ne')]
          ring_nf
        rw [List.zipWith_cons_cons, hvs,
          intersectHelperGo_char st ((u, d) :: ut) ts hsrc' hDsorted htlen,
          zipWith_add_congr _ (fun p => valSum p upd) st ts ?_]
        · simp
        · intro q hq
          have hqs : s < q := hshead q hq
          show valSum q ((u, d) :: ut) = valSum q upd
          rw [hdecomp, valSum_append,
            valSum_eq_zero q (fun x hx => (lt_trans (htw x hx) hqs).ne)]
          ring_nf

theorem takeWhile_eq_eq_filter_eq {α : Type} (key : α → Nat) :
    ∀ {l : List α}, SortedKey key l → ∀ (k : Nat), (∀ x ∈ l, k ≤ key x) →
      l.takeWhile (fun x => decide (key x = k)) =
        l.filter (fun x => decide (key x = k))
  | [], _, _, _ => rfl
  | a :: t, hs, k, hge => by
    have hhead := sortedKey_head key hs
    have ht := takeWhile_eq_eq_filter_eq key (sortedKey_of_cons key hs) k
      (fun x hx => hge x (List.mem_cons_of_mem _ hx))
    by_cases h : key a = k
    · rw [List.takeWhile_cons_of_pos (by simpa using h),
        List.filter_cons_of_pos (by simpa using h), ht]
    · rw [List.takeWhile_cons_of_neg (by simpa using h),
        List.filter_cons_of_neg (by simpa using h)]
      have hlt : k < key a := lt_of_le_of_ne (hge a (List.mem_cons_self _ _))
        (fun hc => h hc.symm)
      rw [List.filter_eq_nil_iff.mpr (fun x hx => by
        have := hhead x hx
        simp only [decide_eq_true_eq]
        exact fun hc => absurd (hc ▸ lt_of_lt_of_le hlt this) (lt_irrefl _))]

/-- On a key-sorted list, the `= k` group after galloping past `< k` is the
filter at `k`. -/
theorem sorted_slice_eq_filter_at {α : Type} (key : α → Nat) :
    ∀ {l : List α}, SortedKey key l → ∀ (k : Nat),
      (l.dropWhile (fun x => decide (key x < k))).takeWhile
          (fun x => decide (key x = k)) =
        l.filter (fun x => decide (key x = k))
  | [], _, _ => rfl
  | a :: t, hs, k => by
    have hhead := sortedKey_head key hs
    by_cases h : key a < k
    · rw [List.dropWhile_cons_of_pos (by simpa using h),
        sorted_slice_eq_filter_at key (sortedKey_of_cons key hs) k,
        List.filter_cons_of_neg (by
          simp only [decide_eq_true_eq]
          exact fun hc => absurd (hc ▸ h) (lt_irrefl _))]
    · rw [List.dropWhile_cons_of_neg (by simpa using h)]
      refine takeWhile_eq_eq_filter_eq key hs k ?_
      intro x hx
      rcases List.mem_cons.mp hx with rfl | hx
      · exact Nat.le_of_not_lt h
      · exact le_trans (Nat.le_of_not_lt h) (hhead x hx)

theorem filter_eq_length_count (l : List Val) (p : Val) :
    (l.filter (fun x => decide (x = p))).length = l.count p := by
  induction l with
  | nil => rfl
  | cons a t ih =>
    rw [List.filter_cons, List.count_cons]
    by_cases h : a = p
    · rw [if_pos (by simpa using h), if_pos (show (a == p) = true by simpa using h),
        List.length_cons, ih]
    · rw [if_neg (by simpa using h), if_neg (show ¬ (a == p) = true by simpa using h),
        ih]
      omega

theorem sum_if_valid_eq_dSum (p : Val) (valid : Time → Bool) :
    ∀ l : List Upd,
      ((l.filter (fun x => decide (x.val = p))).map
        (fun x => if valid x.time then x.diff else 0)).sum = dSum p l valid
  | [] => rfl
  | x :: rest => by
    have ih := sum_if_valid_eq_dSum p valid rest
    simp only [dSum] at ih ⊢
    rw [List.filter_cons, List.filter_cons]
    by_cases hval : x.val = p
    · rw [if_pos (by simpa using hval)]
      by_cases hv : valid x.time
      · rw [if_pos (by simp [hv, hval]), List.map_cons, List.sum_cons,
          List.map_cons, List.sum_cons, if_pos hv, ih]
      · rw [if_neg (by simp [hv]), List.map_cons, List.sum_cons, if_neg hv, ih]
        ring_nf
    · rw [if_neg (by simpa using hval), if_neg (by simp [hval]), ih]

theorem zipWith_add2_congr (f g h₁ h₂ : Val → Int) :
    ∀ (src : List Val) (temp : List Int),
      (∀ p ∈ src, f p = g p ∧ h₁ p = h₂ p) →
      List.zipWith (fun p t => t + f p + h₁ p) src temp =
        List.zipWith (fun p t => t + g p + h₂ p) src temp
  | [], _, _ => rfl
  | p :: ps, [], _ => rfl
  | p :: ps, t :: ts, h => by
    rw [List.zipWith_cons_cons, List.zipWith_cons_cons,
      (h p (List.mem_cons_self _ _)).1, (h p (List.mem_cons_self _ _)).2,
      zipWith_add2_congr f g h₁ h₂ ps ts
        (fun q hq => h q (List.mem_cons_of_mem _ hq))]

theorem count_beyond_slice {csl : List Val} (p q : Val) (hpq : p < q) :
    (((csl.dropWhile (fun x => decide (x < p))).dropWhile
        (fun x => decide (x = p))).count q : Int) = (csl.count q : Int) := by
  have h1 : csl = csl.takeWhile (fun x => decide (x < p)) ++
      csl.dropWhile (fun x => decide (x < p)) :=
    (List.takeWhile_append_dropWhile ..).symm
  have h2 : csl.dropWhile (fun x => decide (x < p)) =
      (csl.dropWhile (fun x => decide (x < p))).takeWhile (fun x => decide (x = p)) ++
        (csl.dropWhile (fun x => decide (x < p))).dropWhile (fun x => decide (x = p)) :=
    (List.takeWhile_append_dropWhile ..).symm
  conv_rhs => rw [h1, h2]
  rw [List.count_append, List.count_append]
  have hA : (csl.takeWhile (fun x => decide (x < p))).count q = 0 := by
    refine List.count_eq_zero.mpr ?_
    intro hmem
    have := List.mem_takeWhile_imp hmem
    simp only [decide_eq_true_eq] at this
    exact absurd (lt_trans this hpq) (lt_irrefl q)
  have hB : ((csl.dropWhile (fun x => decide (x < p))).takeWhile
      (fun x => decide (x = p))).count q = 0 := by
    refine List.count_eq_zero.mpr ?_
    intro hmem
    have := List.mem_takeWhile_imp hmem
    simp only [decide_eq_true_eq] at this
    exact absurd (this ▸ hpq) (lt_irrefl q)
  rw [hA, hB]
  push_cast
  ring_nf

theorem dSum_beyond_slice (valid : Time → Bool) {dsl : List Upd} (p q : Val)
    (hpq : p < q) :
    dSum q (((dsl.dropWhile (fun x => decide (x.val < p))).dropWhile
        (fun x => decide (x.val = p)))) valid = dSum q dsl valid := by
  have h1 : dsl = dsl.takeWhile (fun x => decide (x.val < p)) ++
      dsl.dropWhile (fun x => decide (x.val < p)) :=
    (List.takeWhile_append_dropWhile ..).symm
  have h2 : dsl.dropWhile (fun x => decide (x.val < p)) =
      (dsl.dropWhile (fun x => decide (x.val < p))).takeWhile
          (fun x => decide (x.val = p)) ++
        (dsl.dropWhile (fun x => decide (x.val < p))).dropWhile
          (fun x => decide (x.val = p)) :=
    (List.takeWhile_append_dropWhile ..).symm
  conv_rhs => rw [h1, h2]
  simp only [dSum, List.filter_append, List.map_append, List.sum_append]
  have hA : (dsl.takeWhile (fun x => decide (x.val < p))).filter
      (fun x => valid x.time && decide (x.val = q)) = [] := by
    refine List.filter_eq_nil_iff.mpr ?_
    intro x hx
    have := List.mem_takeWhile_imp hx
    simp only [decide_eq_true_eq] at this
    simp only [Bool.and_eq_true, decide_eq_true_eq, not_and]
    exact fun _ hc => absurd (hc ▸ this) (fun hlt => absurd (lt_trans hlt hpq) (lt_irrefl _))
  have hB : ((dsl.dropWhile (fun x => decide (x.val < p))).takeWhile
      (fun x => decide (x.val = p))).filter
        (fun x => valid x.time && decide (x.val = q)) = [] := by
    refine List.filter_eq_nil_iff.mpr ?_
    intro x hx
    have := List.mem_takeWhile_imp hx
    simp only [decide_eq_true_eq] at this
    simp only [Bool.and_eq_true, decide_eq_true_eq, not_and]
    exact fun _ hc => absurd ((hc ▸ this : q = p) ▸ hpq) (lt_irrefl _)
  rw [hA, hB]
  simp

/-- The compact/unsorted walk of `intersect` adds, per source value, the count in
the compact slice and the valid diff sum in the unsorted slice. -/
theorem walkCD_char (valid : Time → Bool) :
    ∀ (src : List Val) (temp : List Int) (csl : List Val) (dsl : List Upd),
      List.Pairwise (fun a b : Val => a < b) src →
      SortedKey (fun v : Val => v) csl →
      SortedKey Upd.val dsl →
      temp.length = src.length →
      walkCD valid src temp csl dsl =
        List.zipWith (fun p t => t + (csl.count p : Int) + dSum p dsl valid) src temp
  | [], temp, csl, dsl, _, _, _, _ => rfl
  | p :: ps, [], csl, dsl, _, _, _, hlen => by simp at hlen
  | p :: ps, t :: ts, csl, dsl, hsrc, hcs, hds, hlen => by
    have hsrc' := (List.pairwise_cons.mp hsrc).2
    have hshead := (List.pairwise_cons.mp hsrc).1
    have htlen : (ts : List Int).length = ps.length := by simpa using hlen
    simp only [walkCD]
    rw [advance_drop_eq, advance_drop_eq]
    have h1 : (csl.dropWhile (fun x => decide (x < p))).takeWhile
        (fun x => decide (x = p)) = csl.filter (fun x => decide (x = p)) :=
      sorted_slice_eq_filter_at (fun v : Val => v) hcs p
    have h2 : (dsl.dropWhile (fun x => decide (x.val < p))).takeWhile
        (fun x => decide (x.val = p)) = dsl.filter (fun x => decide (x.val = p)) :=
      sorted_slice_eq_filter_at Upd.val hds p
    rw [h1, h2, filter_eq_length_count, sum_if_valid_eq_dSum, List.zipWith_cons_cons]
    have hcs2 : SortedKey (fun v : Val => v)
        ((csl.dropWhile (fun x => decide (x < p))).dropWhile
          (fun x => decide (x = p))) :=
      List.Pairwise.sublist
        ((List.dropWhile_sublist _).trans (List.dropWhile_sublist _)) hcs
    have hds2 : SortedKey Upd.val
        ((dsl.dropWhile (fun x => decide (x.val < p))).dropWhile
          (fun x => decide (x.val = p))) :=
      List.Pairwise.sublist
        ((List.dropWhile_sublist _).trans (List.dropWhile_sublist _)) hds
    rw [walkCD_char valid ps ts _ _ hsrc' hcs2 hds2 htlen]
    refine congrArg (_ :: ·) ?_
    refine zipWith_add2_congr _ _ _ _ ps ts ?_
    intro q hq
    exact ⟨count_beyond_slice p q (hshead q hq),
      dSum_beyond_slice valid p q (hshead q hq)⟩

theorem zipWith_replicate_zero (f : Val → Int) :
    ∀ exts : List Val,
      List.zipWith (fun p t => t + f p) exts (List.replicate exts.length (0 : Int)) =
        exts.map f
  | [] => rfl
  | p :: ps => by
    rw [List.length_cons, List.replicate_succ, List.zipWith_cons_cons,
      zipWith_replicate_zero f ps, List.map_cons]
    simp

theorem zipWith_map_add2 (f c d : Val → Int) :
    ∀ exts : List Val,
      List.zipWith (fun p t => t + c p + d p) exts (exts.map f) =
        exts.map (fun p => f p + c p + d p)
  | [] => rfl
  | p :: ps => by
    rw [List.map_cons, List.zipWith_cons_cons, zipWith_map_add2 f c d ps, List.map_cons]

theorem zip_map_filter (g : Val → Int) :
    ∀ exts : List Val,
      ((exts.zip (exts.map g)).filter (fun vt => 0 < vt.2)).map (·.1) =
        exts.filter (fun v => decide (0 < g v))
  | [] => rfl
  | p :: ps => by
    rw [List.map_cons, List.zip_cons_cons, List.filter_cons, List.filter_cons]
    by_cases h : 0 < g p
    · rw [if_pos (by simpa using h), if_pos (by simpa using h), List.map_cons,
        zip_map_filter g ps]
    · rw [if_neg (by simpa using h), if_neg (by simpa using h), zip_map_filter g ps]

/-- The per-row accumulated diff consulted by `intersect`. -/
def rowAcc (cvals : List Val) (entry : EdgeList) (dvals : List Upd)
    (valid : Time → Bool) (v : Val) : Int :=
  valSum v entry.values + (cvals.count v : Int) + dSum v dvals valid

/-- One `intersect` row on a consolidated entry keeps exactly the extensions
with positive accumulated diff. -/
theorem intersectRow_char (cvals : List Val) (entry : EdgeList) (dvals : List Upd)
    (valid : Time → Bool) (exts : List Val)
    (hx : List.Pairwise (fun a b : Val => a < b) exts) (hb : entry.bounds = [])
    (he : List.Pairwise (fun x y : Val × Int => x.1 < y.1) entry.values)
    (hc : SortedKey (fun v : Val => v) cvals) (hd : SortedKey Upd.val dvals) :
    intersectRow cvals entry dvals valid exts =
      exts.filter (fun v => decide (0 < rowAcc cvals entry dvals valid v)) := by
  simp only [intersectRow, EdgeList.intersect]
  rw [hb, List.reverse_nil]
  simp only [edgeIntersectGo]
  rw [intersectHelperGo_char exts entry.values _ hx he (by rw [List.length_replicate]),
    zipWith_replicate_zero,
    walkCD_char valid exts _ cvals dvals hx hc hd (by rw [List.length_map]),
    zipWith_map_add2, zip_map_filter]
  simp only [rowAcc]

/-- How `intersect` rewrites one row of a consolidated state. -/
def interRowFun (s : Index) {P : Type} (func : P → Key) (valid : Time → Bool)
    (x : PropRow P) : PropRow P :=
  (x.1, intersectRow (s.compact.values_from (func x.1) 0).1 (s.edges (func x.1))
    ((s.diffs.values_from (func x.1) 0).1) valid x.2.1, x.2.2)

/-- On a key-sorted unsorted buffer, the slice for `k` is value-sorted. -/
theorem slice_val_sorted (s : Index)
    (hkv : List.Pairwise kvLe s.diffs.updates) (k : Key) :
    SortedKey Upd.val (s.diffs.values_from k 0).1 := by
  rw [Unsorted.slice_sem s.diffs (hkv.imp kvLe_key_le) k]
  have hp : List.Pairwise kvLe
      (s.diffs.updates.filter (fun x => decide (x.key = k))) :=
    List.Pairwise.sublist (List.filter_sublist _) hkv
  refine List.Pairwise.imp_of_mem ?_ hp
  intro a b ha hb hab
  have hak : a.key = k := by simpa using (List.mem_filter.mp ha).2
  have hbk : b.key = k := by simpa using (List.mem_filter.mp hb).2
  rcases hab with h | ⟨_, h⟩
  · exfalso
    rw [hak, hbk] at h
    exact lt_irrefl k h
  · exact h

/-- The key-grouped `intersect` loop on a fully consolidated edge map: the map is
unchanged and every row is rewritten by `interRowFun`. -/
theorem intersectLoop_char {P : Type} (s : Index) (func : P → Key) (valid : Time → Bool) :
    ∀ (fuel : Nat) (data : List (PropRow P)) (oC dC : Nat) (ed : Key → EdgeList),
      data.length ≤ fuel →
      List.Pairwise (fun x y => func x.1 ≤ func y.1) data →
      oC ≤ s.compact.keys.length →
      (∀ x ∈ s.compact.keys.take oC, ∀ r ∈ data, x.1 < func r.1) →
      dC ≤ s.diffs.updates.length →
      (∀ x ∈ s.diffs.updates.take dC, ∀ r ∈ data, x.key < func r.1) →
      (∀ r ∈ data, ed (func r.1) = s.edges (func r.1)) →
      (∀ r ∈ data, (s.edges (func r.1)).bounds = []) →
      (intersectLoop s func valid fuel data oC dC ed).1 = ed ∧
        (intersectLoop s func valid fuel data oC dC ed).2 =
          data.map (interRowFun s func valid) := by
  intro fuel
  induction fuel with
  | zero =>
    intro data oC dC ed hlen _ _ _ _ _ _ _
    rw [List.eq_nil_of_length_eq_zero (Nat.le_zero.mp hlen)]
    exact ⟨rfl, rfl⟩
  | succ fuel ih =>
    intro data oC dC ed hlen hpair hcle hctake hdle hdtake hed hbw
    cases data with
    | nil => exact ⟨rfl, rfl⟩
    | cons r rest =>
      have hc0 : s.compact.values_from (func r.1) oC = s.compact.values_from (func r.1) 0 :=
        compact_values_from_cursor s.compact (func r.1) oC hcle
          (fun x hx => hctake x hx r (List.mem_cons_self _ _))
      have hd0 : s.diffs.values_from (func r.1) dC = s.diffs.values_from (func r.1) 0 :=
        unsorted_values_from_cursor s.diffs (func r.1) dC hdle
          (fun x hx => hdtake x hx r (List.mem_cons_self _ _))
      have hpair' := (List.pairwise_cons.mp hpair).2
      have hhead := (List.pairwise_cons.mp hpair).1
      have hgt : ∀ x ∈ rest.dropWhile (fun x => decide (func x.1 = func r.1)),
          func r.1 < func x.1 :=
        mem_dropWhile_key_gt (fun x => func x.1) (func r.1) rest hpair' hhead
      have hsplit : r :: rest =
          (r :: rest.takeWhile (fun x => decide (func x.1 = func r.1))) ++
            rest.dropWhile (fun x => decide (func x.1 = func r.1)) := by
        rw [List.cons_append, List.takeWhile_append_dropWhile]
      simp only [intersectLoop]
      rw [hc0, hd0, hed r (List.mem_cons_self _ _),
        expend_of_bounds_nil _ (hbw r (List.mem_cons_self _ _))]
      have hupd : Function.update ed (func r.1) (s.edges (func r.1)) = ed := by
        rw [← hed r (List.mem_cons_self _ _)]
        exact Function.update_eq_self _ _
      rw [hupd]
      have hczero := compact_values_from_zero s.compact (func r.1)
      have hdzero := unsorted_values_from_zero s.diffs (func r.1)
      have hsubm : ∀ r' ∈ rest.dropWhile (fun x => decide (func x.1 = func r.1)),
          r' ∈ r :: rest :=
        fun r' hr' => List.mem_cons_of_mem _ ((List.dropWhile_sublist _).subset hr')
      have hrec := ih (rest.dropWhile (fun x => decide (func x.1 = func r.1)))
        (s.compact.values_from (func r.1) 0).2 (s.diffs.values_from (func r.1) 0).2 ed
        (le_trans (dropWhile_length_le _ rest) (by simpa using hlen))
        (List.Pairwise.sublist (List.Sublist.cons r (List.dropWhile_sublist _)) hpair)
        hczero.1
        (fun x hx r' hr' => lt_of_le_of_lt (hczero.2 x hx) (hgt r' hr'))
        hdzero.1
        (fun x hx r' hr' => lt_of_le_of_lt (hdzero.2 x hx) (hgt r' hr'))
        (fun r' hr' => hed r' (hsubm r' hr'))
        (fun r' hr' => hbw r' (hsubm r' hr'))
      refine ⟨hrec.1, ?_⟩
      rw [hrec.2]
      conv_rhs => rw [hsplit]
      rw [List.map_append]
      refine congrArg (· ++ _) ?_
      refine List.map_congr_left ?_
      intro x hx
      have hk : func x.1 = func r.1 := by
        rcases List.mem_cons.mp hx with rfl | hx
        · rfl
        · simpa using List.mem_takeWhile_imp hx
      rw [interRowFun, hk]

/-- `Index.intersect` on a fully consolidated state: the state is unchanged and
each key-sorted row is rewritten by `interRowFun`. -/
theorem intersectOp_char {P : Type} (s : Index) (data : List (PropRow P))
    (func : P → Key) (valid : Time → Bool)
    (hbw : ∀ r ∈ data, (s.edges (func r.1)).bounds = []) :
    (Index.intersectOp s data func valid).1 = s ∧
      (Index.intersectOp s data func valid).2 =
        (sortByKeyOf func data).map (interRowFun s func valid) := by
  have hsorted : List.Pairwise (fun x y => func x.1 ≤ func y.1)
      (sortByKeyOf func data) := by
    letI : IsTotal (PropRow P) (fun x y => func x.1 ≤ func y.1) :=
      ⟨fun a b => Nat.le_total (func a.1) (func b.1)⟩
    letI : IsTrans (PropRow P) (fun x y => func x.1 ≤ func y.1) :=
      ⟨fun _ _ _ h₁ h₂ => Nat.le_trans h₁ h₂⟩
    exact List.sorted_insertionSort _ data
  have hbw' : ∀ r ∈ sortByKeyOf func data, (s.edges (func r.1)).bounds = [] :=
    fun r hr => hbw r ((List.perm_insertionSort _ data).subset hr)
  have hloop := intersectLoop_char s func valid data.length (sortByKeyOf func data)
    0 0 s.edges
    (le_of_eq (List.Perm.length_eq (List.perm_insertionSort _ data)))
    hsorted (Nat.zero_le _) (by simp) (Nat.zero_le _) (by simp)
    (fun _ _ => rfl) hbw'
  constructor
  · show { s with edges := (intersectLoop s func valid data.length
      (sortByKeyOf func data) 0 0 s.edges).1 } = s
    rw [hloop.1]
  · exact hloop.2

/-- C6 (amended): `intersect` is idempotent on states whose consulted edge lists
are fully consolidated (single strictly-sorted run), with sorted compact slices
and a `(key, val)`-sorted unsorted buffer, and strictly sorted extension lists;
in general it is *not* idempotent (see the counterexample: raw runs with
canceling diffs give `[7,7] ↦ [7] ↦ []`). -/
theorem intersect_idempotent_amended {P : Type} (s : Index) (data : List (PropRow P))
    (func : P → Key) (valid : Time → Bool)
    (hkv : List.Pairwise kvLe s.diffs.updates)
    (hb : ∀ r ∈ data, (s.edges (func r.1)).bounds = [])
    (hev : ∀ r ∈ data, List.Pairwise (fun x y : Val × Int => x.1 < y.1)
      (s.edges (func r.1)).values)
    (hcs : ∀ r ∈ data, List.Pairwise (fun a b : Val => a ≤ b)
      (s.compact.values_from (func r.1) 0).1)
    (hexts : ∀ r ∈ data, List.Pairwise (fun a b : Val => a < b) r.2.1) :
    (Index.intersectOp (Index.intersectOp s data func valid).1
        (Index.intersectOp s data func valid).2 func valid).2 =
      (Index.intersectOp s data func valid).2 := by
  obtain ⟨h1s, h1out⟩ := intersectOp_char s data func valid hb
  rw [h1s, h1out]
  have hLmem : ∀ r ∈ (sortByKeyOf func data).map (interRowFun s func valid),
      ∃ x ∈ data, r = interRowFun s func valid x := by
    intro r hr
    obtain ⟨x, hx, rfl⟩ := List.mem_map.mp hr
    exact ⟨x, (List.perm_insertionSort _ data).subset hx, rfl⟩
  have hb2 : ∀ r ∈ (sortByKeyOf func data).map (interRowFun s func valid),
      (s.edges (func r.1)).bounds = [] := by
    intro r hr
    obtain ⟨x, hx, rfl⟩ := hLmem r hr
    exact hb x hx
  obtain ⟨-, h2out⟩ := intersectOp_char s
    ((sortByKeyOf func data).map (interRowFun s func valid)) func valid hb2
  rw [h2out]
  have hsorted : List.Pairwise (fun x y => func x.1 ≤ func y.1)
      (sortByKeyOf func data) := by
    letI : IsTotal (PropRow P) (fun x y => func x.1 ≤ func y.1) :=
      ⟨fun a b => Nat.le_total (func a.1) (func b.1)⟩
    letI : IsTrans (PropRow P) (fun x y => func x.1 ≤ func y.1) :=
      ⟨fun _ _ _ h₁ h₂ => Nat.le_trans h₁ h₂⟩
    exact List.sorted_insertionSort _ data
  have hLsorted : List.Pairwise (fun x y => func x.1 ≤ func y.1)
      ((sortByKeyOf func data).map (interRowFun s func valid)) :=
    List.pairwise_map.mpr hsorted
  have hsLeq : sortByKeyOf func
      ((sortByKeyOf func data).map (interRowFun s func valid)) =
      (sortByKeyOf func data).map (interRowFun s func valid) := by
    rw [sortByKeyOf]
    exact List.Sorted.insertionSort_eq hLsorted
  rw [hsLeq]
  have hidem : ∀ r ∈ (sortByKeyOf func data).map (interRowFun s func valid),
      interRowFun s func valid r = r := by
    intro r hr
    obtain ⟨x, hx, rfl⟩ := hLmem r hr
    have hdval := slice_val_sorted s hkv (func x.1)
    have hfirst : intersectRow (s.compact.values_from (func x.1) 0).1
        (s.edges (func x.1)) ((s.diffs.values_from (func x.1) 0).1) valid x.2.1 =
        x.2.1.filter (fun v => decide (0 < rowAcc (s.compact.values_from (func x.1) 0).1
          (s.edges (func x.1)) ((s.diffs.values_from (func x.1) 0).1) valid v)) :=
      intersectRow_char _ _ _ valid x.2.1 (hexts x hx) (hb x hx) (hev x hx)
        (hcs x hx) hdval
    show (x.1, intersectRow (s.compact.values_from (func x.1) 0).1
        (s.edges (func x.1)) ((s.diffs.values_from (func x.1) 0).1) valid
        (intersectRow (s.compact.values_from (func x.1) 0).1
          (s.edges (func x.1)) ((s.diffs.values_from (func x.1) 0).1) valid x.2.1),
      x.2.2) = interRowFun s func valid x
    rw [interRowFun, hfirst,
      intersectRow_char _ _ _ valid _
        (List.Pairwise.sublist (List.filter_sublist _) (hexts x hx)) (hb x hx)
        (hev x hx) (hcs x hx) hdval,
      List.filter_eq_self.mpr (fun a ha => (List.mem_filter.mp ha).2)]
  rw [List.map_congr_left hidem]
  exact List.map_id _

/-- The C6 counterexample state: a consolidated run of six values under key `0`,
then a raw sealed run holding `(7,-5)` and `(7,2)`. -/
def s6c : Index :=
  (((Index.updateOp Index.new 1
      ((List.range 6).map (fun i => ((0, i + 1), (1 : Int))))).merge_to 1).updateOp 2
    [((0, 7), -5), ((0, 7), 2)]).merge_to 2

/-- C6 counterexample: on a raw (unconsolidated) run, intersecting `[7,7]` keeps
the second copy (count `2`), but intersecting the result `[7]` again matches the
`-5` entry first and drops it: `intersect ∘ intersect ≠ intersect`. -/
theorem intersect_idem_counterexample :
    (Index.intersectOp (P := Nat) s6c [(0, [7, 7], 1)] (fun p => p)
        (fun _ => true)).2 = [(0, [7], 1)] ∧
      (Index.intersectOp (P := Nat)
          (Index.intersectOp (P := Nat) s6c [(0, [7, 7], 1)] (fun p => p)
            (fun _ => true)).1
          (Index.intersectOp (P := Nat) s6c [(0, [7, 7], 1)] (fun p => p)
            (fun _ => true)).2
          (fun p => p) (fun _ => true)).2 = [(0, [], 1)] ∧
      ([(0, [7], 1)] : List (PropRow Nat)) ≠ [(0, [], 1)] := by
  refine ⟨by decide, by decide, by decide⟩

/-- The C6 witness state: one consolidated strictly sorted run. -/
def s6w : Index := (Index.updateOp Index.new 1 [((1, 5), 1), ((1, 9), 1)]).merge_to 1

/-- Witness for the amended C6 at a concrete consolidated state. -/
theorem intersect_idempotent_amended_witness :
    (Index.intersectOp (P := Nat)
        (Index.intersectOp (P := Nat) s6w [(0, [5, 7], 1)] (fun _ => 1)
          (fun _ => true)).1
        (Index.intersectOp (P := Nat) s6w [(0, [5, 7], 1)] (fun _ => 1)
          (fun _ => true)).2
        (fun _ => 1) (fun _ => true)).2 =
      (Index.intersectOp (P := Nat) s6w [(0, [5, 7], 1)] (fun _ => 1)
        (fun _ => true)).2 :=
  intersect_idempotent_amended s6w [(0, [5, 7], 1)] (fun _ => 1) (fun _ => true)
    (by decide) (by decide) (by decide) (by decide) (by decide)

/-! ## C10: zero-count prefixes are dropped by the count stage -/

/-- The stream extender's `count` operator (`extender.rs`): update the labels via
the shared index and keep only tuples with a positive best count. -/
def extenderCountStage (s : Index) {Q : Type} (data : List (CountRow Q))
    (func : Q → Key) (valid : Time → Bool) (ident : Nat) : List (CountRow Q) :=
  (Index.countOp s data func valid ident).filter (fun x => 0 < x.2.1)

theorem proposeStage_fst {P E : Type} (ext : PrefixExtender P E) (l : List P) :
    (proposeStage ext l).map (·.1) = l := by
  rw [proposeStage, List.map_map]
  exact List.map_id _

/-- C10 (confirmed): every tuple surviving the extender's count stage has a
positive best count, and a surviving tuple's key cannot have a zero estimate;
in the generic-join pipeline, a prefix for which some extender estimates zero
extensions is dropped by the count phase and never reaches the propose or
intersect stages. -/
theorem count_stage_drops_zero {P E Q : Type} (s : Index) (data : List (CountRow Q))
    (func : Q → Key) (valid : Time → Bool) (ident : Nat)
    (extenders : List (PrefixExtender P E)) (input : List P)
    (e : PrefixExtender P E) (p : P) (he : e ∈ extenders) (hp : e.count p = 0) :
    (∀ y ∈ extenderCountStage s data func valid ident,
        0 < y.2.1 ∧ countEst s (func y.1) ≠ 0) ∧
      (∀ r ∈ genericCounts extenders input, r.1 ≠ p) ∧
      (∀ pr ∈ genericJoinExtend extenders input, pr.1 ≠ p) := by
  have hgc : ∀ r ∈ genericCounts extenders input, r.1 ≠ p := by
    intro r hr hrp
    rw [genericCounts_eq] at hr
    obtain ⟨q, hq, hmap⟩ := List.mem_filterMap.mp hr
    cases hcf : countFold extenders q with
    | none => rw [hcf] at hmap; exact Option.noConfusion hmap
    | some ci =>
      rw [hcf] at hmap
      simp at hmap
      have hq1 : r.1 = q := by rw [← hmap]
      have hqp : q = p := by rw [← hq1, hrp]
      subst hqp
      have hsome : (countFold extenders q).isSome := by rw [hcf]; rfl
      have := (countFold_isSome_iff extenders q).mp hsome e he
      omega
  refine ⟨?_, hgc, ?_⟩
  · intro y hy
    have hmem := List.mem_filter.mp hy
    have hpos : 0 < y.2.1 := by simpa using hmem.2
    refine ⟨hpos, ?_⟩
    intro hzero
    have hchar := countOp_char s data func valid ident
    rw [hchar] at hmem
    obtain ⟨x, _, hx⟩ := List.mem_map.mp hmem.1
    rw [countRowFun] at hx
    by_cases hlt : countEst s (func x.1) < x.2.1
    · rw [if_pos hlt] at hx
      have h1 : y.2.1 = countEst s (func x.1) := by rw [← hx]
      have h2 : func y.1 = func x.1 := by rw [← hx]
      have h3 : countEst s (func x.1) = 0 := by rw [← h2, hzero]
      rw [h1, h3] at hpos
      exact lt_irrefl 0 hpos
    · rw [if_neg hlt] at hx
      subst hx
      rw [hzero] at hlt
      omega
  · intro pr hpr hprp
    rw [genericJoinExtend] at hpr
    obtain ⟨ie, _, hmem⟩ := List.mem_flatMap.mp hpr
    have := mem_intersectFold_fst _ _ _ hmem
    rw [proposeStage_fst] at this
    obtain ⟨r, hr, hr1⟩ := List.mem_map.mp this
    exact hgc r (List.mem_of_mem_filter hr) (by rw [hr1, hprp])

/-- A zero-estimate extender used by the C10 witness. -/
def zeroCountExt : PrefixExtender Nat Nat :=
  ⟨fun _ => 0, fun _ => [], fun _ es => es⟩

/-- Witness for C10 at a concrete index, batch and pipeline. -/
theorem count_stage_drops_zero_witness :
    (∀ y ∈ extenderCountStage Index.new [((0 : Nat), 2 ^ 31, 0, (1 : Int))]
        (fun _ => 1) (fun _ => true) 0, 0 < y.2.1 ∧ countEst Index.new (1 : Key) ≠ 0) ∧
      (∀ r ∈ genericCounts [zeroCountExt] [(5 : Nat)], r.1 ≠ 5) ∧
      (∀ pr ∈ genericJoinExtend [zeroCountExt] [(5 : Nat)], pr.1 ≠ 5) := by
  have h := count_stage_drops_zero Index.new [((0 : Nat), 2 ^ 31, 0, (1 : Int))]
    (fun _ => 1) (fun _ => true) 0 [zeroCountExt] [(5 : Nat)] zeroCountExt 5
    (List.mem_singleton.mpr rfl) rfl
  exact ⟨fun y hy => ⟨(h.1 y hy).1, (h.1 y hy).2⟩, h.2.1, h.2.2⟩

end DataflowJoin
